import Mathlib

/-!
Verification development for the `cargo-tree-tui` repository.

The file shallowly embeds the parts of the code base the claims speak
about:

* `src/core/dependency.rs` — the dependency-tree builder
  (`DependencyTree::build_dependency_node`, `DependencyTree::load`),
  modelled in namespace `Core`.  Recursion is indexed by an explicit
  fuel parameter because the Rust recursion has no structural
  termination argument; every lemma that needs the recursion to have
  finished carries an explicit fuel bound.
* `src/ops/tree/tui/widget_state.rs` — the dirty-flag navigation state
  (`TreeWidgetState` with `search`), modelled in namespace `WS`.
* `src/ops/tree/tui/widget/state.rs` — the incremental navigation state
  (`TreeWidgetState` with `insert_descendants` / `prune_descendants`),
  modelled in namespace `WI`.
* `src/ops/tree/tui/widget.rs` — `Viewport::new`, namespace `VP`.
* `src/ops/tree/tui/widget/breadcrumb.rs` — `Breadcrumb::elide_crumbs`,
  namespace `BC`.

Machine integers (`usize`) are modelled as `Nat`; `usize` subtraction in
the source is `saturating_sub` or guarded, matching `Nat` subtraction.
`FxHashMap` is modelled as an association list with insert-at-front
(overwrite) semantics, `HashSet<NodeId>` as a `Finset Nat`.
-/

namespace CTT

/-- Rust `Iterator::position`: index of the first element satisfying `p`. -/
def position {α : Type} (p : α → Bool) : List α → Option Nat
  | [] => none
  | a :: l => if p a then some 0 else (position p l).map (· + 1)

namespace Core

/-- `cargo_metadata::DependencyKind` (non-exhaustive in the source; the
extra constructor stands for any kind `TryFrom` rejects). -/
inductive DependencyKind
  | normal
  | development
  | build
  | unknown
deriving DecidableEq, Repr

/-- `DependencyType` from `src/core/dependency.rs`. -/
inductive DependencyType
  | Normal
  | Dev
  | Build
deriving DecidableEq, Repr

/-- `TryFrom<DependencyKind> for DependencyType`, as `Option`. -/
def DependencyType.tryFrom : DependencyKind → Option DependencyType
  | .normal => some .Normal
  | .development => some .Dev
  | .build => some .Build
  | .unknown => none

/-- `cargo_metadata::TargetKind`, collapsed to what the builder inspects. -/
inductive TargetKind
  | procMacro
  | other
deriving DecidableEq, Repr

/-- A build target: only its `kind` list is read by the builder. -/
structure Target where
  kind : List TargetKind
deriving DecidableEq, Repr

/-- `cargo_metadata::Package`, restricted to the fields the builder reads.
`id` models `PackageId` as a number, `source = none` means a local (path)
package, `manifestParent` models `manifest_path.parent()`. -/
structure Package where
  id : Nat
  name : String
  version : String
  source : Option String
  manifestParent : Option String
  targets : List Target
deriving DecidableEq, Repr

/-- One entry of `Node::deps`: the dependency's package id plus the
`dep_kinds` kind tags. -/
structure NodeDep where
  pkg : Nat
  dep_kinds : List DependencyKind
deriving DecidableEq, Repr

/-- One entry of `Resolve::nodes`. -/
structure RNode where
  id : Nat
  deps : List NodeDep
deriving DecidableEq, Repr

/-- `Dependency` (a Crate node) from `src/core/dependency.rs`.
`isProcMacro` models the `is_proc_macro` field. -/
structure Dependency where
  name : String
  version : String
  manifest_dir : Option String
  isProcMacro : Bool
  parent : Option Nat
  children : List Nat
deriving DecidableEq, Repr

/-- `DependencyGroup` from `src/core/dependency.rs`. -/
structure DependencyGroup where
  kind : DependencyType
  parent : Option Nat
  children : List Nat
deriving DecidableEq, Repr

/-- `DependencyNode` from `src/core/dependency.rs`. -/
inductive DependencyNode
  | Crate (d : Dependency)
  | Group (g : DependencyGroup)
deriving DecidableEq, Repr

/-- The mutable state threaded through `build_dependency_node`:
the arena vector `nodes` and the deduplication map `node_map`
(keys are `(PackageId, Option NodeId)` pairs). -/
structure BuildState where
  nodes : List DependencyNode
  node_map : List ((Nat × Option Nat) × Nat)
deriving DecidableEq, Repr

/-- `HashMap::get` on the association-list model. -/
def lookupMap (m : List ((Nat × Option Nat) × Nat)) (k : Nat × Option Nat) :
    Option Nat :=
  match m with
  | [] => none
  | e :: rest => if e.1 = k then some e.2 else lookupMap rest k

/-- `HashMap::insert` (new binding shadows any older one). -/
def insertMap (m : List ((Nat × Option Nat) × Nat)) (k : Nat × Option Nat)
    (v : Nat) : List ((Nat × Option Nat) × Nat) :=
  (k, v) :: m

/-- `package_map.get(package_id)`: the packages are keyed by their id. -/
def pkgFind : List Package → Nat → Option Package
  | [], _ => none
  | p :: rest, pid => if p.id = pid then some p else pkgFind rest pid

/-- `resolve_nodes.get(package_id)`. -/
def resolveFind : List RNode → Nat → Option RNode
  | [], _ => none
  | n :: rest, pid => if n.id = pid then some n else resolveFind rest pid

/-- `dep.dep_kinds.iter().find_map(|kind| DependencyType::try_from(kind.kind).ok())`. -/
def depTypeOf : List DependencyKind → Option DependencyType
  | [] => none
  | k :: rest =>
    match DependencyType.tryFrom k with
    | some t => some t
    | none => depTypeOf rest

/-- The classification loop over `node.deps`: the three buckets
`normal`, `dev`, `build`, each in edge order. -/
def classifyDeps : List NodeDep → List Nat × List Nat × List Nat
  | [] => ([], [], [])
  | d :: rest =>
    let (n, dv, b) := classifyDeps rest
    match depTypeOf d.dep_kinds with
    | some .Normal => (d.pkg :: n, dv, b)
    | some .Dev => (n, d.pkg :: dv, b)
    | some .Build => (n, dv, d.pkg :: b)
    | none => (n, dv, b)

/-- `if let Some(DependencyNode::Crate(dependency)) = nodes.get_mut(node_id.0)
\{ dependency.children = children \}`. -/
def setCrateChildren (nodes : List DependencyNode) (i : Nat) (cs : List Nat) :
    List DependencyNode :=
  match nodes.get? i with
  | some (.Crate d) => nodes.set i (.Crate { d with children := cs })
  | _ => nodes

/-- `if let Some(DependencyNode::Group(group)) = nodes.get_mut(group_id.0)
\{ group.children = children \}`. -/
def setGroupChildren (nodes : List DependencyNode) (i : Nat) (cs : List Nat) :
    List DependencyNode :=
  match nodes.get? i with
  | some (.Group g) => nodes.set i (.Group { g with children := cs })
  | _ => nodes

/-- The sequential child-building loop shared by the `for dep_id in normal`
loop and the `deps.into_iter().filter_map(...)` collection inside
`build_group`: run `bld` on every id, keeping the `Some` results in order
while threading the arena state. -/
def buildListAux (bld : Nat → Option Nat → BuildState → Option Nat × BuildState)
    (pids : List Nat) (parent : Option Nat) (st : BuildState) :
    List Nat × BuildState :=
  match pids with
  | [] => ([], st)
  | p :: rest =>
    match bld p parent st with
    | (some c, st') =>
      let (cs, st'') := buildListAux bld rest parent st'
      (c :: cs, st'')
    | (none, st') => buildListAux bld rest parent st'

/-- The `build_group` closure of `build_dependency_node`: for a non-empty
bucket, push a Group node, append its id to `children`, build the bucket
members with the group as parent and store them as the group's children. -/
def buildGroupAux
    (blst : List Nat → Option Nat → BuildState → List Nat × BuildState)
    (kind : DependencyType) (deps : List Nat) (node_id : Nat)
    (children : List Nat) (st : BuildState) : List Nat × BuildState :=
  if deps = [] then (children, st)
  else
    let group_id := st.nodes.length
    let st1 : BuildState :=
      ⟨st.nodes ++ [.Group ⟨kind, some node_id, []⟩], st.node_map⟩
    let (gcs, st2) := blst deps (some group_id) st1
    (children ++ [group_id], ⟨setGroupChildren st2.nodes group_id gcs, st2.node_map⟩)

/-- `DependencyTree::build_dependency_node`, fuel-indexed.  Fuel `0` stands
for a recursion that has not finished (the Rust function recurses without
any bound). -/
def buildDependencyNode (packages : List Package) (resolve : List RNode) :
    Nat → Nat → Option Nat → BuildState → Option Nat × BuildState
  | 0, _, _, st => (none, st)
  | f + 1, package_id, parent, st =>
    let key := (package_id, parent)
    match lookupMap st.node_map key with
    | some existing => (some existing, st)
    | none =>
      match pkgFind packages package_id with
      | none => (none, st)
      | some package =>
        let manifest_dir :=
          if package.source.isNone then package.manifestParent else none
        let isPM :=
          package.targets.any fun t => t.kind.any fun k => k = TargetKind.procMacro
        let node_id := st.nodes.length
        let st1 : BuildState :=
          ⟨st.nodes ++
              [.Crate ⟨package.name, package.version, manifest_dir, isPM,
                parent, []⟩],
            insertMap st.node_map key node_id⟩
        match resolveFind resolve package_id with
        | none => (some node_id, st1)
        | some node =>
          let (normal, dev, build) := classifyDeps node.deps
          let (children, st2) :=
            buildListAux (buildDependencyNode packages resolve f) normal
              (some node_id) st1
          let (children, st3) :=
            buildGroupAux
              (buildListAux (buildDependencyNode packages resolve f)) .Dev dev
              node_id children st2
          let (children, st4) :=
            buildGroupAux
              (buildListAux (buildDependencyNode packages resolve f)) .Build
              build node_id children st3
          (some node_id, ⟨setCrateChildren st4.nodes node_id children, st4.node_map⟩)

/-- Invariant of the deduplication map: every stored id points into the
arena, and distinct keys are mapped to distinct ids. -/
def MapInv (st : BuildState) : Prop :=
  (∀ k v, lookupMap st.node_map k = some v → v < st.nodes.length) ∧
  (∀ k1 k2 v, lookupMap st.node_map k1 = some v →
    lookupMap st.node_map k2 = some v → k1 = k2)

/-- Every key in the map has a parent component pointing into the arena
(or no parent). -/
def KeyParentsValid (st : BuildState) : Prop :=
  ∀ k v, lookupMap st.node_map k = some v →
    k.2 = none ∨ ∃ q, k.2 = some q ∧ q < st.nodes.length

/-- A one-package workspace whose resolve graph has a dependency cycle
(the package depends on itself; cargo permits cycles through
dev-dependencies). -/
def loopPackages : List Package :=
  [⟨0, "a", "0.1.0", none, none, []⟩]

/-- The cyclic resolve graph for `loopPackages`. -/
def loopResolve : List RNode :=
  [⟨0, [⟨0, [.normal]⟩]⟩]

/-- The result type of `DependencyTree::load`. -/
structure DependencyTree where
  workspace_name : String
  nodes : List DependencyNode
  roots : List Nat
deriving DecidableEq, Repr

/-- The parsed output of `cargo metadata` (fields `load` reads).
`root_package_name` models `metadata.root_package().map(|p| p.name)`. -/
structure Metadata where
  packages : List Package
  workspace_members : List Nat
  resolve : Option (List RNode)
  root_package_name : Option String
deriving DecidableEq, Repr

/-- `DependencyTree::load`, given the (already executed) metadata command
result: `none` models a `cargo metadata` invocation that failed or whose
output could not be parsed.  `fuel` bounds the recursion of
`build_dependency_node` (unbounded in the source). -/
def load (fuel : Nat) (metadataResult : Option Metadata) :
    Except String DependencyTree :=
  match metadataResult with
  | none => .error "failed to execute Cargo metadata"
  | some metadata =>
    let workspace_name := metadata.root_package_name.getD "workspace"
    match metadata.resolve with
    | none => .error "failed to resolve dependency graph"
    | some resolve =>
      let members := metadata.packages.filter
        fun pkg => metadata.workspace_members.contains pkg.id
      let (roots, st) :=
        members.foldl
          (fun (acc : List Nat × BuildState) pkg =>
            match buildDependencyNode metadata.packages resolve fuel pkg.id none
                acc.2 with
            | (some dependency, st') => (acc.1 ++ [dependency], st')
            | (none, st') => (acc.1, st'))
          ([], ⟨[], []⟩)
      .ok ⟨workspace_name, st.nodes, roots⟩

end Core

namespace UI

/-- The flat node shape the widget-state modules read: `name`, `parent`
and `children` fields of the arena node. -/
structure UNode where
  name : String
  parent : Option Nat
  children : List Nat
deriving DecidableEq, Repr

/-- The tree as the UI layer sees it: arena plus root list. -/
structure UTree where
  nodes : List UNode
  roots : List Nat
deriving DecidableEq, Repr

/-- `DependencyTree::node`: `self.nodes.get(id.0)`. -/
def UTree.node (t : UTree) (id : Nat) : Option UNode :=
  t.nodes.get? id

/-- `VisibleNode` from the widget-state modules. -/
structure VisibleNode where
  id : Nat
  depth : Nat
deriving DecidableEq, Repr

/-- `TreeWidgetState::collect_visible`, fuel-indexed (the Rust recursion
follows child indices without a bound; any fuel above the arena size is
enough on the trees the builder produces). -/
def collectVisible (t : UTree) (op : Finset Nat) :
    Nat → Nat → Nat → List VisibleNode
  | 0, _, _ => []
  | f + 1, id, depth =>
    ⟨id, depth⟩ ::
      (if id ∈ op then
        match t.node id with
        | some n => n.children.flatMap fun c => collectVisible t op f c (depth + 1)
        | none => []
      else [])

/-- Walk a whole list of launch points at one depth. -/
def walkList (t : UTree) (op : Finset Nat) (f : Nat) (ids : List Nat)
    (d : Nat) : List VisibleNode :=
  ids.flatMap fun i => collectVisible t op f i d

/-- Canonical fuel: one more than the arena size. -/
def fullFuel (t : UTree) : Nat :=
  t.nodes.length + 1

/-- `TreeWidgetState::rebuild_visible`: full pre-order walk from the roots. -/
def rebuildVisible (t : UTree) (op : Finset Nat) : List VisibleNode :=
  walkList t op (fullFuel t) t.roots 0

/-- Ids of a visible list. -/
def idsOf (l : List VisibleNode) : List Nat :=
  l.map VisibleNode.id

/-- The open set containing every arena index. -/
def fullOpen (t : UTree) : Finset Nat :=
  Finset.range t.nodes.length

/-- Well-formedness of a UI tree; all four parts hold for every tree the
builder produces (strictly increasing child indices, each id used at most
once as a root-or-child slot, parent pointers matching children lists, and
the fully-open walk visiting each node at most once). -/
structure WF (t : UTree) : Prop where
  inc : ∀ i n, t.node i = some n → ∀ c ∈ n.children, i < c
  slots : (t.roots ++ t.nodes.flatMap fun n => n.children).Nodup
  sym : ∀ i n p, t.node i = some n → n.parent = some p →
    ∃ pn, t.node p = some pn ∧ i ∈ pn.children
  nodupFull : (idsOf (rebuildVisible t (fullOpen t))).Nodup

/-- Executable check for `WF.inc`. -/
def wfIncB (t : UTree) : Bool :=
  (List.range t.nodes.length).all fun i =>
    match t.node i with
    | none => true
    | some n => n.children.all fun c => decide (i < c)

/-- Executable check for `WF.sym`. -/
def wfSymB (t : UTree) : Bool :=
  (List.range t.nodes.length).all fun i =>
    match t.node i with
    | none => true
    | some n =>
      match n.parent with
      | none => true
      | some q =>
        match t.node q with
        | some pn => pn.children.contains i
        | none => false

/-- A small sample tree: a root with two leaf children. -/
def sampleTree : UTree :=
  ⟨[⟨"root", none, [1, 2]⟩, ⟨"a", some 0, []⟩, ⟨"b", some 0, []⟩], [0]⟩

/-- A sample tree whose only `zzz` node is hidden below a closed root. -/
def searchTree : UTree :=
  ⟨[⟨"root", none, [1]⟩, ⟨"zzz", some 0, []⟩], [0]⟩

end UI

namespace WS

open UI

/-- `TreeWidgetState` from `src/ops/tree/tui/widget_state.rs`.
`opn` models the `open` field (`open` is a Lean keyword), `viewportHeight`
the height of the stored `viewport`. -/
structure TreeWidgetState where
  opn : Finset Nat
  selected : Option Nat
  viewportHeight : Nat
  visible_cache : List VisibleNode
  dirty : Bool
  search_query : Option (List Char)
  search_matches : List Nat
deriving DecidableEq

/-- `TreeWidgetState::default`. -/
def TreeWidgetState.default : TreeWidgetState :=
  ⟨∅, none, 0, [], true, none, []⟩

/-- The rebuild-if-dirty step at the top of `visible_nodes`. -/
def visibleUpd (t : UTree) (s : TreeWidgetState) : TreeWidgetState :=
  if s.dirty then
    { s with visible_cache := rebuildVisible t s.opn, dirty := false }
  else s

/-- What `visible_nodes` returns. -/
def visibleList (t : UTree) (s : TreeWidgetState) : List VisibleNode :=
  (visibleUpd t s).visible_cache

/-- `TreeWidgetState::ensure_selection`. -/
def ensure_selection (t : UTree) (s : TreeWidgetState) :
    TreeWidgetState × Bool :=
  let s := visibleUpd t s
  match s.visible_cache with
  | [] => ({ s with selected := none }, false)
  | v :: _ =>
    match s.selected with
    | some sel =>
      if s.visible_cache.any (fun n => n.id == sel) then (s, true)
      else ({ s with selected := some v.id }, true)
    | none => ({ s with selected := some v.id }, true)

/-- `TreeWidgetState::selected_index`. -/
def selected_index (visible : List VisibleNode) (target : Nat) : Option Nat :=
  position (fun n => n.id == target) visible

/-- `TreeWidgetState::select_next`. -/
def select_next (t : UTree) (s : TreeWidgetState) : TreeWidgetState :=
  match ensure_selection t s with
  | (s₁, false) => s₁
  | (s₁, true) =>
    match s₁.selected with
    | none => s₁
    | some sel =>
      match selected_index s₁.visible_cache sel with
      | none => s₁
      | some ci =>
        match s₁.visible_cache.get? (ci + 1) with
        | some nx => { s₁ with selected := some nx.id }
        | none => s₁

/-- `TreeWidgetState::select_previous`. -/
def select_previous (t : UTree) (s : TreeWidgetState) : TreeWidgetState :=
  match ensure_selection t s with
  | (s₁, false) => s₁
  | (s₁, true) =>
    match s₁.selected with
    | none => s₁
    | some sel =>
      match selected_index s₁.visible_cache sel with
      | none => s₁
      | some ci =>
        if 0 < ci then
          match s₁.visible_cache.get? (ci - 1) with
          | some pv => { s₁ with selected := some pv.id }
          | none => s₁
        else s₁

/-- `TreeWidgetState::expand` (dirty-flag variant). -/
def expand (t : UTree) (s : TreeWidgetState) : TreeWidgetState :=
  match ensure_selection t s with
  | (s₁, false) => s₁
  | (s₁, true) =>
    match s₁.selected with
    | none => s₁
    | some sel =>
      match t.node sel with
      | none => s₁
      | some n =>
        match n.children with
        | [] => s₁
        | c0 :: _ =>
          if sel ∈ s₁.opn then { s₁ with selected := some c0 }
          else { s₁ with opn := insert sel s₁.opn, dirty := true }

/-- `TreeWidgetState::collapse` (dirty-flag variant). -/
def collapse (t : UTree) (s : TreeWidgetState) : TreeWidgetState :=
  match ensure_selection t s with
  | (s₁, false) => s₁
  | (s₁, true) =>
    match s₁.selected with
    | none => s₁
    | some sel =>
      match t.node sel with
      | none => s₁
      | some n =>
        if n.children ≠ [] ∧ sel ∈ s₁.opn then
          { s₁ with opn := s₁.opn.erase sel, dirty := true }
        else
          match n.parent with
          | some p => { s₁ with selected := some p }
          | none => s₁

/-- `TreeWidgetState::select_parent`. -/
def select_parent (t : UTree) (s : TreeWidgetState) : TreeWidgetState :=
  match s.selected with
  | none => s
  | some sel =>
    match t.node sel with
    | none => s
    | some n =>
      match n.parent with
      | some p => { s with selected := some p }
      | none => s

/-- `TreeWidgetState::select_next_sibling` (this variant requires a
parent node; roots have no siblings here). -/
def select_next_sibling (t : UTree) (s : TreeWidgetState) : TreeWidgetState :=
  match s.selected with
  | none => s
  | some sel =>
    match t.node sel with
    | none => s
    | some n =>
      match n.parent with
      | none => s
      | some parent =>
        match t.node parent with
        | none => s
        | some pn =>
          match position (fun id => id == sel) pn.children with
          | none => s
          | some pos =>
            if pos + 1 < pn.children.length then
              match pn.children.get? (pos + 1) with
              | some sib => { s with selected := some sib }
              | none => s
            else s

/-- `TreeWidgetState::select_previous_sibling`. -/
def select_previous_sibling (t : UTree) (s : TreeWidgetState) :
    TreeWidgetState :=
  match s.selected with
  | none => s
  | some sel =>
    match t.node sel with
    | none => s
    | some n =>
      match n.parent with
      | none => s
      | some parent =>
        match t.node parent with
        | none => s
        | some pn =>
          match position (fun id => id == sel) pn.children with
          | none => s
          | some pos =>
            if 0 < pos then
              match pn.children.get? (pos - 1) with
              | some sib => { s with selected := some sib }
              | none => s
            else s

/-- `TreeWidgetState::move_by`. -/
def move_by (t : UTree) (s : TreeWidgetState) (delta : Int) :
    TreeWidgetState :=
  match ensure_selection t s with
  | (s₁, false) => s₁
  | (s₁, true) =>
    match s₁.selected with
    | none => s₁
    | some sel =>
      match selected_index s₁.visible_cache sel with
      | none => s₁
      | some ci =>
        let len : Int := s₁.visible_cache.length
        if len = 0 then s₁
        else
          let ni0 : Int := (ci : Int) + delta
          let ni := if ni0 < 0 then 0 else if len ≤ ni0 then len - 1 else ni0
          match s₁.visible_cache.get? ni.toNat with
          | some v => { s₁ with selected := some v.id }
          | none => s₁

/-- `TreeWidgetState::page_up`. -/
def page_up (t : UTree) (s : TreeWidgetState) : TreeWidgetState :=
  move_by t s (-(((s.viewportHeight - 1).max 1 : Nat) : Int))

/-- `TreeWidgetState::page_down`. -/
def page_down (t : UTree) (s : TreeWidgetState) : TreeWidgetState :=
  move_by t s (((s.viewportHeight - 1).max 1 : Nat) : Int)

/-- `TreeWidgetState::open_node`; the first argument is
`max_depth - depth`, so `0` models the `depth >= max_depth` early return. -/
def open_node (t : UTree) : Nat → Nat → Finset Nat → Finset Nat
  | 0, _, opn => opn
  | gas + 1, id, opn =>
    match t.node id with
    | none => opn
    | some n =>
      match n.children with
      | [] => opn
      | _ :: _ => n.children.foldl (fun o c => open_node t gas c o) (insert id opn)

/-- `TreeWidgetState::open_to_depth`: roots are visited at depth `1`. -/
def open_to_depth (t : UTree) (s : TreeWidgetState) (max_depth : Nat) :
    TreeWidgetState :=
  if max_depth = 0 then s
  else
    let opn := t.roots.foldl (fun o r => open_node t (max_depth - 1) r o) ∅
    (ensure_selection t { s with opn := opn, dirty := true }).1

/-- `TreeWidgetState::expand_all`. -/
def expand_all (t : UTree) (s : TreeWidgetState) : TreeWidgetState :=
  let opn :=
    (List.range t.nodes.length).foldl
      (fun o i =>
        match t.node i with
        | some n => if n.children = [] then o else insert i o
        | none => o)
      ∅
  (ensure_selection t { s with opn := opn, dirty := true }).1

/-- ASCII lowercasing of a character list (`str::to_ascii_lowercase`). -/
def lowerChars (l : List Char) : List Char :=
  l.map Char.toLower

/-- `str::trim`. -/
def trimChars (l : List Char) : List Char :=
  ((l.dropWhile Char.isWhitespace).reverse.dropWhile Char.isWhitespace).reverse

/-- Prefix test on character lists. -/
def isPrefixOfChars : List Char → List Char → Bool
  | [], _ => true
  | _ :: _, [] => false
  | a :: as, b :: bs => a == b && isPrefixOfChars as bs

/-- `str::contains` (substring containment). -/
def containsSub (needle : List Char) : List Char → Bool
  | [] => isPrefixOfChars needle []
  | c :: rest => isPrefixOfChars needle (c :: rest) || containsSub needle rest

/-- The match-list recomputation loop of `search`: indices of the nodes
whose lowercased name contains the needle. -/
def matchesOf (t : UTree) (needle : List Char) : List Nat :=
  t.nodes.enum.filterMap fun p =>
    if containsSub needle (lowerChars p.2.name.data) then some p.1 else none

/-- `TreeWidgetState::search`. -/
def search (t : UTree) (q : List Char) (s : TreeWidgetState) :
    TreeWidgetState :=
  let query := trimChars q
  if query = [] then { s with search_query := none, search_matches := [] }
  else
    let needle := lowerChars query
    let s0 := { s with search_query := some needle,
                       search_matches := matchesOf t needle }
    if s0.search_matches = [] then s0
    else
      match ensure_selection t s0 with
      | (s₁, false) => s₁
      | (s₁, true) =>
        let visible := s₁.visible_cache
        let ms := s₁.search_matches
        match s₁.selected with
        | none => s₁
        | some sel =>
          match selected_index visible sel with
          | none => s₁
          | some current_index =>
            let next_match :=
              match position (fun vn => ms.contains vn.id)
                  (visible.drop current_index) with
              | some off => some (current_index + off)
              | none => position (fun vn => ms.contains vn.id) visible
            match next_match with
            | none => s₁
            | some idx =>
              match visible.get? idx with
              | some target => { s₁ with selected := some target.id }
              | none => s₁

/-- The operations of `widget_state.rs`, as an event alphabet. -/
inductive Op
  | next
  | prev
  | expandOp
  | collapseOp
  | parentOp
  | nextSib
  | prevSib
  | pageUp
  | pageDown
  | openToDepth (d : Nat)
  | expandAll
  | searchOp (q : List Char)

/-- Dispatch one operation. -/
def applyOp (t : UTree) : Op → TreeWidgetState → TreeWidgetState
  | .next, s => select_next t s
  | .prev, s => select_previous t s
  | .expandOp, s => expand t s
  | .collapseOp, s => collapse t s
  | .parentOp, s => select_parent t s
  | .nextSib, s => select_next_sibling t s
  | .prevSib, s => select_previous_sibling t s
  | .pageUp, s => page_up t s
  | .pageDown, s => page_down t s
  | .openToDepth d, s => open_to_depth t s d
  | .expandAll, s => expand_all t s
  | .searchOp q, s => search t q s

/-- Apply a sequence of operations, left to right. -/
def applyOps (t : UTree) (ops : List Op) (s : TreeWidgetState) :
    TreeWidgetState :=
  ops.foldl (fun s o => applyOp t o s) s

/-- The cache either is marked dirty or equals the full rebuild. -/
def CacheInv (t : UTree) (s : TreeWidgetState) : Prop :=
  s.dirty = true ∨ s.visible_cache = rebuildVisible t s.opn

/-- Any selected id belongs to the current visible sequence (as the full
rebuild from the current open set describes it). -/
def SelInv (t : UTree) (s : TreeWidgetState) : Prop :=
  ∀ id, s.selected = some id → id ∈ idsOf (rebuildVisible t s.opn)

/-- The combined navigation-state invariant of claim C8. -/
def Inv (t : UTree) (s : TreeWidgetState) : Prop :=
  CacheInv t s ∧ SelInv t s

/-- Every id in the open set names a node with a non-empty children
list (claim C10). -/
def OpenInv (t : UTree) (s : TreeWidgetState) : Prop :=
  ∀ id ∈ s.opn, ∃ n, t.node id = some n ∧ n.children ≠ []

end WS

namespace WI

open UI

/-- `TreeWidgetState` from `src/ops/tree/tui/widget/state.rs`
(the variant that maintains the visible cache incrementally). -/
structure TreeWidgetState where
  opn : Finset Nat
  selected : Option Nat
  viewportHeight : Nat
  visible_cache : List VisibleNode
  dirty : Bool
deriving DecidableEq

/-- `TreeWidgetState::default`. -/
def TreeWidgetState.default : TreeWidgetState :=
  ⟨∅, none, 0, [], true⟩

/-- The rebuild-if-dirty step at the top of `visible_nodes`. -/
def visibleUpd (t : UTree) (s : TreeWidgetState) : TreeWidgetState :=
  if s.dirty then
    { s with visible_cache := rebuildVisible t s.opn, dirty := false }
  else s

/-- `TreeWidgetState::ensure_selection`. -/
def ensure_selection (t : UTree) (s : TreeWidgetState) :
    TreeWidgetState × Bool :=
  let s := visibleUpd t s
  match s.visible_cache with
  | [] => ({ s with selected := none }, false)
  | v :: _ =>
    match s.selected with
    | some sel =>
      if s.visible_cache.any (fun n => n.id == sel) then (s, true)
      else ({ s with selected := some v.id }, true)
    | none => ({ s with selected := some v.id }, true)

/-- `TreeWidgetState::prune_descendants`. -/
def prune_descendants (s : TreeWidgetState) (id : Nat) : TreeWidgetState :=
  match position (fun n => n.id == id) s.visible_cache with
  | none => s
  | some start =>
    match s.visible_cache.get? start with
    | none => s
    | some v =>
      let depth := v.depth
      let first_descendant := start + 1
      if s.visible_cache.length ≤ first_descendant then s
      else
        let e :=
          match position (fun n => decide (n.depth ≤ depth))
              (s.visible_cache.drop first_descendant) with
          | some off => first_descendant + off
          | none => s.visible_cache.length
        { s with visible_cache :=
            s.visible_cache.take first_descendant ++ s.visible_cache.drop e }

/-- `TreeWidgetState::insert_descendants`. -/
def insert_descendants (t : UTree) (s : TreeWidgetState) (id : Nat) :
    TreeWidgetState :=
  match position (fun n => n.id == id) s.visible_cache with
  | none => s
  | some start =>
    match s.visible_cache.get? start with
    | none => s
    | some v =>
      let subtree := collectVisible t s.opn (fullFuel t) id v.depth
      if subtree.length ≤ 1 then s
      else
        { s with visible_cache :=
            s.visible_cache.take (start + 1) ++ subtree.drop 1 ++
              s.visible_cache.drop (start + 1) }

/-- `TreeWidgetState::expand` (incremental variant). -/
def expand (t : UTree) (s : TreeWidgetState) : TreeWidgetState :=
  match ensure_selection t s with
  | (s₁, false) => s₁
  | (s₁, true) =>
    match s₁.selected with
    | none => s₁
    | some sel =>
      match t.node sel with
      | none => s₁
      | some n =>
        match n.children with
        | [] => s₁
        | c0 :: _ =>
          if sel ∈ s₁.opn then { s₁ with selected := some c0 }
          else
            let s₂ := { s₁ with opn := insert sel s₁.opn }
            let s₃ := insert_descendants t s₂ sel
            { s₃ with dirty := false }

/-- `TreeWidgetState::collapse` (incremental variant). -/
def collapse (t : UTree) (s : TreeWidgetState) : TreeWidgetState :=
  match ensure_selection t s with
  | (s₁, false) => s₁
  | (s₁, true) =>
    match s₁.selected with
    | none => s₁
    | some sel =>
      match t.node sel with
      | none => s₁
      | some n =>
        if n.children ≠ [] ∧ sel ∈ s₁.opn then
          let s₂ := { s₁ with opn := s₁.opn.erase sel }
          let s₃ := prune_descendants s₂ sel
          { s₃ with dirty := false }
        else
          match n.parent with
          | some p => { s₁ with selected := some p }
          | none => s₁

/-- The expand/collapse event alphabet of claim C2. -/
inductive COp
  | expandOp
  | collapseOp

/-- Dispatch one expand/collapse operation. -/
def applyCOp (t : UTree) : COp → TreeWidgetState → TreeWidgetState
  | .expandOp, s => expand t s
  | .collapseOp, s => collapse t s

/-- Apply a sequence of expand/collapse operations, left to right. -/
def applyCOps (t : UTree) (ops : List COp) (s : TreeWidgetState) :
    TreeWidgetState :=
  ops.foldl (fun s o => applyCOp t o s) s

/-- The cache either is marked dirty or equals the full rebuild
(incremental variant). -/
def CacheInvI (t : UTree) (s : TreeWidgetState) : Prop :=
  s.dirty = true ∨ s.visible_cache = rebuildVisible t s.opn

end WI

namespace VP

/-- The scroll-relevant fields of `Viewport` in
`src/ops/tree/tui/widget.rs` (`area` and `inner` belong to the terminal
layer; `height` is the inner height the source extracts from them). -/
structure Viewport where
  height : Nat
  offset : Nat
  max_offset : Nat
deriving DecidableEq, Repr

/-- `Viewport::new` from `src/ops/tree/tui/widget.rs`:
`usize` subtraction is saturating, `div_ceil 2` is `(h + 1) / 2`. -/
def Viewport.new (height selected_line total_lines : Nat) : Viewport :=
  let offset0 :=
    if height = 0 then 0 else selected_line - ((height + 1) / 2)
  let max_offset :=
    if height = 0 then 0 else total_lines - height
  ⟨height, min offset0 max_offset, max_offset⟩

end VP

namespace BC

/-- A breadcrumb item (styles belong to the terminal layer). -/
structure Crumb where
  name : String
  isGroup : Bool
deriving DecidableEq, Repr

/-- Character count of `" → "` (`sep_len` in the source). -/
def sepLen : Nat := 3

/-- The ellipsis crumb built from `CONTINUATION_SYMBOL`. -/
def ellipsisCrumb : Crumb := ⟨"…", false⟩

/-- `crumb.name.chars().count()`. -/
def crumbLen (c : Crumb) : Nat :=
  c.name.length

/-- `full_len` inside `elide_crumbs`: all names plus a separator per gap. -/
def fullLen (crumbs : List Crumb) : Nat :=
  (crumbs.map crumbLen).sum + sepLen * (crumbs.length - 1)

/-- The `total_len` closure inside `elide_crumbs`: width of
`prefix_count` leading crumbs, the ellipsis and the last crumb,
with separators between all of them. -/
def totalLen (crumbs : List Crumb) (prefix_count : Nat) : Nat :=
  ((crumbs.take prefix_count).map crumbLen).sum + crumbLen ellipsisCrumb +
    ((crumbs.getLast?.map crumbLen).getD 0) + sepLen * (prefix_count + 1)

/-- The greedy `while` loop of `elide_crumbs`; the fuel only needs to
exceed `lastIdx` for the loop's exit condition to be reached. -/
def elideLoop (w lastIdx : Nat) (tl : Nat → Nat) : Nat → Nat → Nat
  | 0, p => p
  | fuel + 1, p =>
    if p + 1 < lastIdx ∧ tl (p + 1) ≤ w then elideLoop w lastIdx tl fuel (p + 1)
    else p

/-- `Breadcrumb::elide_crumbs`. -/
def elide_crumbs (crumbs : List Crumb) (max_width : Nat) : List Crumb :=
  if crumbs.length ≤ 2 then crumbs
  else if fullLen crumbs ≤ max_width then crumbs
  else
    let last_idx := crumbs.length - 1
    let p := elideLoop max_width last_idx (totalLen crumbs) crumbs.length 1
    match crumbs.getLast? with
    | none => crumbs
    | some lastCrumb => crumbs.take p ++ [ellipsisCrumb] ++ [lastCrumb]

/-- Width of the rendered breadcrumb line: one span per crumb name and a
`" → "` separator after every crumb but the last. -/
def renderWidth (cs : List Crumb) : Nat :=
  (cs.map crumbLen).sum + sepLen * (cs.length - 1)

end BC

/-! ### Theorems -/

section ViewportThms

/-- C3: for every positive viewport height, every selected line and every
total line count, `Viewport::new` returns `offset` equal to
`selected_line − ceil(height/2)` clamped into `[0, max 0 (total − height)]`,
returns `max_offset = max 0 (total − height)`, and `offset ≤ max_offset`. -/
theorem vp_viewport_new_centers_and_clamps
    (height selected_line total_lines : Nat) (hh : 0 < height) :
    ((VP.Viewport.new height selected_line total_lines).offset : Int) =
      max 0 (min ((selected_line : Int) - (((height + 1) / 2 : Nat) : Int))
        (max 0 ((total_lines : Int) - (height : Int)))) ∧
    ((VP.Viewport.new height selected_line total_lines).max_offset : Int) =
      max 0 ((total_lines : Int) - (height : Int)) ∧
    (VP.Viewport.new height selected_line total_lines).offset ≤
      (VP.Viewport.new height selected_line total_lines).max_offset := by
  have hne : height ≠ 0 := Nat.pos_iff_ne_zero.mp hh
  simp only [VP.Viewport.new, if_neg hne]
  refine ⟨?_, ?_, ?_⟩
  · omega
  · omega
  · exact Nat.min_le_right _ _

/-- Witness for C3 at `height = 5`, `selected_line = 10`,
`total_lines = 20`. -/
theorem vp_viewport_new_centers_and_clamps_witness :
    (VP.Viewport.new 5 10 20).offset ≤ (VP.Viewport.new 5 10 20).max_offset :=
  (vp_viewport_new_centers_and_clamps 5 10 20 (by decide)).2.2

end ViewportThms

section BreadcrumbThms

/-- Lower bound: the greedy loop never shrinks its cursor. -/
theorem bc_elideLoop_le (w lastIdx : Nat) (tl : Nat → Nat) :
    ∀ fuel p, p ≤ BC.elideLoop w lastIdx tl fuel p := by
  intro fuel
  induction fuel with
  | zero => intro p; simp [BC.elideLoop]
  | succ f ih =>
    intro p
    simp only [BC.elideLoop]
    split
    · exact le_trans (Nat.le_succ p) (ih (p + 1))
    · exact le_refl p

/-- Upper bound: starting below `lastIdx`, the loop stays below it. -/
theorem bc_elideLoop_lt (w lastIdx : Nat) (tl : Nat → Nat) :
    ∀ fuel p, p < lastIdx → BC.elideLoop w lastIdx tl fuel p < lastIdx := by
  intro fuel
  induction fuel with
  | zero => intro p hp; simpa [BC.elideLoop] using hp
  | succ f ih =>
    intro p hp
    simp only [BC.elideLoop]
    split
    · next h => exact ih (p + 1) h.1
    · exact hp

/-- The loop result either still is the start value or fits the budget. -/
theorem bc_elideLoop_fits (w lastIdx : Nat) (tl : Nat → Nat) :
    ∀ fuel p, BC.elideLoop w lastIdx tl fuel p = p ∨
      tl (BC.elideLoop w lastIdx tl fuel p) ≤ w := by
  intro fuel
  induction fuel with
  | zero => intro p; exact Or.inl rfl
  | succ f ih =>
    intro p
    simp only [BC.elideLoop]
    split
    · next h =>
      rcases ih (p + 1) with h' | h'
      · exact Or.inr (by rw [h']; exact h.2)
      · exact Or.inr h'
    · exact Or.inl rfl

/-- With enough fuel, the loop only stops at its exit condition. -/
theorem bc_elideLoop_maximal (w lastIdx : Nat) (tl : Nat → Nat) :
    ∀ fuel p, lastIdx ≤ p + fuel →
      ¬(BC.elideLoop w lastIdx tl fuel p + 1 < lastIdx ∧
        tl (BC.elideLoop w lastIdx tl fuel p + 1) ≤ w) := by
  intro fuel
  induction fuel with
  | zero =>
    intro p hp
    simp only [BC.elideLoop]
    intro h
    omega
  | succ f ih =>
    intro p hp
    simp only [BC.elideLoop]
    split
    · exact ih (p + 1) (by omega)
    · next h => exact h

/-- Width of the final elided shape, as a function of its parts. -/
theorem bc_renderWidth_shape (A : List BC.Crumb) (e lc : BC.Crumb) :
    BC.renderWidth (A ++ [e] ++ [lc]) =
      (A.map BC.crumbLen).sum + BC.crumbLen e + BC.crumbLen lc +
        BC.sepLen * (A.length + 1) := by
  simp only [BC.renderWidth, BC.sepLen, List.map_append, List.sum_append,
    List.length_append, List.map_cons, List.map_nil, List.sum_cons,
    List.sum_nil, List.length_cons, List.length_nil]
  omega

/-- C6 counterexample: three crumbs `"aaaa" / "b" / "cccc"` elided to width
`1` render at width `15 > 1`, so the elided breadcrumb can exceed the
supplied width even with at least three crumbs. -/
theorem bc_elide_counterexample :
    3 ≤ ([⟨"aaaa", false⟩, ⟨"b", false⟩, ⟨"cccc", false⟩] : List BC.Crumb).length ∧
    BC.renderWidth
      (BC.elide_crumbs [⟨"aaaa", false⟩, ⟨"b", false⟩, ⟨"cccc", false⟩] 1) = 15 ∧
    ¬ BC.renderWidth
      (BC.elide_crumbs [⟨"aaaa", false⟩, ⟨"b", false⟩, ⟨"cccc", false⟩] 1) ≤ 1 := by
  refine ⟨by decide, ?_, ?_⟩ <;> decide

/-- C6 amended: for at least three crumbs, the elided breadcrumb keeps the
first and the last crumb, and when the full trail does not fit it is a
greedily maximal prefix followed by one ellipsis glyph and the last crumb;
the rendered width never exceeds the supplied width or, when even the
minimal elision `[root, ellipsis, current]` is too wide, that minimal
elision's width (`totalLen crumbs 1`). -/
theorem bc_elide_amended (crumbs : List BC.Crumb) (w : Nat)
    (h3 : 3 ≤ crumbs.length) :
    (BC.elide_crumbs crumbs w).head? = crumbs.head? ∧
    (BC.elide_crumbs crumbs w).getLast? = crumbs.getLast? ∧
    BC.renderWidth (BC.elide_crumbs crumbs w) ≤ max w (BC.totalLen crumbs 1) ∧
    (¬ BC.fullLen crumbs ≤ w →
      ∃ p lc, 1 ≤ p ∧ p < crumbs.length - 1 ∧ crumbs.getLast? = some lc ∧
        BC.elide_crumbs crumbs w =
          crumbs.take p ++ [BC.ellipsisCrumb] ++ [lc] ∧
        (p + 1 < crumbs.length - 1 → ¬ BC.totalLen crumbs (p + 1) ≤ w)) := by
  have hne : crumbs ≠ [] := by
    intro h
    rw [h] at h3
    simp at h3
  obtain ⟨lc, hlc⟩ : ∃ lc, crumbs.getLast? = some lc :=
    ⟨crumbs.getLast hne, List.getLast?_eq_getLast _ hne⟩
  have hnot2 : ¬ crumbs.length ≤ 2 := by omega
  by_cases hfull : BC.fullLen crumbs ≤ w
  · have heq : BC.elide_crumbs crumbs w = crumbs := by
      simp [BC.elide_crumbs, hnot2, hfull]
    refine ⟨by rw [heq], by rw [heq], ?_, fun h => absurd hfull h⟩
    rw [heq]
    exact le_max_of_le_left hfull
  · set li := crumbs.length - 1 with hli
    set p := BC.elideLoop w li (BC.totalLen crumbs) crumbs.length 1 with hp
    have hp1 : 1 ≤ p := bc_elideLoop_le w li (BC.totalLen crumbs) crumbs.length 1
    have hpli : p < li := bc_elideLoop_lt w li (BC.totalLen crumbs)
      crumbs.length 1 (by omega)
    have heq : BC.elide_crumbs crumbs w =
        crumbs.take p ++ [BC.ellipsisCrumb] ++ [lc] := by
      simp [BC.elide_crumbs, hnot2, hfull, hlc, ← hli, ← hp]
    have hlen : (crumbs.take p).length = p := by
      rw [List.length_take]
      omega
    have hellip : BC.crumbLen BC.ellipsisCrumb = 1 := by decide
    have hw : BC.renderWidth (crumbs.take p ++ [BC.ellipsisCrumb] ++ [lc]) =
        BC.totalLen crumbs p := by
      rw [bc_renderWidth_shape, hlen]
      simp only [BC.totalLen, hlc, Option.map_some', Option.getD_some]
    have hhead : ∀ (l : List BC.Crumb) (q : Nat), l ≠ [] → 1 ≤ q →
        (l.take q ++ [BC.ellipsisCrumb] ++ [lc]).head? = l.head? := by
      intro l q hl hq
      cases l with
      | nil => exact absurd rfl hl
      | cons c rest =>
        obtain ⟨q', rfl⟩ : ∃ q', q = q' + 1 := ⟨q - 1, by omega⟩
        simp [List.take_succ_cons]
    refine ⟨by rw [heq]; exact hhead crumbs p hne hp1, ?_, ?_, fun _ => ?_⟩
    · rw [heq, List.getLast?_concat, hlc]
    · rw [heq, hw]
      rcases bc_elideLoop_fits w li (BC.totalLen crumbs) crumbs.length 1 with
        h1 | hfit
      · rw [← hp] at h1
        rw [h1]
        exact le_max_right _ _
      · rw [← hp] at hfit
        exact le_max_of_le_left hfit
    · refine ⟨p, lc, hp1, by omega, hlc, heq, fun hlt hle => ?_⟩
      have hmax := bc_elideLoop_maximal w li (BC.totalLen crumbs)
        crumbs.length 1 (by omega)
      rw [← hp] at hmax
      exact hmax ⟨by omega, hle⟩

/-- Witness for the amended C6 at a concrete crumb list and width. -/
theorem bc_elide_amended_witness :
    BC.renderWidth
      (BC.elide_crumbs
        [⟨"aa", false⟩, ⟨"b", false⟩, ⟨"c", false⟩, ⟨"dd", false⟩] 12) ≤
      max 12 (BC.totalLen
        [⟨"aa", false⟩, ⟨"b", false⟩, ⟨"c", false⟩, ⟨"dd", false⟩] 1) :=
  (bc_elide_amended
    [⟨"aa", false⟩, ⟨"b", false⟩, ⟨"c", false⟩, ⟨"dd", false⟩] 12
    (by decide)).2.2.1

end BreadcrumbThms

section CoreThms

open Core

theorem core_lookup_insert_self (m : List ((Nat × Option Nat) × Nat))
    (k : Nat × Option Nat) (v : Nat) :
    lookupMap (insertMap m k v) k = some v := by
  simp [lookupMap, insertMap]

theorem core_lookup_insert_ne (m : List ((Nat × Option Nat) × Nat))
    (k k' : Nat × Option Nat) (v : Nat) (h : k ≠ k') :
    lookupMap (insertMap m k v) k' = lookupMap m k' := by
  simp [lookupMap, insertMap, h]

theorem core_setCrate_length (nodes : List DependencyNode) (i : Nat)
    (cs : List Nat) : (setCrateChildren nodes i cs).length = nodes.length := by
  unfold setCrateChildren
  split <;> simp

theorem core_setGroup_length (nodes : List DependencyNode) (i : Nat)
    (cs : List Nat) : (setGroupChildren nodes i cs).length = nodes.length := by
  unfold setGroupChildren
  split <;> simp

theorem core_setCrate_get_ne (nodes : List DependencyNode) (i : Nat)
    (cs : List Nat) (j : Nat) (h : j ≠ i) :
    (setCrateChildren nodes i cs).get? j = nodes.get? j := by
  unfold setCrateChildren
  split
  · exact List.get?_set_ne _ _ (fun he => h he.symm) ..
  · rfl

theorem core_setGroup_get_ne (nodes : List DependencyNode) (i : Nat)
    (cs : List Nat) (j : Nat) (h : j ≠ i) :
    (setGroupChildren nodes i cs).get? j = nodes.get? j := by
  unfold setGroupChildren
  split
  · exact List.get?_set_ne _ _ (fun he => h he.symm) ..
  · rfl

theorem core_build_zero (P : List Package) (R : List RNode) (pid : Nat)
    (par : Option Nat) (st : BuildState) :
    buildDependencyNode P R 0 pid par st = (none, st) := rfl

theorem core_build_memo (P : List Package) (R : List RNode) (f pid : Nat)
    (par : Option Nat) (st : BuildState) (ex : Nat)
    (hmemo : lookupMap st.node_map (pid, par) = some ex) :
    buildDependencyNode P R (f + 1) pid par st = (some ex, st) := by
  simp only [buildDependencyNode, hmemo]

theorem core_build_pkg_none (P : List Package) (R : List RNode) (f pid : Nat)
    (par : Option Nat) (st : BuildState)
    (hmiss : lookupMap st.node_map (pid, par) = none)
    (hpkg : pkgFind P pid = none) :
    buildDependencyNode P R (f + 1) pid par st = (none, st) := by
  simp only [buildDependencyNode, hmiss, hpkg]

theorem core_build_noresolve (P : List Package) (R : List RNode) (f pid : Nat)
    (par : Option Nat) (st : BuildState) (pk : Package)
    (hmiss : lookupMap st.node_map (pid, par) = none)
    (hpkg : pkgFind P pid = some pk)
    (hres : resolveFind R pid = none) :
    buildDependencyNode P R (f + 1) pid par st =
      (some st.nodes.length,
       ⟨st.nodes ++
          [.Crate ⟨pk.name, pk.version,
            (if pk.source.isNone then pk.manifestParent else none),
            (pk.targets.any fun t => t.kind.any fun k => k = TargetKind.procMacro),
            par, []⟩],
        insertMap st.node_map (pid, par) st.nodes.length⟩) := by
  simp only [buildDependencyNode, hmiss, hpkg, hres]

theorem core_build_resolve (P : List Package) (R : List RNode) (f pid : Nat)
    (par : Option Nat) (st : BuildState) (pk : Package) (node : RNode)
    (hmiss : lookupMap st.node_map (pid, par) = none)
    (hpkg : pkgFind P pid = some pk)
    (hres : resolveFind R pid = some node) :
    buildDependencyNode P R (f + 1) pid par st =
      (let st1 : BuildState :=
        ⟨st.nodes ++
            [.Crate ⟨pk.name, pk.version,
              (if pk.source.isNone then pk.manifestParent else none),
              (pk.targets.any fun t => t.kind.any fun k => k = TargetKind.procMacro),
              par, []⟩],
          insertMap st.node_map (pid, par) st.nodes.length⟩
      let cls := classifyDeps node.deps
      let r2 := buildListAux (buildDependencyNode P R f) cls.1
        (some st.nodes.length) st1
      let r3 := buildGroupAux (buildListAux (buildDependencyNode P R f)) .Dev
        cls.2.1 st.nodes.length r2.1 r2.2
      let r4 := buildGroupAux (buildListAux (buildDependencyNode P R f)) .Build
        cls.2.2 st.nodes.length r3.1 r3.2
      (some st.nodes.length,
        ⟨setCrateChildren r4.2.nodes st.nodes.length r4.1, r4.2.node_map⟩)) := by
  simp only [buildDependencyNode, hmiss, hpkg, hres]

theorem core_buildList_mono
    (bld : Nat → Option Nat → BuildState → Option Nat × BuildState)
    (hb : ∀ p par st k v, lookupMap st.node_map k = some v →
      lookupMap (bld p par st).2.node_map k = some v) :
    ∀ (pids : List Nat) (par : Option Nat) (st : BuildState)
      (k : Nat × Option Nat) (v : Nat),
      lookupMap st.node_map k = some v →
      lookupMap (buildListAux bld pids par st).2.node_map k = some v := by
  intro pids
  induction pids with
  | nil =>
    intro par st k v h
    simpa [buildListAux] using h
  | cons p rest ih =>
    intro par st k v h
    rcases hbp : bld p par st with ⟨r, st'⟩
    have h1 : lookupMap st'.node_map k = some v := by
      have := hb p par st k v h
      rw [hbp] at this
      exact this
    cases r with
    | some c =>
      rcases hbl : buildListAux bld rest par st' with ⟨cs, st''⟩
      have h2 : lookupMap st''.node_map k = some v := by
        have := ih par st' k v h1
        rw [hbl] at this
        exact this
      simp only [buildListAux, hbp, hbl]
      exact h2
    | none =>
      simp only [buildListAux, hbp]
      exact ih par st' k v h1

theorem core_buildGroup_mono
    (blst : List Nat → Option Nat → BuildState → List Nat × BuildState)
    (hb : ∀ pids par st k v, lookupMap st.node_map k = some v →
      lookupMap (blst pids par st).2.node_map k = some v)
    (kind : DependencyType) (deps : List Nat) (node_id : Nat)
    (children : List Nat) (st : BuildState) (k : Nat × Option Nat) (v : Nat)
    (h : lookupMap st.node_map k = some v) :
    lookupMap
      (buildGroupAux blst kind deps node_id children st).2.node_map k =
      some v := by
  by_cases hd : deps = []
  · simpa [buildGroupAux, hd] using h
  · simp only [buildGroupAux, if_neg hd]
    rcases hbl : blst deps (some st.nodes.length)
        ⟨st.nodes ++ [.Group ⟨kind, some node_id, []⟩], st.node_map⟩ with
      ⟨gcs, st2⟩
    have h2 : lookupMap st2.node_map k = some v := by
      have := hb deps (some st.nodes.length)
        ⟨st.nodes ++ [.Group ⟨kind, some node_id, []⟩], st.node_map⟩ k v h
      rw [hbl] at this
      exact this
    simp only [hbl]
    exact h2

theorem core_build_mono (P : List Package) (R : List RNode) :
    ∀ (f pid : Nat) (par : Option Nat) (st : BuildState)
      (k : Nat × Option Nat) (v : Nat),
      lookupMap st.node_map k = some v →
      lookupMap (buildDependencyNode P R f pid par st).2.node_map k =
        some v := by
  intro f
  induction f with
  | zero =>
    intro pid par st k v h
    simpa [core_build_zero] using h
  | succ f ih =>
    intro pid par st k v h
    rcases hm : lookupMap st.node_map (pid, par) with _ | ex
    · rcases hp : pkgFind P pid with _ | pk
      · rw [core_build_pkg_none P R f pid par st hm hp]
        exact h
      · have hins : lookupMap
            (insertMap st.node_map (pid, par) st.nodes.length) k = some v := by
          by_cases hk : k = (pid, par)
          · exfalso
            rw [hk, hm] at h
            cases h
          · rw [core_lookup_insert_ne _ _ _ _ (Ne.symm hk)]
            exact h
        rcases hr : resolveFind R pid with _ | node
        · rw [core_build_noresolve P R f pid par st pk hm hp hr]
          exact hins
        · rw [core_build_resolve P R f pid par st pk node hm hp hr]
          dsimp only
          exact core_buildGroup_mono _ (core_buildList_mono _ ih) _ _ _ _ _ _ _
            (core_buildGroup_mono _ (core_buildList_mono _ ih) _ _ _ _ _ _ _
              (core_buildList_mono _ ih _ _ _ _ _ hins))
    · rw [core_build_memo P R f pid par st ex hm]
      exact h

theorem core_buildList_len
    (bld : Nat → Option Nat → BuildState → Option Nat × BuildState)
    (hb : ∀ p par st, st.nodes.length ≤ (bld p par st).2.nodes.length) :
    ∀ (pids : List Nat) (par : Option Nat) (st : BuildState),
      st.nodes.length ≤ (buildListAux bld pids par st).2.nodes.length := by
  intro pids
  induction pids with
  | nil =>
    intro par st
    simp [buildListAux]
  | cons p rest ih =>
    intro par st
    rcases hbp : bld p par st with ⟨r, st'⟩
    have h1 : st.nodes.length ≤ st'.nodes.length := by
      have := hb p par st
      rw [hbp] at this
      exact this
    cases r with
    | some c =>
      rcases hbl : buildListAux bld rest par st' with ⟨cs, st''⟩
      have h2 := ih par st'
      rw [hbl] at h2
      simp only [buildListAux, hbp, hbl]
      exact le_trans h1 h2
    | none =>
      simp only [buildListAux, hbp]
      exact le_trans h1 (ih par st')

theorem core_buildGroup_len
    (blst : List Nat → Option Nat → BuildState → List Nat × BuildState)
    (hb : ∀ pids par st, st.nodes.length ≤ (blst pids par st).2.nodes.length)
    (kind : DependencyType) (deps : List Nat) (node_id : Nat)
    (children : List Nat) (st : BuildState) :
    st.nodes.length ≤
      (buildGroupAux blst kind deps node_id children st).2.nodes.length := by
  by_cases hd : deps = []
  · simp [buildGroupAux, hd]
  · simp only [buildGroupAux, if_neg hd]
    rcases hbl : blst deps (some st.nodes.length)
        ⟨st.nodes ++ [.Group ⟨kind, some node_id, []⟩], st.node_map⟩ with
      ⟨gcs, st2⟩
    have h2 : st.nodes.length + 1 ≤ st2.nodes.length := by
      have := hb deps (some st.nodes.length)
        ⟨st.nodes ++ [.Group ⟨kind, some node_id, []⟩], st.node_map⟩
      rw [hbl] at this
      simpa using this
    simp only [hbl, core_setGroup_length]
    omega

theorem core_build_len (P : List Package) (R : List RNode) :
    ∀ (f pid : Nat) (par : Option Nat) (st : BuildState),
      st.nodes.length ≤
        (buildDependencyNode P R f pid par st).2.nodes.length := by
  intro f
  induction f with
  | zero =>
    intro pid par st
    simp [core_build_zero]
  | succ f ih =>
    intro pid par st
    rcases hm : lookupMap st.node_map (pid, par) with _ | ex
    · rcases hp : pkgFind P pid with _ | pk
      · simp [core_build_pkg_none P R f pid par st hm hp]
      · rcases hr : resolveFind R pid with _ | node
        · simp [core_build_noresolve P R f pid par st pk hm hp hr]
        · rw [core_build_resolve P R f pid par st pk node hm hp hr]
          dsimp only
          rw [core_setCrate_length]
          calc st.nodes.length
              ≤ st.nodes.length + 1 := Nat.le_succ _
            _ ≤ _ := by
                refine le_trans ?_ (core_buildGroup_len _
                  (core_buildList_len _ ih) _ _ _ _ _)
                refine le_trans ?_ (core_buildGroup_len _
                  (core_buildList_len _ ih) _ _ _ _ _)
                have := core_buildList_len _ ih (classifyDeps node.deps).1
                  (some st.nodes.length)
                  ⟨st.nodes ++
                      [.Crate ⟨pk.name, pk.version,
                        (if pk.source.isNone then pk.manifestParent else none),
                        (pk.targets.any fun t =>
                          t.kind.any fun k => k = TargetKind.procMacro),
                        par, []⟩],
                    insertMap st.node_map (pid, par) st.nodes.length⟩
                simpa using this
    · simp [core_build_memo P R f pid par st ex hm]

theorem core_build_rec (P : List Package) (R : List RNode) (f pid : Nat)
    (par : Option Nat) (st st' : BuildState) (id : Nat)
    (h : buildDependencyNode P R f pid par st = (some id, st')) :
    lookupMap st'.node_map (pid, par) = some id := by
  cases f with
  | zero =>
    rw [core_build_zero] at h
    simp at h
  | succ f =>
    rcases hm : lookupMap st.node_map (pid, par) with _ | ex
    · rcases hp : pkgFind P pid with _ | pk
      · rw [core_build_pkg_none P R f pid par st hm hp] at h
        simp at h
      · have hins : lookupMap
            (insertMap st.node_map (pid, par) st.nodes.length) (pid, par) =
            some st.nodes.length := core_lookup_insert_self _ _ _
        rcases hr : resolveFind R pid with _ | node
        · rw [core_build_noresolve P R f pid par st pk hm hp hr] at h
          rw [Prod.mk.injEq] at h
          obtain ⟨hid, hst⟩ := h
          rw [← hst]
          rw [Option.some.injEq] at hid
          rw [← hid]
          exact hins
        · rw [core_build_resolve P R f pid par st pk node hm hp hr] at h
          dsimp only at h
          rw [Prod.mk.injEq] at h
          obtain ⟨hid, hst⟩ := h
          rw [Option.some.injEq] at hid
          rw [← hst, ← hid]
          exact core_buildGroup_mono _
            (core_buildList_mono _ (core_build_mono P R f)) _ _ _ _ _ _ _
            (core_buildGroup_mono _
              (core_buildList_mono _ (core_build_mono P R f)) _ _ _ _ _ _ _
              (core_buildList_mono _ (core_build_mono P R f) _ _ _ _ _ hins))
    · rw [core_build_memo P R f pid par st ex hm] at h
      rw [Prod.mk.injEq] at h
      obtain ⟨hid, hst⟩ := h
      rw [← hst, hm, hid]

theorem core_buildList_inv
    (bld : Nat → Option Nat → BuildState → Option Nat × BuildState)
    (hb : ∀ p par st, MapInv st → MapInv (bld p par st).2) :
    ∀ (pids : List Nat) (par : Option Nat) (st : BuildState),
      MapInv st → MapInv (buildListAux bld pids par st).2 := by
  intro pids
  induction pids with
  | nil =>
    intro par st h
    simpa [buildListAux] using h
  | cons p rest ih =>
    intro par st h
    rcases hbp : bld p par st with ⟨r, st'⟩
    have h1 : MapInv st' := by
      have := hb p par st h
      rw [hbp] at this
      exact this
    cases r with
    | some c =>
      rcases hbl : buildListAux bld rest par st' with ⟨cs, st''⟩
      have h2 : MapInv st'' := by
        have := ih par st' h1
        rw [hbl] at this
        exact this
      simp only [buildListAux, hbp, hbl]
      exact h2
    | none =>
      simp only [buildListAux, hbp]
      exact ih par st' h1

theorem core_buildGroup_inv
    (blst : List Nat → Option Nat → BuildState → List Nat × BuildState)
    (hb : ∀ pids par st, MapInv st → MapInv (blst pids par st).2)
    (kind : DependencyType) (deps : List Nat) (node_id : Nat)
    (children : List Nat) (st : BuildState) (h : MapInv st) :
    MapInv (buildGroupAux blst kind deps node_id children st).2 := by
  by_cases hd : deps = []
  · simpa [buildGroupAux, hd] using h
  · simp only [buildGroupAux, if_neg hd]
    rcases hbl : blst deps (some st.nodes.length)
        ⟨st.nodes ++ [.Group ⟨kind, some node_id, []⟩], st.node_map⟩ with
      ⟨gcs, st2⟩
    have h1 : MapInv (⟨st.nodes ++ [.Group ⟨kind, some node_id, []⟩],
        st.node_map⟩ : BuildState) := by
      constructor
      · intro k v hkv
        have := h.1 k v hkv
        simp only [List.length_append, List.length_cons, List.length_nil]
        omega
      · exact h.2
    have h2 : MapInv st2 := by
      have := hb deps (some st.nodes.length)
        ⟨st.nodes ++ [.Group ⟨kind, some node_id, []⟩], st.node_map⟩ h1
      rw [hbl] at this
      exact this
    simp only [hbl]
    constructor
    · intro k v hkv
      have := h2.1 k v hkv
      rw [core_setGroup_length]
      exact this
    · exact h2.2

theorem core_build_inv (P : List Package) (R : List RNode) :
    ∀ (f pid : Nat) (par : Option Nat) (st : BuildState),
      MapInv st → MapInv (buildDependencyNode P R f pid par st).2 := by
  intro f
  induction f with
  | zero =>
    intro pid par st h
    simpa [core_build_zero] using h
  | succ f ih =>
    intro pid par st h
    rcases hm : lookupMap st.node_map (pid, par) with _ | ex
    · rcases hp : pkgFind P pid with _ | pk
      · simpa [core_build_pkg_none P R f pid par st hm hp] using h
      · have h1 : MapInv
            (⟨st.nodes ++
                [.Crate ⟨pk.name, pk.version,
                  (if pk.source.isNone then pk.manifestParent else none),
                  (pk.targets.any fun t =>
                    t.kind.any fun k => k = TargetKind.procMacro),
                  par, []⟩],
              insertMap st.node_map (pid, par) st.nodes.length⟩ :
              BuildState) := by
          constructor
          · intro k v hkv
            simp only [List.length_append, List.length_cons, List.length_nil]
            by_cases hk : (pid, par) = k
            · rw [← hk, core_lookup_insert_self] at hkv
              rw [Option.some.injEq] at hkv
              omega
            · rw [core_lookup_insert_ne _ _ _ _ hk] at hkv
              have := h.1 k v hkv
              omega
          · intro k1 k2 v hk1 hk2
            by_cases e1 : (pid, par) = k1 <;> by_cases e2 : (pid, par) = k2
            · rw [← e1, ← e2]
            · rw [← e1, core_lookup_insert_self] at hk1
              rw [core_lookup_insert_ne _ _ _ _ e2] at hk2
              rw [Option.some.injEq] at hk1
              have := h.1 k2 v hk2
              omega
            · rw [← e2, core_lookup_insert_self] at hk2
              rw [core_lookup_insert_ne _ _ _ _ e1] at hk1
              rw [Option.some.injEq] at hk2
              have := h.1 k1 v hk1
              omega
            · rw [core_lookup_insert_ne _ _ _ _ e1] at hk1
              rw [core_lookup_insert_ne _ _ _ _ e2] at hk2
              exact h.2 k1 k2 v hk1 hk2
        rcases hr : resolveFind R pid with _ | node
        · rw [core_build_noresolve P R f pid par st pk hm hp hr]
          exact h1
        · rw [core_build_resolve P R f pid par st pk node hm hp hr]
          dsimp only
          constructor
          · intro k v hkv
            rw [core_setCrate_length]
            refine (core_buildGroup_inv _ (core_buildList_inv _ ih)
              _ _ _ _ _ ?_).1 k v hkv
            refine core_buildGroup_inv _ (core_buildList_inv _ ih) _ _ _ _ _ ?_
            exact core_buildList_inv _ ih _ _ _ h1
          · intro k1 k2 v hk1 hk2
            refine (core_buildGroup_inv _ (core_buildList_inv _ ih)
              _ _ _ _ _ ?_).2 k1 k2 v hk1 hk2
            refine core_buildGroup_inv _ (core_buildList_inv _ ih) _ _ _ _ _ ?_
            exact core_buildList_inv _ ih _ _ _ h1
    · simpa [core_build_memo P R f pid par st ex hm] using h

/-- C1: a `(package identity, parent context)` pair maps to at most one
Crate node.  First conjunct: a memoised key makes `build_dependency_node`
return the existing `NodeId` with the arena untouched.  Second conjunct:
building the same package under two distinct parent contexts returns two
distinct `NodeId`s. -/
theorem core_build_dedup (P : List Package) (R : List RNode) :
    (∀ (f pid : Nat) (par : Option Nat) (st : BuildState) (id : Nat),
      lookupMap st.node_map (pid, par) = some id →
      buildDependencyNode P R (f + 1) pid par st = (some id, st)) ∧
    (∀ (f₁ f₂ pid : Nat) (p1 p2 : Option Nat) (st st1 st2 : BuildState)
      (id1 id2 : Nat), MapInv st → p1 ≠ p2 →
      buildDependencyNode P R f₁ pid p1 st = (some id1, st1) →
      buildDependencyNode P R f₂ pid p2 st1 = (some id2, st2) →
      id1 ≠ id2) := by
  constructor
  · intro f pid par st id hmemo
    exact core_build_memo P R f pid par st id hmemo
  · intro f₁ f₂ pid p1 p2 st st1 st2 id1 id2 hinv hne h1 h2 heq
    have r1 : lookupMap st1.node_map (pid, p1) = some id1 :=
      core_build_rec P R f₁ pid p1 st st1 id1 h1
    have r2 : lookupMap st2.node_map (pid, p2) = some id2 :=
      core_build_rec P R f₂ pid p2 st1 st2 id2 h2
    have hsnd : (buildDependencyNode P R f₂ pid p2 st1).2 = st2 := by
      rw [h2]
    have r1' : lookupMap st2.node_map (pid, p1) = some id1 := by
      have := core_build_mono P R f₂ pid p2 st1 (pid, p1) id1 r1
      rw [hsnd] at this
      exact this
    have hi1 : MapInv st1 := by
      have := core_build_inv P R f₁ pid p1 st hinv
      rw [h1] at this
      exact this
    have hi2 : MapInv st2 := by
      have := core_build_inv P R f₂ pid p2 st1 hi1
      rw [hsnd] at this
      exact this
    have : (pid, p1) = (pid, p2) := by
      refine hi2.2 (pid, p1) (pid, p2) id1 r1' ?_
      rw [heq]
      exact r2
    rw [Prod.mk.injEq] at this
    exact hne this.2

/-- Witness for C1: building the lone package of a one-package graph under
parent `none` and then under parent `some 0` yields `NodeId 0` and
`NodeId 1`. -/
theorem core_build_dedup_witness : (0 : Nat) ≠ 1 :=
  (core_build_dedup [⟨0, "a", "0.1.0", none, none, []⟩] []).2 1 1 0 none
    (some 0)
    ⟨[], []⟩
    ⟨[.Crate ⟨"a", "0.1.0", none, false, none, []⟩], [((0, none), 0)]⟩
    ⟨[.Crate ⟨"a", "0.1.0", none, false, none, []⟩,
      .Crate ⟨"a", "0.1.0", none, false, some 0, []⟩],
      [((0, some 0), 1), ((0, none), 0)]⟩
    0 1
    ⟨fun k v h => by simp [lookupMap] at h,
     fun k1 k2 v h1 h2 => by simp [lookupMap] at h1⟩
    (by decide) (by decide) (by decide)

/-- C9: a referenced package absent from the package list yields no node
and leaves the state untouched; a package with a record but no resolve
entry yields a childless Crate node; `load` succeeds exactly when the
metadata command parsed and its `resolve` graph is present. -/
theorem core_error_handling (P : List Package) (R : List RNode) :
    (∀ (f pid : Nat) (par : Option Nat) (st : BuildState),
      lookupMap st.node_map (pid, par) = none → pkgFind P pid = none →
      buildDependencyNode P R (f + 1) pid par st = (none, st)) ∧
    (∀ (f pid : Nat) (par : Option Nat) (st : BuildState) (pk : Package),
      lookupMap st.node_map (pid, par) = none → pkgFind P pid = some pk →
      resolveFind R pid = none →
      ∃ st' d, buildDependencyNode P R (f + 1) pid par st =
          (some st.nodes.length, st') ∧
        st'.nodes = st.nodes ++ [.Crate d] ∧ d.children = [] ∧
        d.name = pk.name ∧ d.parent = par) ∧
    (∀ (fuel : Nat) (mdr : Option Metadata),
      (∃ tr, load fuel mdr = .ok tr) ↔
        ∃ md, mdr = some md ∧ md.resolve ≠ none) := by
  refine ⟨?_, ?_, ?_⟩
  · intro f pid par st hmiss hpkg
    exact core_build_pkg_none P R f pid par st hmiss hpkg
  · intro f pid par st pk hmiss hpkg hres
    refine ⟨_, ⟨pk.name, pk.version,
      (if pk.source.isNone then pk.manifestParent else none),
      (pk.targets.any fun t => t.kind.any fun k => k = TargetKind.procMacro),
      par, []⟩,
      core_build_noresolve P R f pid par st pk hmiss hpkg hres, rfl, rfl, rfl,
      rfl⟩
  · intro fuel mdr
    cases mdr with
    | none =>
      constructor
      · rintro ⟨tr, htr⟩
        simp [load] at htr
      · rintro ⟨md, hmd, _⟩
        cases hmd
    | some md =>
      rcases hres : md.resolve with _ | resolve
      · constructor
        · rintro ⟨tr, htr⟩
          simp [load, hres] at htr
        · rintro ⟨md', hmd', hres'⟩
          rw [Option.some.injEq] at hmd'
          rw [← hmd'] at hres'
          exact absurd hres hres'
      · constructor
        · rintro ⟨tr, htr⟩
          exact ⟨md, rfl, by rw [hres]; exact fun h => by cases h⟩
        · rintro ⟨md', hmd', hres'⟩
          simp only [load, hres]
          exact ⟨_, rfl⟩

/-- Witness for C9 at concrete inputs: an empty package list drops the
edge, and `load` fails on missing resolve data. -/
theorem core_error_handling_witness :
    buildDependencyNode [] [] 1 7 none ⟨[], []⟩ = (none, ⟨[], []⟩) ∧
    ¬ ∃ tr, load 5 (some ⟨[⟨0, "a", "0.1.0", none, none, []⟩], [0], none,
      some "a"⟩) = .ok tr := by
  constructor
  · exact (core_error_handling [] []).1 0 7 none ⟨[], []⟩
      (by simp [lookupMap]) rfl
  · intro h
    have := ((core_error_handling [] []).2.2 5
      (some ⟨[⟨0, "a", "0.1.0", none, none, []⟩], [0], none,
        some "a"⟩)).mp h
    rcases this with ⟨md, hmd, hres⟩
    rw [Option.some.injEq] at hmd
    rw [← hmd] at hres
    exact hres rfl

theorem core_buildGroup_nil
    (blst : List Nat → Option Nat → BuildState → List Nat × BuildState)
    (kind : DependencyType) (node_id : Nat) (children : List Nat)
    (st : BuildState) :
    buildGroupAux blst kind [] node_id children st = (children, st) := by
  simp [buildGroupAux]

/-- On the cyclic one-package graph, each extra unit of fuel makes the
builder create at least one more arena node: the memo key never repeats
because the parent `NodeId` is fresh at every level. -/
theorem core_loop_growth :
    ∀ (f : Nat) (par : Option Nat) (st : BuildState),
      KeyParentsValid st →
      (par = none ∨ ∃ q, par = some q ∧ q < st.nodes.length) →
      lookupMap st.node_map (0, par) = none →
      st.nodes.length + (f + 1) ≤
        (buildDependencyNode loopPackages loopResolve (f + 1) 0 par
          st).2.nodes.length := by
  intro f
  induction f with
  | zero =>
    intro par st hkeys hpar hmiss
    rw [core_build_resolve loopPackages loopResolve 0 0 par st
      ⟨0, "a", "0.1.0", none, none, []⟩ ⟨0, [⟨0, [.normal]⟩]⟩ hmiss rfl rfl]
    dsimp only
    rw [show classifyDeps (RNode.deps ⟨0, [⟨0, [.normal]⟩]⟩) = ([0], [], [])
      from rfl]
    dsimp only
    rw [show ∀ st', buildListAux
        (buildDependencyNode loopPackages loopResolve 0) [0]
        (some st.nodes.length) st' = ([], st') from fun st' => rfl]
    rw [core_buildGroup_nil, core_buildGroup_nil, core_setCrate_length]
    simp
  | succ f ih =>
    intro par st hkeys hpar hmiss
    rw [core_build_resolve loopPackages loopResolve (f + 1) 0 par st
      ⟨0, "a", "0.1.0", none, none, []⟩ ⟨0, [⟨0, [.normal]⟩]⟩ hmiss rfl rfl]
    dsimp only
    rw [show classifyDeps (RNode.deps ⟨0, [⟨0, [.normal]⟩]⟩) = ([0], [], [])
      from rfl]
    dsimp only
    have hkeys1 : KeyParentsValid
        (⟨st.nodes ++ [.Crate ⟨"a", "0.1.0", none, false, par, []⟩],
          insertMap st.node_map (0, par) st.nodes.length⟩ : BuildState) := by
      intro k v hkv
      dsimp only at hkv ⊢
      simp only [List.length_append, List.length_cons, List.length_nil]
      by_cases hk : ((0 : Nat), par) = k
      · rw [← hk]
        rcases hpar with h | ⟨q, hq, hlt⟩
        · exact Or.inl h
        · exact Or.inr ⟨q, hq, by omega⟩
      · rw [core_lookup_insert_ne _ _ _ _ hk] at hkv
        rcases hkeys k v hkv with h | ⟨q, hq, hlt⟩
        · exact Or.inl h
        · exact Or.inr ⟨q, hq, by omega⟩
    have hmiss1 : lookupMap
        (⟨st.nodes ++ [.Crate ⟨"a", "0.1.0", none, false, par, []⟩],
          insertMap st.node_map (0, par) st.nodes.length⟩ :
          BuildState).node_map (0, some st.nodes.length) = none := by
      dsimp only
      have hne : ((0 : Nat), par) ≠ ((0 : Nat), some st.nodes.length) := by
        rcases hpar with h | ⟨q, hq, hlt⟩
        · rw [h]
          simp
        · rw [hq]
          intro hc
          rw [Prod.mk.injEq, Option.some.injEq] at hc
          omega
      rw [core_lookup_insert_ne _ _ _ _ hne]
      rcases hl : lookupMap st.node_map (0, some st.nodes.length) with _ | v
      · rfl
      · exfalso
        rcases hkeys _ _ hl with h | ⟨q, hq, hlt⟩
        · cases h
        · rw [Option.some.injEq] at hq
          omega
    have hA : ∀ (r : Option Nat) (stA : BuildState),
        buildDependencyNode loopPackages loopResolve (f + 1) 0
          (some st.nodes.length)
          (⟨st.nodes ++ [.Crate ⟨"a", "0.1.0", none, false, par, []⟩],
            insertMap st.node_map (0, par) st.nodes.length⟩ : BuildState) =
          (r, stA) →
        st.nodes.length + 1 + (f + 1) ≤ stA.nodes.length := by
      intro r stA hb
      have := ih (some st.nodes.length)
        ⟨st.nodes ++ [.Crate ⟨"a", "0.1.0", none, false, par, []⟩],
          insertMap st.node_map (0, par) st.nodes.length⟩ hkeys1
        (Or.inr ⟨st.nodes.length, rfl, by simp⟩) hmiss1
      rw [hb] at this
      simpa using this
    simp only [buildListAux]
    split
    · rename_i c stA hb
      have h := hA (some c) stA hb
      simp only [buildListAux, core_buildGroup_nil, core_setCrate_length]
      omega
    · rename_i stA hb
      have h := hA none stA hb
      simp only [buildListAux, core_buildGroup_nil, core_setCrate_length]
      omega

/-- C7 (code bug): on a resolve graph with a dependency cycle the Tree
Builder pass does not terminate — the fuel-indexed model creates at least
`f` arena nodes when given fuel `f`, so the unbounded Rust recursion never
finishes and arena size is not bounded by the graph. -/
theorem core_builder_unbounded :
    ∀ f : Nat, f ≤ (buildDependencyNode loopPackages loopResolve f 0 none
      ⟨[], []⟩).2.nodes.length := by
  intro f
  cases f with
  | zero => simp [core_build_zero]
  | succ f =>
    have := core_loop_growth f none ⟨[], []⟩
      (fun k v h => by simp [lookupMap] at h) (Or.inl rfl)
      (by simp [lookupMap])
    simpa using this

theorem core_build_fst_some (P : List Package) (R : List RNode) (f pid : Nat)
    (par : Option Nat) (st : BuildState) (pk : Package)
    (hmiss : lookupMap st.node_map (pid, par) = none)
    (hpkg : pkgFind P pid = some pk) :
    (buildDependencyNode P R (f + 1) pid par st).1 = some st.nodes.length := by
  rcases hr : resolveFind R pid with _ | node
  · rw [core_build_noresolve P R f pid par st pk hmiss hpkg hr]
  · rw [core_build_resolve P R f pid par st pk node hmiss hpkg hr]

theorem core_build_none_char (P : List Package) (R : List RNode) (f pid : Nat)
    (par : Option Nat) (st st' : BuildState)
    (h : buildDependencyNode P R (f + 1) pid par st = (none, st')) :
    st' = st ∧ lookupMap st.node_map (pid, par) = none ∧
      pkgFind P pid = none := by
  rcases hm : lookupMap st.node_map (pid, par) with _ | ex
  · rcases hp : pkgFind P pid with _ | pk
    · rw [core_build_pkg_none P R f pid par st hm hp] at h
      have h2 : st = st' := congrArg Prod.snd h
      exact ⟨h2.symm, rfl, rfl⟩
    · exfalso
      have := core_build_fst_some P R f pid par st pk hm hp
      rw [h] at this
      cases this
  · rw [core_build_memo P R f pid par st ex hm] at h
    simp at h

theorem core_get?_set_self {α : Type} (l : List α) (i : Nat) (a : α)
    (h : i < l.length) : (l.set i a).get? i = some a := by
  induction l generalizing i with
  | nil => simp at h
  | cons x xs ih =>
    cases i with
    | zero => rfl
    | succ i =>
      simp only [List.set_cons_succ, List.get?_cons_succ]
      exact ih i (by simpa using h)

theorem core_setCrate_get_self (nodes : List DependencyNode) (i : Nat)
    (cs : List Nat) (d : Dependency)
    (h : nodes.get? i = some (.Crate d)) :
    (setCrateChildren nodes i cs).get? i =
      some (.Crate { d with children := cs }) := by
  unfold setCrateChildren
  rw [h]
  exact core_get?_set_self _ _ _ (List.get?_eq_some.mp h).1

theorem core_setGroup_get_self (nodes : List DependencyNode) (i : Nat)
    (cs : List Nat) (g : DependencyGroup)
    (h : nodes.get? i = some (.Group g)) :
    (setGroupChildren nodes i cs).get? i =
      some (.Group { g with children := cs }) := by
  unfold setGroupChildren
  rw [h]
  exact core_get?_set_self _ _ _ (List.get?_eq_some.mp h).1

theorem core_buildList_preserve
    (bld : Nat → Option Nat → BuildState → Option Nat × BuildState)
    (hb : ∀ p par st j, j < st.nodes.length →
      (bld p par st).2.nodes.get? j = st.nodes.get? j)
    (hlen : ∀ p par st, st.nodes.length ≤ (bld p par st).2.nodes.length) :
    ∀ (pids : List Nat) (par : Option Nat) (st : BuildState) (j : Nat),
      j < st.nodes.length →
      (buildListAux bld pids par st).2.nodes.get? j = st.nodes.get? j := by
  intro pids
  induction pids with
  | nil =>
    intro par st j hj
    simp [buildListAux]
  | cons p rest ih =>
    intro par st j hj
    rcases hbp : bld p par st with ⟨r, st'⟩
    have h1 : st'.nodes.get? j = st.nodes.get? j := by
      have := hb p par st j hj
      rw [hbp] at this
      exact this
    have hl1 : st.nodes.length ≤ st'.nodes.length := by
      have := hlen p par st
      rw [hbp] at this
      exact this
    cases r with
    | some c =>
      rcases hbl : buildListAux bld rest par st' with ⟨cs, st''⟩
      have h2 : st''.nodes.get? j = st'.nodes.get? j := by
        have := ih par st' j (by omega)
        rw [hbl] at this
        exact this
      simp only [buildListAux, hbp, hbl]
      rw [h2, h1]
    | none =>
      simp only [buildListAux, hbp]
      rw [ih par st' j (by omega), h1]

theorem core_buildGroup_preserve
    (blst : List Nat → Option Nat → BuildState → List Nat × BuildState)
    (hb : ∀ pids par st j, j < st.nodes.length →
      (blst pids par st).2.nodes.get? j = st.nodes.get? j)
    (hlen : ∀ pids par st, st.nodes.length ≤ (blst pids par st).2.nodes.length)
    (kind : DependencyType) (deps : List Nat) (node_id : Nat)
    (children : List Nat) (st : BuildState) (j : Nat)
    (hj : j < st.nodes.length) :
    (buildGroupAux blst kind deps node_id children st).2.nodes.get? j =
      st.nodes.get? j := by
  by_cases hd : deps = []
  · simp [buildGroupAux, hd]
  · simp only [buildGroupAux, if_neg hd]
    rcases hbl : blst deps (some st.nodes.length)
        ⟨st.nodes ++ [.Group ⟨kind, some node_id, []⟩], st.node_map⟩ with
      ⟨gcs, st2⟩
    have hpush : (st.nodes ++ [DependencyNode.Group ⟨kind, some node_id, []⟩]).get? j =
        st.nodes.get? j := List.get?_append hj
    have h2 : st2.nodes.get? j =
        (st.nodes ++ [DependencyNode.Group ⟨kind, some node_id, []⟩]).get? j := by
      have := hb deps (some st.nodes.length)
        ⟨st.nodes ++ [.Group ⟨kind, some node_id, []⟩], st.node_map⟩ j
        (by simp; omega)
      rw [hbl] at this
      exact this
    simp only [hbl]
    rw [core_setGroup_get_ne _ _ _ _ (by omega), h2, hpush]

theorem core_chain_len
    (bld : Nat → Option Nat → BuildState → Option Nat × BuildState)
    (hlen : ∀ p par st, st.nodes.length ≤ (bld p par st).2.nodes.length)
    (normB devB bldB : List Nat) (nid : Nat) (st1 : BuildState) :
    st1.nodes.length ≤
      (buildGroupAux (buildListAux bld) .Build bldB nid
        (buildGroupAux (buildListAux bld) .Dev devB nid
          (buildListAux bld normB (some nid) st1).1
          (buildListAux bld normB (some nid) st1).2).1
        (buildGroupAux (buildListAux bld) .Dev devB nid
          (buildListAux bld normB (some nid) st1).1
          (buildListAux bld normB (some nid) st1).2).2).2.nodes.length := by
  refine le_trans (core_buildList_len bld hlen normB (some nid) st1)
    (le_trans (core_buildGroup_len _ (core_buildList_len bld hlen) _ _ _ _ _)
      (core_buildGroup_len _ (core_buildList_len bld hlen) _ _ _ _ _))

theorem core_chain_preserve
    (bld : Nat → Option Nat → BuildState → Option Nat × BuildState)
    (hpres : ∀ p par st j, j < st.nodes.length →
      (bld p par st).2.nodes.get? j = st.nodes.get? j)
    (hlen : ∀ p par st, st.nodes.length ≤ (bld p par st).2.nodes.length)
    (normB devB bldB : List Nat) (nid : Nat) (st1 : BuildState) (j : Nat)
    (hj : j < st1.nodes.length) :
    (buildGroupAux (buildListAux bld) .Build bldB nid
      (buildGroupAux (buildListAux bld) .Dev devB nid
        (buildListAux bld normB (some nid) st1).1
        (buildListAux bld normB (some nid) st1).2).1
      (buildGroupAux (buildListAux bld) .Dev devB nid
        (buildListAux bld normB (some nid) st1).1
        (buildListAux bld normB (some nid) st1).2).2).2.nodes.get? j =
      st1.nodes.get? j := by
  have h1 : j < (buildListAux bld normB (some nid) st1).2.nodes.length :=
    lt_of_lt_of_le hj (core_buildList_len bld hlen normB (some nid) st1)
  have h2 : j < (buildGroupAux (buildListAux bld) .Dev devB nid
      (buildListAux bld normB (some nid) st1).1
      (buildListAux bld normB (some nid) st1).2).2.nodes.length :=
    lt_of_lt_of_le h1 (core_buildGroup_len _ (core_buildList_len bld hlen)
      _ _ _ _ _)
  rw [core_buildGroup_preserve _ (core_buildList_preserve bld hpres hlen)
    (core_buildList_len bld hlen) _ _ _ _ _ _ h2]
  rw [core_buildGroup_preserve _ (core_buildList_preserve bld hpres hlen)
    (core_buildList_len bld hlen) _ _ _ _ _ _ h1]
  exact core_buildList_preserve bld hpres hlen _ _ _ _ hj

theorem core_build_preserve (P : List Package) (R : List RNode) :
    ∀ (f pid : Nat) (par : Option Nat) (st : BuildState) (j : Nat),
      j < st.nodes.length →
      (buildDependencyNode P R f pid par st).2.nodes.get? j =
        st.nodes.get? j := by
  intro f
  induction f with
  | zero =>
    intro pid par st j hj
    simp [core_build_zero]
  | succ f ih =>
    intro pid par st j hj
    rcases hm : lookupMap st.node_map (pid, par) with _ | ex
    · rcases hp : pkgFind P pid with _ | pk
      · simp [core_build_pkg_none P R f pid par st hm hp]
      · rcases hr : resolveFind R pid with _ | node
        · rw [core_build_noresolve P R f pid par st pk hm hp hr]
          exact List.get?_append hj
        · rw [core_build_resolve P R f pid par st pk node hm hp hr]
          dsimp only
          rw [core_setCrate_get_ne _ _ _ _ (by omega)]
          rw [core_chain_preserve (buildDependencyNode P R f) ih
            (core_build_len P R f) _ _ _ _ _ _ (by simp; omega)]
          exact List.get?_append hj
    · simp [core_build_memo P R f pid par st ex hm]

theorem core_buildList_newkeys (P : List Package)
    (bld : Nat → Option Nat → BuildState → Option Nat × BuildState)
    (hnew : ∀ p par st k v,
      lookupMap (bld p par st).2.node_map k = some v →
      lookupMap st.node_map k = some v ∨
      (k = (p, par) ∧ ∃ pk, pkgFind P p = some pk) ∨
      (∃ q, k.2 = some q ∧ st.nodes.length ≤ q))
    (hlen : ∀ p par st, st.nodes.length ≤ (bld p par st).2.nodes.length) :
    ∀ (pids : List Nat) (par : Option Nat) (st : BuildState)
      (k : Nat × Option Nat) (v : Nat),
      lookupMap (buildListAux bld pids par st).2.node_map k = some v →
      lookupMap st.node_map k = some v ∨
      (k.2 = par ∧ k.1 ∈ pids ∧ ∃ pk, pkgFind P k.1 = some pk) ∨
      (∃ q, k.2 = some q ∧ st.nodes.length ≤ q) := by
  intro pids
  induction pids with
  | nil =>
    intro par st k v h
    simp only [buildListAux] at h
    exact Or.inl h
  | cons p rest ih =>
    intro par st k v h
    rcases hbp : bld p par st with ⟨r, st'⟩
    have hl1 : st.nodes.length ≤ st'.nodes.length := by
      have := hlen p par st
      rw [hbp] at this
      exact this
    have hstep : lookupMap st'.node_map k = some v →
        lookupMap st.node_map k = some v ∨
        (k.2 = par ∧ k.1 ∈ p :: rest ∧ ∃ pk, pkgFind P k.1 = some pk) ∨
        (∃ q, k.2 = some q ∧ st.nodes.length ≤ q) := by
      intro h1
      have := hnew p par st k v (by rw [hbp]; exact h1)
      rcases this with h2 | ⟨h2, hpk⟩ | h2
      · exact Or.inl h2
      · refine Or.inr (Or.inl ?_)
        rw [h2]
        exact ⟨rfl, List.mem_cons_self _ _, hpk⟩
      · exact Or.inr (Or.inr h2)
    have hrest : lookupMap (buildListAux bld rest par st').2.node_map k =
        some v →
        lookupMap st.node_map k = some v ∨
        (k.2 = par ∧ k.1 ∈ p :: rest ∧ ∃ pk, pkgFind P k.1 = some pk) ∨
        (∃ q, k.2 = some q ∧ st.nodes.length ≤ q) := by
      intro h1
      rcases ih par st' k v h1 with h2 | ⟨h2, hmem, hpk⟩ | ⟨q, hq, hle⟩
      · exact hstep h2
      · exact Or.inr (Or.inl ⟨h2, List.mem_cons_of_mem _ hmem, hpk⟩)
      · exact Or.inr (Or.inr ⟨q, hq, by omega⟩)
    cases r with
    | some c =>
      rcases hbl : buildListAux bld rest par st' with ⟨cs, st''⟩
      simp only [buildListAux, hbp, hbl] at h
      apply hrest
      rw [hbl]
      exact h
    | none =>
      simp only [buildListAux, hbp] at h
      exact hrest h

theorem core_buildGroup_newkeys
    (blst : List Nat → Option Nat → BuildState → List Nat × BuildState)
    (hnew : ∀ pids par st k v,
      lookupMap (blst pids par st).2.node_map k = some v →
      lookupMap st.node_map k = some v ∨
      (k.2 = par ∧ True) ∨
      (∃ q, k.2 = some q ∧ st.nodes.length ≤ q))
    (kind : DependencyType) (deps : List Nat) (node_id : Nat)
    (children : List Nat) (st : BuildState) (k : Nat × Option Nat) (v : Nat)
    (h : lookupMap
      (buildGroupAux blst kind deps node_id children st).2.node_map k =
      some v) :
    lookupMap st.node_map k = some v ∨
    (∃ q, k.2 = some q ∧ st.nodes.length ≤ q) := by
  by_cases hd : deps = []
  · rw [hd, core_buildGroup_nil] at h
    exact Or.inl h
  · simp only [buildGroupAux, if_neg hd] at h
    rcases hbl : blst deps (some st.nodes.length)
        ⟨st.nodes ++ [.Group ⟨kind, some node_id, []⟩], st.node_map⟩ with
      ⟨gcs, st2⟩
    rw [hbl] at h
    dsimp only at h
    rcases hnew deps (some st.nodes.length)
        ⟨st.nodes ++ [.Group ⟨kind, some node_id, []⟩], st.node_map⟩ k v
        (by rw [hbl]; exact h) with h2 | ⟨h2, -⟩ | ⟨q, hq, hle⟩
    · exact Or.inl h2
    · exact Or.inr ⟨st.nodes.length, h2, le_refl _⟩
    · refine Or.inr ⟨q, hq, ?_⟩
      simp at hle
      omega

theorem core_chain_newkeys (P : List Package)
    (bld : Nat → Option Nat → BuildState → Option Nat × BuildState)
    (hnew : ∀ p par st k v,
      lookupMap (bld p par st).2.node_map k = some v →
      lookupMap st.node_map k = some v ∨
      (k = (p, par) ∧ ∃ pk, pkgFind P p = some pk) ∨
      (∃ q, k.2 = some q ∧ st.nodes.length ≤ q))
    (hlen : ∀ p par st, st.nodes.length ≤ (bld p par st).2.nodes.length)
    (normB devB bldB : List Nat) (nid : Nat) (st1 : BuildState)
    (k : Nat × Option Nat) (v : Nat)
    (h : lookupMap
      (buildGroupAux (buildListAux bld) .Build bldB nid
        (buildGroupAux (buildListAux bld) .Dev devB nid
          (buildListAux bld normB (some nid) st1).1
          (buildListAux bld normB (some nid) st1).2).1
        (buildGroupAux (buildListAux bld) .Dev devB nid
          (buildListAux bld normB (some nid) st1).1
          (buildListAux bld normB (some nid) st1).2).2).2.node_map k =
      some v) :
    lookupMap st1.node_map k = some v ∨
    (k.2 = some nid ∧ ∃ pk, pkgFind P k.1 = some pk) ∨
    (∃ q, k.2 = some q ∧ st1.nodes.length ≤ q) := by
  have hlnew : ∀ pids par st k v,
      lookupMap (buildListAux bld pids par st).2.node_map k = some v →
      lookupMap st.node_map k = some v ∨ (k.2 = par ∧ True) ∨
      (∃ q, k.2 = some q ∧ st.nodes.length ≤ q) := by
    intro pids par st k v h1
    rcases core_buildList_newkeys P bld hnew hlen pids par st k v h1 with
      h2 | ⟨h2, -, -⟩ | h2
    · exact Or.inl h2
    · exact Or.inr (Or.inl ⟨h2, trivial⟩)
    · exact Or.inr (Or.inr h2)
  have hblen : st1.nodes.length ≤
      (buildListAux bld normB (some nid) st1).2.nodes.length :=
    core_buildList_len bld hlen normB (some nid) st1
  have hdlen : (buildListAux bld normB (some nid) st1).2.nodes.length ≤
      (buildGroupAux (buildListAux bld) .Dev devB nid
        (buildListAux bld normB (some nid) st1).1
        (buildListAux bld normB (some nid) st1).2).2.nodes.length :=
    core_buildGroup_len _ (core_buildList_len bld hlen) _ _ _ _ _
  rcases core_buildGroup_newkeys _ hlnew .Build bldB nid _ _ k v h with
    h2 | ⟨q, hq, hle⟩
  · rcases core_buildGroup_newkeys _ hlnew .Dev devB nid _ _ k v h2 with
      h3 | ⟨q, hq, hle⟩
    · rcases core_buildList_newkeys P bld hnew hlen normB (some nid) st1 k v
          h3 with h4 | ⟨h4, -, hpk⟩ | h4
      · exact Or.inl h4
      · exact Or.inr (Or.inl ⟨h4, hpk⟩)
      · exact Or.inr (Or.inr h4)
    · exact Or.inr (Or.inr ⟨q, hq, by omega⟩)
  · exact Or.inr (Or.inr ⟨q, hq, by omega⟩)

theorem core_build_newkeys (P : List Package) (R : List RNode) :
    ∀ (f pid : Nat) (par : Option Nat) (st : BuildState)
      (k : Nat × Option Nat) (v : Nat),
      lookupMap (buildDependencyNode P R f pid par st).2.node_map k = some v →
      lookupMap st.node_map k = some v ∨
      (k = (pid, par) ∧ ∃ pk, pkgFind P pid = some pk) ∨
      (∃ q, k.2 = some q ∧ st.nodes.length ≤ q) := by
  intro f
  induction f with
  | zero =>
    intro pid par st k v h
    exact Or.inl h
  | succ f ih =>
    intro pid par st k v h
    rcases hm : lookupMap st.node_map (pid, par) with _ | ex
    · rcases hp : pkgFind P pid with _ | pk
      · rw [core_build_pkg_none P R f pid par st hm hp] at h
        exact Or.inl h
      · have hins : lookupMap
            (insertMap st.node_map (pid, par) st.nodes.length) k = some v →
            lookupMap st.node_map k = some v ∨
            (k = (pid, par) ∧ ∃ pk', (some pk : Option Package) = some pk') ∨
            (∃ q, k.2 = some q ∧ st.nodes.length ≤ q) := by
          intro h1
          by_cases hk : (pid, par) = k
          · exact Or.inr (Or.inl ⟨hk.symm, pk, rfl⟩)
          · rw [core_lookup_insert_ne _ _ _ _ hk] at h1
            exact Or.inl h1
        rcases hr : resolveFind R pid with _ | node
        · rw [core_build_noresolve P R f pid par st pk hm hp hr] at h
          exact hins h
        · rw [core_build_resolve P R f pid par st pk node hm hp hr] at h
          dsimp only at h
          rcases core_chain_newkeys P (buildDependencyNode P R f) ih
              (core_build_len P R f) _ _ _ _ _ k v h with
            h2 | ⟨h2, hpk⟩ | ⟨q, hq, hle⟩
          · exact hins h2
          · refine Or.inr (Or.inr ⟨st.nodes.length, h2, le_refl _⟩)
          · refine Or.inr (Or.inr ⟨q, hq, ?_⟩)
            simp at hle
            omega
    · rw [core_build_memo P R f pid par st ex hm] at h
      exact Or.inl h

theorem core_buildList_char (P : List Package) (R : List RNode) (f : Nat) :
    ∀ (pids : List Nat) (q : Nat) (st : BuildState) (cs : List Nat)
      (st' : BuildState),
      buildListAux (buildDependencyNode P R (f + 1)) pids (some q) st =
        (cs, st') →
      q < st.nodes.length →
      cs = pids.filterMap
        (fun d => lookupMap st'.node_map (d, some q)) := by
  intro pids
  induction pids with
  | nil =>
    intro q st cs st' h hq
    simp only [buildListAux] at h
    have h1 : cs = [] := (congrArg Prod.fst h).symm
    rw [h1]
    simp
  | cons d rest ih =>
    intro q st cs st' h hq
    rcases hb : buildDependencyNode P R (f + 1) d (some q) st with ⟨r, stm⟩
    have hlm : st.nodes.length ≤ stm.nodes.length := by
      have := core_build_len P R (f + 1) d (some q) st
      rw [hb] at this
      exact this
    cases r with
    | some c =>
      rcases hbl : buildListAux (buildDependencyNode P R (f + 1)) rest
          (some q) stm with ⟨cs', st2⟩
      simp only [buildListAux, hb, hbl] at h
      have hcs : cs = c :: cs' := (congrArg Prod.fst h).symm
      have hst : st' = st2 := (congrArg Prod.snd h).symm
      have hrec : lookupMap stm.node_map (d, some q) = some c :=
        core_build_rec P R (f + 1) d (some q) st stm c hb
      have hfin : lookupMap st2.node_map (d, some q) = some c := by
        have := core_buildList_mono _ (core_build_mono P R (f + 1)) rest
          (some q) stm (d, some q) c hrec
        rw [hbl] at this
        exact this
      have hih := ih q stm cs' st2 hbl (by omega)
      rw [hcs, hst, List.filterMap_cons, hfin, hih]
    | none =>
      obtain ⟨hstm, hmiss, hpkg⟩ :=
        core_build_none_char P R f d (some q) st stm hb
      rw [hstm] at hb
      simp only [buildListAux, hb] at h
      have hfin : lookupMap st'.node_map (d, some q) = none := by
        rcases hl : lookupMap st'.node_map (d, some q) with _ | v
        · rfl
        · exfalso
          have := core_buildList_newkeys P _ (core_build_newkeys P R (f + 1))
            (core_build_len P R (f + 1)) rest (some q) st (d, some q) v
            (by rw [h]; exact hl)
          rcases this with h2 | ⟨-, -, pk, hpk2⟩ | ⟨q', hq', hle⟩
          · rw [hmiss] at h2
            cases h2
          · rw [hpkg] at hpk2
            cases hpk2
          · rw [Option.some.injEq] at hq'
            omega
      have hih := ih q st cs st' h hq
      rw [hih, List.filterMap_cons, hfin]

theorem core_filterMap_stable (pids : List Nat) (q L : Nat)
    (m1 m2 : List ((Nat × Option Nat) × Nat)) (hq : q < L)
    (hmono : ∀ k v, lookupMap m1 k = some v → lookupMap m2 k = some v)
    (hnew : ∀ k v, lookupMap m2 k = some v →
      lookupMap m1 k = some v ∨ (∃ r, k.2 = some r ∧ L ≤ r)) :
    pids.filterMap (fun d => lookupMap m1 (d, some q)) =
      pids.filterMap (fun d => lookupMap m2 (d, some q)) := by
  induction pids with
  | nil => rfl
  | cons d rest ih =>
    rw [List.filterMap_cons, List.filterMap_cons, ih]
    have : lookupMap m1 (d, some q) = lookupMap m2 (d, some q) := by
      rcases hl : lookupMap m1 (d, some q) with _ | v
      · rcases hl2 : lookupMap m2 (d, some q) with _ | v2
        · rfl
        · exfalso
          rcases hnew (d, some q) v2 hl2 with h2 | ⟨r, hr, hle⟩
          · rw [hl] at h2
            cases h2
          · rw [Option.some.injEq] at hr
            omega
      · exact (hmono (d, some q) v hl).symm
    rw [this]

theorem core_group_phase (P : List Package) (R : List RNode) (f : Nat)
    (kind : DependencyType) (deps : List Nat) (nid : Nat)
    (children : List Nat) (st : BuildState) :
    ∃ gPart st',
      buildGroupAux (buildListAux (buildDependencyNode P R (f + 1)))
        kind deps nid children st = (children ++ gPart, st') ∧
      ((deps = [] ∧ gPart = [] ∧ st' = st) ∨
       (deps ≠ [] ∧ st.nodes.length < st'.nodes.length ∧ ∃ g : DependencyGroup,
         gPart = [st.nodes.length] ∧
         st'.nodes.get? st.nodes.length = some (.Group g) ∧
         g.kind = kind ∧ g.parent = some nid ∧
         g.children = deps.filterMap
           (fun d => lookupMap st'.node_map (d, some st.nodes.length)))) := by
  by_cases hd : deps = []
  · refine ⟨[], st, ?_, Or.inl ⟨hd, rfl, rfl⟩⟩
    rw [hd, core_buildGroup_nil, List.append_nil]
  · rcases hbl : buildListAux (buildDependencyNode P R (f + 1)) deps
        (some st.nodes.length)
        ⟨st.nodes ++ [.Group ⟨kind, some nid, []⟩], st.node_map⟩ with
      ⟨gcs, st3⟩
    have hpl : (st.nodes ++
        [DependencyNode.Group ⟨kind, some nid, []⟩]).length =
        st.nodes.length + 1 := by simp
    have hl3 : st.nodes.length + 1 ≤ st3.nodes.length := by
      have := core_buildList_len _ (core_build_len P R (f + 1)) deps
        (some st.nodes.length)
        ⟨st.nodes ++ [.Group ⟨kind, some nid, []⟩], st.node_map⟩
      rw [hbl] at this
      simpa using this
    have hg3 : st3.nodes.get? st.nodes.length =
        some (.Group ⟨kind, some nid, []⟩) := by
      have hpush : (st.nodes ++
          [DependencyNode.Group ⟨kind, some nid, []⟩]).get? st.nodes.length =
          some (.Group ⟨kind, some nid, []⟩) := List.get?_concat_length _ _
      have := core_buildList_preserve _ (core_build_preserve P R (f + 1))
        (core_build_len P R (f + 1)) deps (some st.nodes.length)
        ⟨st.nodes ++ [.Group ⟨kind, some nid, []⟩], st.node_map⟩
        st.nodes.length (by simp)
      rw [hbl] at this
      rw [this]
      exact hpush
    have hchar : gcs = deps.filterMap
        (fun d => lookupMap st3.node_map (d, some st.nodes.length)) :=
      core_buildList_char P R f deps st.nodes.length
        ⟨st.nodes ++ [.Group ⟨kind, some nid, []⟩], st.node_map⟩ gcs st3 hbl
        (by simp)
    refine ⟨[st.nodes.length],
      ⟨setGroupChildren st3.nodes st.nodes.length gcs, st3.node_map⟩, ?_,
      Or.inr ⟨hd, ?_, ⟨kind, some nid, gcs⟩, rfl, ?_, rfl, rfl, ?_⟩⟩
    · simp only [buildGroupAux, if_neg hd, hbl]
    · dsimp only
      rw [core_setGroup_length]
      omega
    · dsimp only
      exact core_setGroup_get_self _ _ _ _ hg3
    · dsimp only
      exact hchar

theorem core_groups_appended_aux (P : List Package) (R : List RNode) (f : Nat)
    (normB devB bldB : List Nat) (nid : Nat) (st1 : BuildState)
    (d0 : Dependency) (ncs : List Nat) (st2 : BuildState) (cs3 : List Nat)
    (st3 : BuildState) (cs4 : List Nat) (st4 : BuildState)
    (hnid : nid < st1.nodes.length)
    (hcrate : st1.nodes.get? nid = some (.Crate d0))
    (h2 : buildListAux (buildDependencyNode P R (f + 1)) normB (some nid)
      st1 = (ncs, st2))
    (h3 : buildGroupAux (buildListAux (buildDependencyNode P R (f + 1)))
      .Dev devB nid ncs st2 = (cs3, st3))
    (h4 : buildGroupAux (buildListAux (buildDependencyNode P R (f + 1)))
      .Build bldB nid cs3 st3 = (cs4, st4)) :
    ∃ d ncs' devPart bldPart,
      (⟨setCrateChildren st4.nodes nid cs4, st4.node_map⟩ :
        BuildState).nodes.get? nid = some (.Crate d) ∧
      d.children = ncs' ++ devPart ++ bldPart ∧
      ncs' = normB.filterMap (fun dep =>
        lookupMap (⟨setCrateChildren st4.nodes nid cs4, st4.node_map⟩ :
          BuildState).node_map (dep, some nid)) ∧
      (devB = [] → devPart = []) ∧
      (devB ≠ [] → ∃ gid g, devPart = [gid] ∧
        (⟨setCrateChildren st4.nodes nid cs4, st4.node_map⟩ :
          BuildState).nodes.get? gid = some (.Group g) ∧
        g.kind = .Dev ∧ g.parent = some nid ∧
        g.children = devB.filterMap (fun dep =>
          lookupMap (⟨setCrateChildren st4.nodes nid cs4, st4.node_map⟩ :
            BuildState).node_map (dep, some gid))) ∧
      (bldB = [] → bldPart = []) ∧
      (bldB ≠ [] → ∃ gid g, bldPart = [gid] ∧
        (⟨setCrateChildren st4.nodes nid cs4, st4.node_map⟩ :
          BuildState).nodes.get? gid = some (.Group g) ∧
        g.kind = .Build ∧ g.parent = some nid ∧
        g.children = bldB.filterMap (fun dep =>
          lookupMap (⟨setCrateChildren st4.nodes nid cs4, st4.node_map⟩ :
            BuildState).node_map (dep, some gid))) := by
  have hlnew : ∀ pids par st k v,
      lookupMap (buildListAux (buildDependencyNode P R (f + 1)) pids par
        st).2.node_map k = some v →
      lookupMap st.node_map k = some v ∨ (k.2 = par ∧ True) ∨
      (∃ q, k.2 = some q ∧ st.nodes.length ≤ q) := by
    intro pids par st k v h1
    rcases core_buildList_newkeys P _ (core_build_newkeys P R (f + 1))
        (core_build_len P R (f + 1)) pids par st k v h1 with
      hh | ⟨hh, -, -⟩ | hh
    · exact Or.inl hh
    · exact Or.inr (Or.inl ⟨hh, trivial⟩)
    · exact Or.inr (Or.inr hh)
  have hl2 : st1.nodes.length ≤ st2.nodes.length := by
    have := core_buildList_len _ (core_build_len P R (f + 1)) normB (some nid)
      st1
    rw [h2] at this
    exact this
  have hcrate2 : st2.nodes.get? nid = some (.Crate d0) := by
    have := core_buildList_preserve _ (core_build_preserve P R (f + 1))
      (core_build_len P R (f + 1)) normB (some nid) st1 nid hnid
    rw [h2] at this
    rw [this]
    exact hcrate
  have hchar2 : ncs = normB.filterMap
      (fun dep => lookupMap st2.node_map (dep, some nid)) :=
    core_buildList_char P R f normB nid st1 ncs st2 h2 hnid
  obtain ⟨gPartD, stD, heqD, hcaseD⟩ :=
    core_group_phase P R f .Dev devB nid ncs st2
  rw [h3] at heqD
  have hcs3 : cs3 = ncs ++ gPartD := congrArg Prod.fst heqD
  have hst3 : st3 = stD := congrArg Prod.snd heqD
  rw [← hst3] at hcaseD
  obtain ⟨gPartB, stB, heqB, hcaseB⟩ :=
    core_group_phase P R f .Build bldB nid cs3 st3
  rw [h4] at heqB
  have hcs4 : cs4 = cs3 ++ gPartB := congrArg Prod.fst heqB
  have hst4 : st4 = stB := congrArg Prod.snd heqB
  rw [← hst4] at hcaseB
  have hl3 : st2.nodes.length ≤ st3.nodes.length := by
    rcases hcaseD with ⟨-, -, h⟩ | ⟨-, h, -⟩
    · rw [h]
    · omega
  have hl4 : st3.nodes.length ≤ st4.nodes.length := by
    rcases hcaseB with ⟨-, -, h⟩ | ⟨-, h, -⟩
    · rw [h]
    · omega
  have hmono34 : ∀ k v, lookupMap st3.node_map k = some v →
      lookupMap st4.node_map k = some v := by
    intro k v hkv
    have := core_buildGroup_mono _
      (core_buildList_mono _ (core_build_mono P R (f + 1))) .Build bldB nid
      cs3 st3 k v hkv
    rw [h4] at this
    exact this
  have hnew34 : ∀ k v, lookupMap st4.node_map k = some v →
      lookupMap st3.node_map k = some v ∨
      (∃ r, k.2 = some r ∧ st3.nodes.length ≤ r) := by
    intro k v hkv
    have := core_buildGroup_newkeys _ hlnew .Build bldB nid cs3 st3 k v
      (by rw [h4]; exact hkv)
    exact this
  have hmono23 : ∀ k v, lookupMap st2.node_map k = some v →
      lookupMap st3.node_map k = some v := by
    intro k v hkv
    have := core_buildGroup_mono _
      (core_buildList_mono _ (core_build_mono P R (f + 1))) .Dev devB nid
      ncs st2 k v hkv
    rw [h3] at this
    exact this
  have hnew23 : ∀ k v, lookupMap st3.node_map k = some v →
      lookupMap st2.node_map k = some v ∨
      (∃ r, k.2 = some r ∧ st2.nodes.length ≤ r) := by
    intro k v hkv
    exact core_buildGroup_newkeys _ hlnew .Dev devB nid ncs st2 k v
      (by rw [h3]; exact hkv)
  have hnew24 : ∀ k v, lookupMap st4.node_map k = some v →
      lookupMap st2.node_map k = some v ∨
      (∃ r, k.2 = some r ∧ st2.nodes.length ≤ r) := by
    intro k v hkv
    rcases hnew34 k v hkv with hh | ⟨r, hr, hle⟩
    · exact hnew23 k v hh
    · exact Or.inr ⟨r, hr, by omega⟩
  have hcrate4 : st4.nodes.get? nid = some (.Crate d0) := by
    have hp3 : st3.nodes.get? nid = some (.Crate d0) := by
      have := core_buildGroup_preserve _
        (core_buildList_preserve _ (core_build_preserve P R (f + 1))
          (core_build_len P R (f + 1)))
        (core_buildList_len _ (core_build_len P R (f + 1))) .Dev devB nid
        ncs st2 nid (by omega)
      rw [h3] at this
      rw [this]
      exact hcrate2
    have := core_buildGroup_preserve _
      (core_buildList_preserve _ (core_build_preserve P R (f + 1))
        (core_build_len P R (f + 1)))
      (core_buildList_len _ (core_build_len P R (f + 1))) .Build bldB nid
      cs3 st3 nid (by omega)
    rw [h4] at this
    rw [this]
    exact hp3
  refine ⟨{ d0 with children := cs4 }, ncs, gPartD, gPartB, ?_, ?_, ?_, ?_,
    ?_, ?_, ?_⟩
  · exact core_setCrate_get_self _ _ _ _ hcrate4
  · rw [hcs4, hcs3, List.append_assoc]
  · dsimp only
    rw [hchar2]
    exact core_filterMap_stable normB nid st2.nodes.length st2.node_map
      st4.node_map (by omega)
      (fun k v hkv => hmono34 k v (hmono23 k v hkv)) hnew24
  · intro hdev
    rcases hcaseD with ⟨-, hp, -⟩ | ⟨hne, -, -⟩
    · exact hp
    · exact absurd hdev hne
  · intro hdev
    rcases hcaseD with ⟨heq', -, -⟩ | ⟨-, hlt, g, hgp, hget, hkind, hpar, hch⟩
    · exact absurd heq' hdev
    · refine ⟨st2.nodes.length, g, hgp, ?_, hkind, hpar, ?_⟩
      · dsimp only
        rw [core_setCrate_get_ne _ _ _ _ (by omega)]
        have := core_buildGroup_preserve _
          (core_buildList_preserve _ (core_build_preserve P R (f + 1))
            (core_build_len P R (f + 1)))
          (core_buildList_len _ (core_build_len P R (f + 1))) .Build bldB nid
          cs3 st3 st2.nodes.length (by omega)
        rw [h4] at this
        rw [this]
        exact hget
      · dsimp only
        rw [hch]
        exact core_filterMap_stable devB st2.nodes.length st3.nodes.length
          st3.node_map st4.node_map (by omega) hmono34 hnew34
  · intro hbld
    rcases hcaseB with ⟨-, hp, -⟩ | ⟨hne, -, -⟩
    · exact hp
    · exact absurd hbld hne
  · intro hbld
    rcases hcaseB with ⟨heq', -, -⟩ | ⟨-, hlt, g, hgp, hget, hkind, hpar, hch⟩
    · exact absurd heq' hbld
    · refine ⟨st3.nodes.length, g, hgp, ?_, hkind, hpar, ?_⟩
      · dsimp only
        rw [core_setCrate_get_ne _ _ _ _ (by omega)]
        exact hget
      · dsimp only
        exact hch

/-- C5 counterexample: for a package whose edge list is
`[dev-edge to a, normal-edge to b]`, the builder produces root children
`[1, 2]` where node `1` is the Crate for the Normal child `b` and node `2`
is the Dev group — the group is appended after the Normal children, not
inserted at the position of the bucket's first member edge (edge index 0,
which would put the group before `b`). -/
theorem core_groups_counterexample :
    (buildDependencyNode
      [⟨0, "root", "1.0.0", none, some "/w", []⟩,
       ⟨1, "a", "0.1.0", some "reg", none, []⟩,
       ⟨2, "b", "0.2.0", some "reg", none, []⟩]
      [⟨0, [⟨1, [.development]⟩, ⟨2, [.normal]⟩]⟩, ⟨1, []⟩, ⟨2, []⟩]
      5 0 none ⟨[], []⟩).2.nodes =
      [.Crate ⟨"root", "1.0.0", some "/w", false, none, [1, 2]⟩,
       .Crate ⟨"b", "0.2.0", none, false, some 0, []⟩,
       .Group ⟨.Dev, some 0, [3]⟩,
       .Crate ⟨"a", "0.1.0", none, false, some 2, []⟩] := by
  decide

/-- C5 amended: Normal-kind children attach directly to the current node
in edge order (the children list pairs each Normal-bucket member, in
bucket order, with the node the dedup map records for it under this
parent); for each non-empty Dev or Build bucket exactly one Group node is
synthesized and appended to the children list after all Normal children
(the Dev group before the Build group), with the bucket members recursed
under the Group as parent context. -/
theorem core_groups_appended (P : List Package) (R : List RNode) (f pid : Nat)
    (par : Option Nat) (st : BuildState) (pk : Package) (node : RNode)
    (hmiss : lookupMap st.node_map (pid, par) = none)
    (hpkg : pkgFind P pid = some pk)
    (hres : resolveFind R pid = some node) :
    ∃ stF : BuildState,
      buildDependencyNode P R (f + 2) pid par st =
        (some st.nodes.length, stF) ∧
      ∃ d ncs devPart bldPart,
        stF.nodes.get? st.nodes.length = some (.Crate d) ∧
        d.children = ncs ++ devPart ++ bldPart ∧
        ncs = (classifyDeps node.deps).1.filterMap (fun dep =>
          lookupMap stF.node_map (dep, some st.nodes.length)) ∧
        ((classifyDeps node.deps).2.1 = [] → devPart = []) ∧
        ((classifyDeps node.deps).2.1 ≠ [] → ∃ gid g, devPart = [gid] ∧
          stF.nodes.get? gid = some (.Group g) ∧ g.kind = .Dev ∧
          g.parent = some st.nodes.length ∧
          g.children = (classifyDeps node.deps).2.1.filterMap (fun dep =>
            lookupMap stF.node_map (dep, some gid))) ∧
        ((classifyDeps node.deps).2.2 = [] → bldPart = []) ∧
        ((classifyDeps node.deps).2.2 ≠ [] → ∃ gid g, bldPart = [gid] ∧
          stF.nodes.get? gid = some (.Group g) ∧ g.kind = .Build ∧
          g.parent = some st.nodes.length ∧
          g.children = (classifyDeps node.deps).2.2.filterMap (fun dep =>
            lookupMap stF.node_map (dep, some gid))) := by
  refine ⟨_, core_build_resolve P R (f + 1) pid par st pk node hmiss hpkg hres,
    ?_⟩
  dsimp only
  refine core_groups_appended_aux P R f (classifyDeps node.deps).1
    (classifyDeps node.deps).2.1 (classifyDeps node.deps).2.2 st.nodes.length
    _
    ⟨pk.name, pk.version, (if pk.source.isNone then pk.manifestParent else none),
      (pk.targets.any fun t => t.kind.any fun k => k = TargetKind.procMacro),
      par, []⟩
    _ _ _ _ _ _ ?_ ?_ rfl rfl rfl
  · simp
  · exact List.get?_concat_length _ _

/-- Witness for the amended C5 at the dev/normal mixed-edge graph. -/
theorem core_groups_appended_witness :
    ∃ (stF : BuildState) (d : Dependency) (ncs devPart bldPart : List Nat),
      buildDependencyNode
        [⟨0, "root", "1.0.0", none, some "/w", []⟩,
         ⟨1, "a", "0.1.0", some "reg", none, []⟩,
         ⟨2, "b", "0.2.0", some "reg", none, []⟩]
        [⟨0, [⟨1, [.development]⟩, ⟨2, [.normal]⟩]⟩, ⟨1, []⟩, ⟨2, []⟩]
        5 0 none ⟨[], []⟩ = (some 0, stF) ∧
      stF.nodes.get? 0 = some (.Crate d) ∧
      d.children = ncs ++ devPart ++ bldPart := by
  obtain ⟨stF, h1, d, ncs, dp, bp, h2, h3, -⟩ :=
    core_groups_appended
      [⟨0, "root", "1.0.0", none, some "/w", []⟩,
       ⟨1, "a", "0.1.0", some "reg", none, []⟩,
       ⟨2, "b", "0.2.0", some "reg", none, []⟩]
      [⟨0, [⟨1, [.development]⟩, ⟨2, [.normal]⟩]⟩, ⟨1, []⟩, ⟨2, []⟩]
      3 0 none ⟨[], []⟩ ⟨0, "root", "1.0.0", none, some "/w", []⟩
      ⟨0, [⟨1, [.development]⟩, ⟨2, [.normal]⟩]⟩ rfl rfl rfl
  exact ⟨stF, d, ncs, dp, bp, h1, h2, h3⟩

end CoreThms

section UIThms

open UI

theorem ui_walk_nil (t : UTree) (op : Finset Nat) (f d : Nat) :
    walkList t op f [] d = [] := rfl

theorem ui_walk_cons (t : UTree) (op : Finset Nat) (f : Nat) (i : Nat)
    (ids : List Nat) (d : Nat) :
    walkList t op f (i :: ids) d =
      collectVisible t op f i d ++ walkList t op f ids d := by
  simp [walkList]

theorem ui_collect_zero (t : UTree) (op : Finset Nat) (i d : Nat) :
    collectVisible t op 0 i d = [] := rfl

theorem ui_collect_succ (t : UTree) (op : Finset Nat) (f i d : Nat) :
    collectVisible t op (f + 1) i d =
      ⟨i, d⟩ ::
        (if i ∈ op then
          match t.node i with
          | some n => walkList t op f n.children (d + 1)
          | none => []
        else []) := rfl

theorem ui_collect_succ_of_mem (t : UTree) (op : Finset Nat) (f i d : Nat)
    (n : UNode) (hi : i ∈ op) (hn : t.node i = some n) :
    collectVisible t op (f + 1) i d =
      ⟨i, d⟩ :: walkList t op f n.children (d + 1) := by
  rw [ui_collect_succ, if_pos hi, hn]

theorem ui_collect_succ_of_notmem (t : UTree) (op : Finset Nat) (f i d : Nat)
    (hi : i ∉ op) :
    collectVisible t op (f + 1) i d = [⟨i, d⟩] := by
  rw [ui_collect_succ, if_neg hi]

theorem ui_collect_succ_of_nonode (t : UTree) (op : Finset Nat) (f i d : Nat)
    (hn : t.node i = none) :
    collectVisible t op (f + 1) i d = [⟨i, d⟩] := by
  rw [ui_collect_succ, hn]
  split <;> rfl

theorem ui_idsOf_nil : idsOf [] = [] := rfl

theorem ui_idsOf_cons (x : VisibleNode) (l : List VisibleNode) :
    idsOf (x :: l) = x.id :: idsOf l := rfl

theorem ui_idsOf_append (a b : List VisibleNode) :
    idsOf (a ++ b) = idsOf a ++ idsOf b := by
  simp [idsOf]

theorem ui_collect_sublist (t : UTree) (op op' : Finset Nat)
    (hsub : ∀ i, i ∈ op → i ∈ op') :
    ∀ f i d, List.Sublist (idsOf (collectVisible t op f i d))
      (idsOf (collectVisible t op' f i d)) := by
  intro f
  induction f with
  | zero =>
    intro i d
    exact List.Sublist.refl _
  | succ f ih =>
    intro i d
    have hw : ∀ (ids : List Nat) (d' : Nat),
        List.Sublist (idsOf (walkList t op f ids d'))
          (idsOf (walkList t op' f ids d')) := by
      intro ids
      induction ids with
      | nil => intro d'; exact List.Sublist.refl _
      | cons j rest ihl =>
        intro d'
        rw [ui_walk_cons, ui_walk_cons, ui_idsOf_append, ui_idsOf_append]
        exact List.Sublist.append (ih j d') (ihl d')
    by_cases hi : i ∈ op
    · rcases hn : t.node i with _ | n
      · rw [ui_collect_succ_of_nonode t op f i d hn,
          ui_collect_succ_of_nonode t op' f i d hn]
      · rw [ui_collect_succ_of_mem t op f i d n hi hn,
          ui_collect_succ_of_mem t op' f i d n (hsub i hi) hn,
          ui_idsOf_cons, ui_idsOf_cons]
        exact List.Sublist.cons₂ _ (hw n.children (d + 1))
    · rw [ui_collect_succ_of_notmem t op f i d hi, ui_collect_succ]
      rw [ui_idsOf_cons]
      exact List.Sublist.cons₂ _ (List.nil_sublist _)

theorem ui_walk_sublist (t : UTree) (op op' : Finset Nat)
    (hsub : ∀ i, i ∈ op → i ∈ op') (f : Nat) (ids : List Nat) (d : Nat) :
    List.Sublist (idsOf (walkList t op f ids d))
      (idsOf (walkList t op' f ids d)) := by
  induction ids with
  | nil => exact List.Sublist.refl _
  | cons j rest ihl =>
    rw [ui_walk_cons, ui_walk_cons, ui_idsOf_append, ui_idsOf_append]
    exact List.Sublist.append (ui_collect_sublist t op op' hsub f j d) ihl

theorem ui_collect_congr (t : UTree) (op op' : Finset Nat)
    (hagree : ∀ i n, t.node i = some n → (i ∈ op ↔ i ∈ op')) :
    ∀ f i d, collectVisible t op f i d = collectVisible t op' f i d := by
  intro f
  induction f with
  | zero => intro i d; rfl
  | succ f ih =>
    intro i d
    have hw : ∀ (ids : List Nat) (d' : Nat),
        walkList t op f ids d' = walkList t op' f ids d' := by
      intro ids
      induction ids with
      | nil => intro d'; rfl
      | cons j rest ihl =>
        intro d'
        rw [ui_walk_cons, ui_walk_cons, ih j d', ihl d']
    rcases hn : t.node i with _ | n
    · rw [ui_collect_succ_of_nonode t op f i d hn,
        ui_collect_succ_of_nonode t op' f i d hn]
    · by_cases hi : i ∈ op
      · rw [ui_collect_succ_of_mem t op f i d n hi hn,
          ui_collect_succ_of_mem t op' f i d n ((hagree i n hn).mp hi) hn,
          hw]
      · rw [ui_collect_succ_of_notmem t op f i d hi,
          ui_collect_succ_of_notmem t op' f i d
            (fun hc => hi ((hagree i n hn).mpr hc))]

theorem ui_walk_congr (t : UTree) (op op' : Finset Nat)
    (hagree : ∀ i n, t.node i = some n → (i ∈ op ↔ i ∈ op')) (f : Nat)
    (ids : List Nat) (d : Nat) :
    walkList t op f ids d = walkList t op' f ids d := by
  induction ids with
  | nil => rfl
  | cons j rest ihl =>
    rw [ui_walk_cons, ui_walk_cons, ui_collect_congr t op op' hagree f j d,
      ihl]

theorem ui_nodup_any (t : UTree)
    (hfull : (idsOf (rebuildVisible t (fullOpen t))).Nodup)
    (op : Finset Nat) : (idsOf (rebuildVisible t op)).Nodup := by
  have hsub : List.Sublist (idsOf (rebuildVisible t op))
      (idsOf (walkList t (op ∪ fullOpen t) (fullFuel t) t.roots 0)) :=
    ui_walk_sublist t op (op ∪ fullOpen t)
      (fun i hi => Finset.mem_union_left _ hi) _ _ _
  have hcong : walkList t (op ∪ fullOpen t) (fullFuel t) t.roots 0 =
      walkList t (fullOpen t) (fullFuel t) t.roots 0 := by
    refine ui_walk_congr t _ _ ?_ _ _ _
    intro i n hn
    have hi : i < t.nodes.length := (List.get?_eq_some.mp hn).1
    constructor
    · intro _
      exact Finset.mem_range.mpr hi
    · intro _
      exact Finset.mem_union_right _ (Finset.mem_range.mpr hi)
  rw [hcong] at hsub
  exact List.Nodup.sublist hsub hfull

theorem ui_collect_congr_notin (t : UTree) (op op' : Finset Nat) (sel : Nat)
    (hagree : ∀ x, x ≠ sel → (x ∈ op ↔ x ∈ op')) :
    ∀ f i d, sel ∉ idsOf (collectVisible t op f i d) →
      collectVisible t op' f i d = collectVisible t op f i d := by
  intro f
  induction f with
  | zero => intro i d _; rfl
  | succ f ih =>
    intro i d hsel
    have hine : i ≠ sel := by
      intro h
      apply hsel
      rw [ui_collect_succ, ui_idsOf_cons, h]
      exact List.mem_cons_self _ _
    have hw : ∀ (ids : List Nat) (d' : Nat),
        sel ∉ idsOf (walkList t op f ids d') →
        walkList t op' f ids d' = walkList t op f ids d' := by
      intro ids
      induction ids with
      | nil => intro d' _; rfl
      | cons j rest ihl =>
        intro d' hs
        rw [ui_walk_cons, ui_idsOf_append] at hs
        rw [ui_walk_cons, ui_walk_cons,
          ih j d' (fun hc => hs (List.mem_append_left _ hc)),
          ihl d' (fun hc => hs (List.mem_append_right _ hc))]
    rcases hn : t.node i with _ | n
    · rw [ui_collect_succ_of_nonode t op f i d hn,
        ui_collect_succ_of_nonode t op' f i d hn]
    · by_cases hi : i ∈ op
      · have hrest : sel ∉ idsOf (walkList t op f n.children (d + 1)) := by
          intro hc
          apply hsel
          rw [ui_collect_succ_of_mem t op f i d n hi hn, ui_idsOf_cons]
          exact List.mem_cons_of_mem _ hc
        rw [ui_collect_succ_of_mem t op f i d n hi hn,
          ui_collect_succ_of_mem t op' f i d n ((hagree i hine).mp hi) hn,
          hw n.children (d + 1) hrest]
      · rw [ui_collect_succ_of_notmem t op f i d hi,
          ui_collect_succ_of_notmem t op' f i d
            (fun hc => hi ((hagree i hine).mpr hc))]

theorem ui_walk_congr_notin (t : UTree) (op op' : Finset Nat) (sel : Nat)
    (hagree : ∀ x, x ≠ sel → (x ∈ op ↔ x ∈ op')) (f : Nat) (ids : List Nat)
    (d : Nat) (hsel : sel ∉ idsOf (walkList t op f ids d)) :
    walkList t op' f ids d = walkList t op f ids d := by
  induction ids with
  | nil => rfl
  | cons j rest ihl =>
    rw [ui_walk_cons, ui_idsOf_append] at hsel
    rw [ui_walk_cons, ui_walk_cons,
      ui_collect_congr_notin t op op' sel hagree f j d
        (fun hc => hsel (List.mem_append_left _ hc)),
      ihl (fun hc => hsel (List.mem_append_right _ hc))]

theorem ui_collect_depth_ge (t : UTree) (op : Finset Nat) :
    ∀ f i d x, x ∈ collectVisible t op f i d → d ≤ x.depth := by
  intro f
  induction f with
  | zero => intro i d x hx; cases hx
  | succ f ih =>
    intro i d x hx
    rw [ui_collect_succ] at hx
    rcases List.mem_cons.mp hx with hx | hx
    · rw [hx]
    · have hw : ∀ (ids : List Nat) (d' : Nat) (y : VisibleNode),
          y ∈ walkList t op f ids d' → d' ≤ y.depth := by
        intro ids
        induction ids with
        | nil => intro d' y hy; cases hy
        | cons j rest ihl =>
          intro d' y hy
          rw [ui_walk_cons] at hy
          rcases List.mem_append.mp hy with hy | hy
          · exact ih j d' y hy
          · exact ihl d' y hy
      split at hx
      · split at hx
        · next n heq => exact le_trans (Nat.le_succ d) (hw _ _ x hx)
        · cases hx
      · cases hx

theorem ui_walk_depth_ge (t : UTree) (op : Finset Nat) (f : Nat)
    (ids : List Nat) (d : Nat) (x : VisibleNode)
    (hx : x ∈ walkList t op f ids d) : d ≤ x.depth := by
  induction ids with
  | nil => cases hx
  | cons j rest ihl =>
    rw [ui_walk_cons] at hx
    rcases List.mem_append.mp hx with hx | hx
    · exact ui_collect_depth_ge t op f j d x hx
    · exact ihl hx

theorem ui_launch_mem (t : UTree) (op : Finset Nat) (f : Nat) (ids : List Nat)
    (d i : Nat) (hi : i ∈ ids) (hf : 1 ≤ f) :
    i ∈ idsOf (walkList t op f ids d) := by
  induction ids with
  | nil => cases hi
  | cons j rest ihl =>
    rw [ui_walk_cons, ui_idsOf_append]
    rcases List.mem_cons.mp hi with hi | hi
    · apply List.mem_append_left
      obtain ⟨f', rfl⟩ : ∃ f', f = f' + 1 := ⟨f - 1, by omega⟩
      rw [ui_collect_succ, ui_idsOf_cons, hi]
      exact List.mem_cons_self _ _
    · exact List.mem_append_right _ (ihl hi)

theorem ui_collect_fuel (t : UTree) (op : Finset Nat)
    (hinc : ∀ i n, t.node i = some n → ∀ c ∈ n.children, i < c) :
    ∀ f g i d, 1 ≤ f → 1 ≤ g → t.nodes.length < i + f →
      t.nodes.length < i + g →
      collectVisible t op f i d = collectVisible t op g i d := by
  intro f
  induction f with
  | zero => intro g i d hf; omega
  | succ f ih =>
    intro g i d _ hg hif hig
    obtain ⟨g', rfl⟩ : ∃ g', g = g' + 1 := ⟨g - 1, by omega⟩
    rcases hn : t.node i with _ | n
    · rw [ui_collect_succ_of_nonode t op f i d hn,
        ui_collect_succ_of_nonode t op g' i d hn]
    · have hilt : i < t.nodes.length := (List.get?_eq_some.mp hn).1
      have hw : ∀ (ids : List Nat) (d' : Nat), (∀ c ∈ ids, i < c) →
          walkList t op f ids d' = walkList t op g' ids d' := by
        intro ids
        induction ids with
        | nil => intro d' _; rfl
        | cons j rest ihl =>
          intro d' hlt
          rw [ui_walk_cons, ui_walk_cons,
            ih g' j d' (by have := hlt j (List.mem_cons_self _ _); omega)
              (by have := hlt j (List.mem_cons_self _ _); omega)
              (by have := hlt j (List.mem_cons_self _ _); omega)
              (by have := hlt j (List.mem_cons_self _ _); omega),
            ihl d' (fun c hc => hlt c (List.mem_cons_of_mem _ hc))]
      by_cases hi : i ∈ op
      · rw [ui_collect_succ_of_mem t op f i d n hi hn,
          ui_collect_succ_of_mem t op g' i d n hi hn,
          hw n.children (d + 1) (hinc i n hn)]
      · rw [ui_collect_succ_of_notmem t op f i d hi,
          ui_collect_succ_of_notmem t op g' i d hi]

theorem ui_collect_unfold (t : UTree) (op : Finset Nat)
    (hinc : ∀ i n, t.node i = some n → ∀ c ∈ n.children, i < c) (i d : Nat)
    (n : UNode) (hn : t.node i = some n) :
    collectVisible t op (fullFuel t) i d =
      ⟨i, d⟩ ::
        (if i ∈ op then walkList t op (fullFuel t) n.children (d + 1)
         else []) := by
  have hilt : i < t.nodes.length := (List.get?_eq_some.mp hn).1
  by_cases hi : i ∈ op
  · rw [show fullFuel t = t.nodes.length + 1 from rfl]
    rw [ui_collect_succ_of_mem t op t.nodes.length i d n hi hn, if_pos hi]
    congr 1
    have hw : ∀ (ids : List Nat) (d' : Nat), (∀ c ∈ ids, i < c) →
        walkList t op t.nodes.length ids d' =
          walkList t op (fullFuel t) ids d' := by
      intro ids
      induction ids with
      | nil => intro d' _; rfl
      | cons j rest ihl =>
        intro d' hlt
        rw [ui_walk_cons, ui_walk_cons,
          ui_collect_fuel t op hinc t.nodes.length (fullFuel t) j d'
            (by have := hlt j (List.mem_cons_self _ _); omega)
            (by rw [show fullFuel t = t.nodes.length + 1 from rfl]; omega)
            (by have := hlt j (List.mem_cons_self _ _); omega)
            (by rw [show fullFuel t = t.nodes.length + 1 from rfl]
                have := hlt j (List.mem_cons_self _ _)
                omega),
          ihl d' (fun c hc => hlt c (List.mem_cons_of_mem _ hc))]
    exact hw n.children (d + 1) (hinc i n hn)
  · rw [show fullFuel t = t.nodes.length + 1 from rfl,
      ui_collect_succ_of_notmem t op t.nodes.length i d hi, if_neg hi]

theorem ui_position_middle {α : Type} (p : α → Bool) (A : List α) (x : α)
    (B : List α) (hA : ∀ a ∈ A, p a = false) (hx : p x = true) :
    position p (A ++ x :: B) = some A.length := by
  induction A with
  | nil => simp [position, hx]
  | cons a A ih =>
    have ha : p a = false := hA a (List.mem_cons_self _ _)
    simp [position, ha, ih (fun b hb => hA b (List.mem_cons_of_mem _ hb))]

theorem ui_position_none {α : Type} (p : α → Bool) (l : List α)
    (h : ∀ a ∈ l, p a = false) : position p l = none := by
  induction l with
  | nil => rfl
  | cons a l ih =>
    have ha : p a = false := h a (List.mem_cons_self _ _)
    simp [position, ha, ih (fun b hb => h b (List.mem_cons_of_mem _ hb))]

theorem ui_take_middle {α : Type} (A : List α) (x : α) (B : List α) :
    (A ++ x :: B).take (A.length + 1) = A ++ [x] := by
  induction A with
  | nil => simp
  | cons a A ih => simp [List.take, ih]

theorem ui_drop_middle {α : Type} (A : List α) (x : α) (B : List α) :
    (A ++ x :: B).drop (A.length + 1) = B := by
  induction A with
  | nil => simp
  | cons a A ih => simpa using ih

theorem ui_get_middle {α : Type} (A : List α) (x : α) (B : List α) :
    (A ++ x :: B).get? A.length = some x := by
  induction A with
  | nil => rfl
  | cons a A ih => simpa using ih

theorem ui_drop_at_left {α : Type} (A B : List α) :
    (A ++ B).drop A.length = B := by
  induction A with
  | nil => simp
  | cons a A ih => simpa using ih

theorem ui_drop_middle2 {α : Type} (A : List α) (x : α) (S B : List α) :
    (A ++ x :: (S ++ B)).drop (A.length + 1 + S.length) = B := by
  have h1 : A ++ x :: (S ++ B) = (A ++ x :: S) ++ B := by simp
  have h2 : A.length + 1 + S.length = (A ++ x :: S).length := by
    simp
    omega
  rw [h1, h2, ui_drop_at_left]

theorem ui_walk_head (t : UTree) (op : Finset Nat) (f : Nat) (ids : List Nat)
    (d : Nat) (hf : 1 ≤ f) (b : VisibleNode)
    (hb : (walkList t op f ids d).head? = some b) : b.depth = d := by
  induction ids with
  | nil => cases hb
  | cons i rest ihl =>
    obtain ⟨f', rfl⟩ : ∃ f', f = f' + 1 := ⟨f - 1, by omega⟩
    rw [ui_walk_cons, ui_collect_succ] at hb
    simp only [List.cons_append, List.head?] at hb
    cases hb
    rfl

theorem ui_split_insert (t : UTree)
    (hinc : ∀ i n, t.node i = some n → ∀ c ∈ n.children, i < c)
    (op : Finset Nat) (sel : Nat) (hsel : sel ∉ op) :
    ∀ f ids d, 1 ≤ f → (∀ i ∈ ids, t.nodes.length < i + f) →
      sel ∈ idsOf (walkList t op f ids d) →
      (idsOf (walkList t (insert sel op) f ids d)).Nodup →
      ∃ A B dep, walkList t op f ids d = A ++ ⟨sel, dep⟩ :: B ∧
        sel ∉ idsOf A ∧ d ≤ dep ∧
        walkList t (insert sel op) f ids d =
          A ++ collectVisible t (insert sel op) (fullFuel t) sel dep ++ B := by
  have hagree : ∀ x : Nat, x ≠ sel → (x ∈ op ↔ x ∈ insert sel op) := by
    intro x hx
    rw [Finset.mem_insert]
    constructor
    · exact fun h => Or.inr h
    · rintro (h | h)
      · exact absurd h hx
      · exact h
  intro f
  induction f with
  | zero => intro ids d hf; omega
  | succ f ih =>
    intro ids
    induction ids with
    | nil =>
      intro d _ _ hmem _
      rw [ui_walk_nil] at hmem
      cases hmem
    | cons i rest ihl =>
      intro d hf1 hfh hmem hnodup
      rw [ui_walk_cons, ui_idsOf_append] at hmem
      rw [ui_walk_cons, ui_idsOf_append] at hnodup
      by_cases hisel : sel ∈ idsOf (collectVisible t op (f + 1) i d)
      · by_cases hieq : i = sel
        · subst hieq
          have hcol : collectVisible t op (f + 1) i d = [⟨i, d⟩] :=
            ui_collect_succ_of_notmem t op f i d hsel
          have hselfst : i ∈ idsOf (collectVisible t (insert i op) (f + 1)
              i d) := by
            rw [ui_collect_succ, ui_idsOf_cons]
            exact List.mem_cons_self _ _
          have hrestn : i ∉ idsOf (walkList t (insert i op) (f + 1) rest d) :=
            fun hc => (List.nodup_append.mp hnodup).2.2 hselfst hc
          have hrest : walkList t (insert i op) (f + 1) rest d =
              walkList t op (f + 1) rest d := by
            have := ui_walk_congr_notin t (insert i op) op i
              (fun x hx => (hagree x hx).symm) (f + 1) rest d hrestn
            exact this.symm
          refine ⟨[], walkList t op (f + 1) rest d, d, ?_, ?_, le_refl _, ?_⟩
          · rw [ui_walk_cons, hcol]
            rfl
          · intro hc
            cases hc
          · rw [ui_walk_cons, hrest, List.nil_append]
            congr 1
            exact ui_collect_fuel t (insert i op) hinc (f + 1) (fullFuel t) i d
              (by omega) (by rw [show fullFuel t = t.nodes.length + 1 from rfl]; omega)
              (hfh i (List.mem_cons_self _ _))
              (by rw [show fullFuel t = t.nodes.length + 1 from rfl]; omega)
        · have hiop : i ∈ op := by
            by_contra hiop
            rw [ui_collect_succ_of_notmem t op f i d hiop] at hisel
            rcases List.mem_cons.mp hisel with h | h
            · exact hieq h.symm
            · cases h
          rcases hn : t.node i with _ | n
          · rw [ui_collect_succ_of_nonode t op f i d hn] at hisel
            rcases List.mem_cons.mp hisel with h | h
            · exact absurd h.symm hieq
            · cases h
          · have hilt : i < t.nodes.length := (List.get?_eq_some.mp hn).1
            have hbody : sel ∈ idsOf (walkList t op f n.children (d + 1)) := by
              rw [ui_collect_succ_of_mem t op f i d n hiop hn,
                ui_idsOf_cons] at hisel
              rcases List.mem_cons.mp hisel with h | h
              · exact absurd h.symm hieq
              · exact h
            have hiop' : i ∈ insert sel op := Finset.mem_insert_of_mem hiop
            have hnodup1 : (idsOf (walkList t (insert sel op) f n.children
                (d + 1))).Nodup := by
              have h1 := (List.nodup_append.mp hnodup).1
              rw [ui_collect_succ_of_mem t (insert sel op) f i d n hiop' hn,
                ui_idsOf_cons] at h1
              exact List.Nodup.of_cons h1
            obtain ⟨A₁, B₁, dep, heq1, hselA1, hdep, heq2⟩ :=
              ih n.children (d + 1)
                (by have := hfh i (List.mem_cons_self _ _); omega)
                (fun c hc => by
                  have := hinc i n hn c hc
                  have := hfh i (List.mem_cons_self _ _)
                  omega)
                hbody hnodup1
            have hselprime : sel ∈ idsOf (walkList t (insert sel op) f
                n.children (d + 1)) := by
              rw [heq2, ui_idsOf_append, ui_idsOf_append]
              apply List.mem_append_left
              apply List.mem_append_right
              rw [show fullFuel t = t.nodes.length + 1 from rfl,
                ui_collect_succ, ui_idsOf_cons]
              exact List.mem_cons_self _ _
            have hrestn : sel ∉ idsOf (walkList t (insert sel op) (f + 1)
                rest d) := by
              intro hc
              refine (List.nodup_append.mp hnodup).2.2 ?_ hc
              rw [ui_collect_succ_of_mem t (insert sel op) f i d n hiop' hn,
                ui_idsOf_cons]
              exact List.mem_cons_of_mem _ hselprime
            have hrest : walkList t (insert sel op) (f + 1) rest d =
                walkList t op (f + 1) rest d :=
              (ui_walk_congr_notin t (insert sel op) op sel
                (fun x hx => (hagree x hx).symm) (f + 1) rest d hrestn).symm
            refine ⟨⟨i, d⟩ :: A₁, B₁ ++ walkList t op (f + 1) rest d, dep,
              ?_, ?_, by omega, ?_⟩
            · rw [ui_walk_cons, ui_collect_succ_of_mem t op f i d n hiop hn,
                heq1]
              simp
            · rw [ui_idsOf_cons]
              intro hc
              rcases List.mem_cons.mp hc with h | h
              · exact hieq h.symm
              · exact hselA1 h
            · rw [ui_walk_cons,
                ui_collect_succ_of_mem t (insert sel op) f i d n hiop' hn,
                heq2, hrest]
              simp
      · have hmem2 : sel ∈ idsOf (walkList t op (f + 1) rest d) := by
          rcases List.mem_append.mp hmem with h | h
          · exact absurd h hisel
          · exact h
        obtain ⟨A₂, B₂, dep, heq1, hselA2, hdep, heq2⟩ :=
          ihl d hf1 (fun j hj => hfh j (List.mem_cons_of_mem _ hj)) hmem2
            (List.nodup_append.mp hnodup).2.1
        have hcoleq : collectVisible t (insert sel op) (f + 1) i d =
            collectVisible t op (f + 1) i d :=
          ui_collect_congr_notin t op (insert sel op) sel hagree (f + 1) i d
            hisel
        refine ⟨collectVisible t op (f + 1) i d ++ A₂, B₂, dep, ?_, ?_, hdep,
          ?_⟩
        · rw [ui_walk_cons, heq1]
          simp
        · rw [ui_idsOf_append]
          intro hc
          rcases List.mem_append.mp hc with h | h
          · exact hisel h
          · exact hselA2 h
        · rw [ui_walk_cons, hcoleq, heq2]
          simp

theorem ui_split_erase (t : UTree) (op : Finset Nat) (sel : Nat)
    (hselop : sel ∈ op) :
    ∀ f ids d, 1 ≤ f →
      sel ∈ idsOf (walkList t op f ids d) →
      (idsOf (walkList t op f ids d)).Nodup →
      ∃ A S B dep, walkList t op f ids d = A ++ ⟨sel, dep⟩ :: (S ++ B) ∧
        sel ∉ idsOf A ∧ d ≤ dep ∧ (∀ v ∈ S, dep < v.depth) ∧
        (∀ b, B.head? = some b → b.depth ≤ dep) ∧
        walkList t (op.erase sel) f ids d = A ++ ⟨sel, dep⟩ :: B := by
  have hagree : ∀ x : Nat, x ≠ sel → (x ∈ op ↔ x ∈ op.erase sel) := by
    intro x hx
    rw [Finset.mem_erase]
    constructor
    · exact fun h => ⟨hx, h⟩
    · exact fun h => h.2
  have hselerase : sel ∉ op.erase sel := Finset.not_mem_erase _ _
  intro f
  induction f with
  | zero => intro ids d hf; omega
  | succ f ih =>
    intro ids
    induction ids with
    | nil =>
      intro d _ hmem _
      rw [ui_walk_nil] at hmem
      cases hmem
    | cons i rest ihl =>
      intro d hf1 hmem hnodup
      rw [ui_walk_cons, ui_idsOf_append] at hmem
      rw [ui_walk_cons, ui_idsOf_append] at hnodup
      by_cases hisel : sel ∈ idsOf (collectVisible t op (f + 1) i d)
      · by_cases hieq : i = sel
        · subst hieq
          have hbody : collectVisible t op (f + 1) i d =
              ⟨i, d⟩ :: (match t.node i with
                | some n => walkList t op f n.children (d + 1)
                | none => []) := by
            rcases hn : t.node i with _ | n
            · rw [ui_collect_succ_of_nonode t op f i d hn]
            · rw [ui_collect_succ_of_mem t op f i d n hselop hn]
          have hrestn : i ∉ idsOf (walkList t op (f + 1) rest d) := by
            intro hc
            refine (List.nodup_append.mp hnodup).2.2 ?_ hc
            rw [hbody, ui_idsOf_cons]
            exact List.mem_cons_self _ _
          have hrest : walkList t (op.erase i) (f + 1) rest d =
              walkList t op (f + 1) rest d :=
            ui_walk_congr_notin t op (op.erase i) i hagree (f + 1) rest d
              hrestn
          refine ⟨[], (match t.node i with
              | some n => walkList t op f n.children (d + 1)
              | none => []), walkList t op (f + 1) rest d, d,
            ?_, ?_, le_refl _, ?_, ?_, ?_⟩
          · rw [ui_walk_cons, hbody]
            simp
          · intro hc
            cases hc
          · intro v hv
            rcases hn : t.node i with _ | n
            · rw [hn] at hv
              cases hv
            · rw [hn] at hv
              have := ui_walk_depth_ge t op f n.children (d + 1) v hv
              omega
          · intro b hb
            have := ui_walk_head t op (f + 1) rest d (by omega) b hb
            omega
          · rw [ui_walk_cons, hrest,
              ui_collect_succ_of_notmem t (op.erase i) f i d hselerase]
            rfl
        · have hiop : i ∈ op := by
            by_contra hiop
            rw [ui_collect_succ_of_notmem t op f i d hiop] at hisel
            rcases List.mem_cons.mp hisel with h | h
            · exact hieq h.symm
            · cases h
          rcases hn : t.node i with _ | n
          · rw [ui_collect_succ_of_nonode t op f i d hn] at hisel
            rcases List.mem_cons.mp hisel with h | h
            · exact absurd h.symm hieq
            · cases h
          · have hbody : sel ∈ idsOf (walkList t op f n.children (d + 1)) := by
              rw [ui_collect_succ_of_mem t op f i d n hiop hn,
                ui_idsOf_cons] at hisel
              rcases List.mem_cons.mp hisel with h | h
              · exact absurd h.symm hieq
              · exact h
            have hf0 : 1 ≤ f := by
              cases f with
              | zero =>
                exfalso
                have hz : walkList t op 0 n.children (d + 1) = [] := by
                  simp [walkList, ui_collect_zero]
                rw [hz] at hbody
                cases hbody
              | succ f => omega
            have hnodup1 : (idsOf (walkList t op f n.children
                (d + 1))).Nodup := by
              have h1 := (List.nodup_append.mp hnodup).1
              rw [ui_collect_succ_of_mem t op f i d n hiop hn,
                ui_idsOf_cons] at h1
              exact List.Nodup.of_cons h1
            obtain ⟨A₁, S, B₁, dep, heq1, hselA1, hdep, hS, hBh, heq2⟩ :=
              ih n.children (d + 1) hf0 hbody hnodup1
            have hrestn : sel ∉ idsOf (walkList t op (f + 1) rest d) := by
              intro hc
              refine (List.nodup_append.mp hnodup).2.2 hisel hc
            have hrest : walkList t (op.erase sel) (f + 1) rest d =
                walkList t op (f + 1) rest d :=
              ui_walk_congr_notin t op (op.erase sel) sel hagree (f + 1)
                rest d hrestn
            have hiop' : i ∈ op.erase sel :=
              Finset.mem_erase.mpr ⟨fun h => hieq h, hiop⟩
            refine ⟨⟨i, d⟩ :: A₁, S, B₁ ++ walkList t op (f + 1) rest d, dep,
              ?_, ?_, by omega, hS, ?_, ?_⟩
            · rw [ui_walk_cons, ui_collect_succ_of_mem t op f i d n hiop hn,
                heq1]
              simp
            · rw [ui_idsOf_cons]
              intro hc
              rcases List.mem_cons.mp hc with h | h
              · exact hieq h.symm
              · exact hselA1 h
            · intro b hb
              cases hB1 : B₁ with
              | nil =>
                rw [hB1] at hb
                rw [List.nil_append] at hb
                have := ui_walk_head t op (f + 1) rest d (by omega) b hb
                omega
              | cons b0 B₁' =>
                rw [hB1] at hb
                rw [List.cons_append, List.head?] at hb
                cases hb
                exact hBh b (by rw [hB1]; rfl)
            · rw [ui_walk_cons,
                ui_collect_succ_of_mem t (op.erase sel) f i d n hiop' hn,
                heq2, hrest]
              simp
      · have hmem2 : sel ∈ idsOf (walkList t op (f + 1) rest d) := by
          rcases List.mem_append.mp hmem with h | h
          · exact absurd h hisel
          · exact h
        obtain ⟨A₂, S, B₂, dep, heq1, hselA2, hdep, hS, hBh, heq2⟩ :=
          ihl d hf1 hmem2 (List.nodup_append.mp hnodup).2.1
        have hcoleq : collectVisible t (op.erase sel) (f + 1) i d =
            collectVisible t op (f + 1) i d :=
          ui_collect_congr_notin t op (op.erase sel) sel hagree (f + 1) i d
            hisel
        refine ⟨collectVisible t op (f + 1) i d ++ A₂, S, B₂, dep, ?_, ?_,
          hdep, hS, hBh, ?_⟩
        · rw [ui_walk_cons, heq1]
          simp
        · rw [ui_idsOf_append]
          intro hc
          rcases List.mem_append.mp hc with h | h
          · exact hisel h
          · exact hselA2 h
        · rw [ui_walk_cons, hcoleq, heq2]
          simp

theorem ui_wfIncB_sound (t : UTree) (h : wfIncB t = true) :
    ∀ i n, t.node i = some n → ∀ c ∈ n.children, i < c := by
  intro i n hn c hc
  have hi : i < t.nodes.length := (List.get?_eq_some.mp hn).1
  have h2 := List.all_eq_true.mp h i (List.mem_range.mpr hi)
  simp only [hn] at h2
  exact of_decide_eq_true (List.all_eq_true.mp h2 c hc)

theorem ui_wfSymB_sound (t : UTree) (h : wfSymB t = true) :
    ∀ i n p, t.node i = some n → n.parent = some p →
      ∃ pn, t.node p = some pn ∧ i ∈ pn.children := by
  intro i n p hn hp
  have hi : i < t.nodes.length := (List.get?_eq_some.mp hn).1
  have h2 := List.all_eq_true.mp h i (List.mem_range.mpr hi)
  simp only [hn, hp] at h2
  rcases hq : t.node p with _ | pn
  · rw [hq] at h2
    cases h2
  · rw [hq] at h2
    refine ⟨pn, rfl, ?_⟩
    simpa using h2

theorem ui_WF_of_checks (t : UTree) (h1 : wfIncB t = true)
    (h2 : wfSymB t = true)
    (h3 : (t.roots ++ t.nodes.flatMap fun n => n.children).Nodup)
    (h4 : (idsOf (rebuildVisible t (fullOpen t))).Nodup) : WF t :=
  ⟨ui_wfIncB_sound t h1, h3, ui_wfSymB_sound t h2, h4⟩

end UIThms

section WIThms

open UI WI

theorem wi_visibleUpd_props (t : UTree) (s : TreeWidgetState)
    (hinv : CacheInvI t s) :
    (visibleUpd t s).opn = s.opn ∧
    (visibleUpd t s).selected = s.selected ∧
    (visibleUpd t s).dirty = false ∧
    (visibleUpd t s).visible_cache = rebuildVisible t s.opn := by
  unfold visibleUpd
  rcases hd : s.dirty with _ | _
  · rcases hinv with h | h
    · rw [hd] at h
      cases h
    · simp [hd, h]
  · simp [hd]

theorem wi_ensure_props (t : UTree) (s : TreeWidgetState)
    (hinv : CacheInvI t s) :
    (ensure_selection t s).1.opn = s.opn ∧
    (ensure_selection t s).1.dirty = false ∧
    (ensure_selection t s).1.visible_cache = rebuildVisible t s.opn ∧
    ((ensure_selection t s).2 = true →
      ∃ sel, (ensure_selection t s).1.selected = some sel ∧
        sel ∈ idsOf (rebuildVisible t s.opn)) := by
  obtain ⟨ho, hsel, hd, hc⟩ := wi_visibleUpd_props t s hinv
  rcases hvc : (visibleUpd t s).visible_cache with _ | ⟨v, rest⟩
  · simp only [ensure_selection, hvc]
    exact ⟨ho, hd, by rw [← hc, hvc], fun h => by cases h⟩
  · have hvmem : v.id ∈ idsOf (rebuildVisible t s.opn) := by
      rw [← hc, hvc, ui_idsOf_cons]
      exact List.mem_cons_self _ _
    rcases hsl : (visibleUpd t s).selected with _ | sel
    · simp only [ensure_selection, hvc, hsl]
      exact ⟨ho, hd, by rw [← hc, hvc], fun _ => ⟨v.id, rfl, hvmem⟩⟩
    · rcases hany : (v :: rest).any (fun n => n.id == sel) with _ | _
      · have hif : ensure_selection t s =
            ({ visibleUpd t s with selected := some v.id }, true) := by
          simp [ensure_selection, hvc, hsl, hany]
        rw [hif]
        exact ⟨ho, hd, hc, fun _ => ⟨v.id, rfl, hvmem⟩⟩
      · have hif : ensure_selection t s = (visibleUpd t s, true) := by
          simp [ensure_selection, hvc, hsl, hany]
        rw [hif]
        refine ⟨ho, hd, hc, fun _ => ⟨sel, hsl, ?_⟩⟩
        obtain ⟨x, hx, hxe⟩ := List.any_eq_true.mp hany
        have : x.id = sel := by simpa using hxe
        rw [← hc, hvc, ← this]
        exact List.mem_map_of_mem VisibleNode.id hx

theorem wi_expand_correct (t : UTree) (hwf : WF t) (s : TreeWidgetState)
    (hinv : CacheInvI t s) :
    (expand t s).dirty = false ∧
    (expand t s).visible_cache = rebuildVisible t (expand t s).opn := by
  have hp := wi_ensure_props t s hinv
  unfold expand
  split
  next s₁ heq =>
    rw [heq] at hp
    have ho : s₁.opn = s.opn := hp.1
    have hd : s₁.dirty = false := hp.2.1
    have hc : s₁.visible_cache = rebuildVisible t s.opn := hp.2.2.1
    exact ⟨hd, by rw [ho]; exact hc⟩
  next s₁ heq =>
    rw [heq] at hp
    have ho : s₁.opn = s.opn := hp.1
    have hd : s₁.dirty = false := hp.2.1
    have hc : s₁.visible_cache = rebuildVisible t s.opn := hp.2.2.1
    have hokp : ∃ sel, s₁.selected = some sel ∧
        sel ∈ idsOf (rebuildVisible t s.opn) := hp.2.2.2 rfl
    split
    next => exact ⟨hd, by rw [ho]; exact hc⟩
    next sel hsl =>
      have hmem : sel ∈ idsOf (rebuildVisible t s.opn) := by
        obtain ⟨sel', hsl', hmem'⟩ := hokp
        rw [hsl] at hsl'
        cases hsl'
        exact hmem'
      split
      next => exact ⟨hd, by rw [ho]; exact hc⟩
      next n hn =>
        split
        next => exact ⟨hd, by rw [ho]; exact hc⟩
        next c0 cs hch =>
          split
          next hopen =>
            exact ⟨hd, by
              rw [show ({ s₁ with selected := some c0 }
                : TreeWidgetState).opn = s₁.opn from rfl, ho]
              exact hc⟩
          next hopen =>
            refine ⟨rfl, ?_⟩
            show (insert_descendants t { s₁ with opn := insert sel s₁.opn }
                sel).visible_cache =
              rebuildVisible t (insert_descendants t
                { s₁ with opn := insert sel s₁.opn } sel).opn
            have hselop : sel ∉ s.opn := by
              rw [← ho]
              exact hopen
            obtain ⟨A, B, dep, heq1, hselA, hdep, heq2⟩ :=
              ui_split_insert t hwf.inc s.opn sel hselop (fullFuel t)
                t.roots 0
                (by rw [show fullFuel t = t.nodes.length + 1 from rfl]; omega)
                (fun i _ => by
                  rw [show fullFuel t = t.nodes.length + 1 from rfl]; omega)
                hmem (ui_nodup_any t hwf.nodupFull (insert sel s.opn))
            have hre1 : rebuildVisible t s.opn = A ++ ⟨sel, dep⟩ :: B := heq1
            have hre2 : rebuildVisible t (insert sel s.opn) =
                A ++ collectVisible t (insert sel s.opn) (fullFuel t) sel dep
                  ++ B := heq2
            set s₂ : TreeWidgetState := { s₁ with opn := insert sel s₁.opn }
              with hs₂
            have hc2 : s₂.visible_cache = A ++ ⟨sel, dep⟩ :: B := by
              rw [hs₂]
              show s₁.visible_cache = _
              rw [hc, hre1]
            have ho2 : s₂.opn = insert sel s.opn := by
              rw [hs₂]
              show insert sel s₁.opn = _
              rw [ho]
            have hpos : position (fun v => v.id == sel) s₂.visible_cache =
                some A.length := by
              rw [hc2]
              refine ui_position_middle _ A _ B ?_ (by simp)
              intro a ha
              have : a.id ≠ sel := fun hx =>
                hselA (hx ▸ List.mem_map_of_mem VisibleNode.id ha)
              simpa using this
            have hget : s₂.visible_cache.get? A.length = some ⟨sel, dep⟩ := by
              rw [hc2]
              exact ui_get_middle A _ B
            have hsub : collectVisible t s₂.opn (fullFuel t) sel dep =
                ⟨sel, dep⟩ ::
                  walkList t s₂.opn (fullFuel t) (c0 :: cs) (dep + 1) := by
              rw [ui_collect_unfold t s₂.opn hwf.inc sel dep n hn,
                if_pos (by rw [ho2]; exact Finset.mem_insert_self _ _), hch]
            have hlen : ¬ (collectVisible t s₂.opn (fullFuel t) sel
                dep).length ≤ 1 := by
              rw [hsub, ui_walk_cons,
                show fullFuel t = t.nodes.length + 1 from rfl,
                ui_collect_succ]
              simp
            have hins : insert_descendants t s₂ sel =
                { s₂ with visible_cache :=
                    s₂.visible_cache.take (A.length + 1) ++
                      (collectVisible t s₂.opn (fullFuel t) sel dep).drop 1 ++
                      s₂.visible_cache.drop (A.length + 1) } := by
              simp only [insert_descendants, hpos, hget, if_neg hlen]
            rw [hins]
            show s₂.visible_cache.take (A.length + 1) ++
                (collectVisible t s₂.opn (fullFuel t) sel dep).drop 1 ++
                s₂.visible_cache.drop (A.length + 1) =
              rebuildVisible t s₂.opn
            rw [ho2] at hsub
            rw [hc2, ui_take_middle, ui_drop_middle, ho2, hre2, hsub]
            simp

theorem wi_collapse_correct (t : UTree) (hwf : WF t) (s : TreeWidgetState)
    (hinv : CacheInvI t s) :
    (collapse t s).dirty = false ∧
    (collapse t s).visible_cache = rebuildVisible t (collapse t s).opn := by
  have hp := wi_ensure_props t s hinv
  unfold collapse
  split
  next s₁ heq =>
    rw [heq] at hp
    have ho : s₁.opn = s.opn := hp.1
    have hd : s₁.dirty = false := hp.2.1
    have hc : s₁.visible_cache = rebuildVisible t s.opn := hp.2.2.1
    exact ⟨hd, by rw [ho]; exact hc⟩
  next s₁ heq =>
    rw [heq] at hp
    have ho : s₁.opn = s.opn := hp.1
    have hd : s₁.dirty = false := hp.2.1
    have hc : s₁.visible_cache = rebuildVisible t s.opn := hp.2.2.1
    have hokp : ∃ sel, s₁.selected = some sel ∧
        sel ∈ idsOf (rebuildVisible t s.opn) := hp.2.2.2 rfl
    split
    next => exact ⟨hd, by rw [ho]; exact hc⟩
    next sel hsl =>
      have hmem : sel ∈ idsOf (rebuildVisible t s.opn) := by
        obtain ⟨sel', hsl', hmem'⟩ := hokp
        rw [hsl] at hsl'
        cases hsl'
        exact hmem'
      split
      next => exact ⟨hd, by rw [ho]; exact hc⟩
      next n hn =>
        split
        next hcond =>
          obtain ⟨hchne, hopen⟩ := hcond
          refine ⟨rfl, ?_⟩
          show (prune_descendants { s₁ with opn := s₁.opn.erase sel }
              sel).visible_cache =
            rebuildVisible t (prune_descendants
              { s₁ with opn := s₁.opn.erase sel } sel).opn
          have hselop : sel ∈ s.opn := by
            rw [← ho]
            exact hopen
          obtain ⟨A, S, B, dep, heq1, hselA, hdep, hS, hBh, heq2⟩ :=
            ui_split_erase t s.opn sel hselop (fullFuel t) t.roots 0
              (by rw [show fullFuel t = t.nodes.length + 1 from rfl]; omega)
              hmem (ui_nodup_any t hwf.nodupFull s.opn)
          have hre1 : rebuildVisible t s.opn =
              A ++ ⟨sel, dep⟩ :: (S ++ B) := heq1
          have hre2 : rebuildVisible t (s.opn.erase sel) =
              A ++ ⟨sel, dep⟩ :: B := heq2
          set s₂ : TreeWidgetState := { s₁ with opn := s₁.opn.erase sel }
            with hs₂
          have hc2 : s₂.visible_cache = A ++ ⟨sel, dep⟩ :: (S ++ B) := by
            rw [hs₂]
            show s₁.visible_cache = _
            rw [hc, hre1]
          have ho2 : s₂.opn = s.opn.erase sel := by
            rw [hs₂]
            show s₁.opn.erase sel = _
            rw [ho]
          have hpos : position (fun v => v.id == sel) s₂.visible_cache =
              some A.length := by
            rw [hc2]
            refine ui_position_middle _ A _ _ ?_ (by simp)
            intro a ha
            have : a.id ≠ sel := fun hx =>
              hselA (hx ▸ List.mem_map_of_mem VisibleNode.id ha)
            simpa using this
          have hget : s₂.visible_cache.get? A.length = some ⟨sel, dep⟩ := by
            rw [hc2]
            exact ui_get_middle A _ _
          by_cases hsmall : s₂.visible_cache.length ≤ A.length + 1
          · have hlen0 : (S ++ B).length = 0 := by
              rw [hc2] at hsmall
              have hl : (A ++ ⟨sel, dep⟩ :: (S ++ B)).length =
                  A.length + ((S ++ B).length + 1) := by
                simp
              rw [hl] at hsmall
              omega
            obtain ⟨hS0, hB0⟩ :=
              List.append_eq_nil.mp (List.eq_nil_of_length_eq_zero hlen0)
            have hprune : prune_descendants s₂ sel = s₂ := by
              simp only [prune_descendants, hpos, hget, if_pos hsmall]
            rw [hprune, ho2, hre2, hc2, hS0, hB0]
            simp
          · have hdrop : s₂.visible_cache.drop (A.length + 1) = S ++ B := by
              rw [hc2]
              exact ui_drop_middle _ _ _
            cases B with
            | nil =>
              have hpos2 : position (fun v => decide (v.depth ≤ dep))
                  (S ++ ([] : List VisibleNode)) = none := by
                rw [List.append_nil]
                exact ui_position_none _ _
                  (fun v hv => decide_eq_false (by
                    have := hS v hv
                    omega))
              have hprune : prune_descendants s₂ sel =
                  { s₂ with visible_cache :=
                      s₂.visible_cache.take (A.length + 1) ++
                        s₂.visible_cache.drop s₂.visible_cache.length } := by
                simp only [prune_descendants, hpos, hget, if_neg hsmall,
                  hdrop, hpos2]
              rw [hprune]
              show s₂.visible_cache.take (A.length + 1) ++
                  s₂.visible_cache.drop s₂.visible_cache.length =
                rebuildVisible t s₂.opn
              rw [List.drop_length, ho2, hre2, hc2, ui_take_middle]
              simp
            | cons b B' =>
              have hpos2 : position (fun v => decide (v.depth ≤ dep))
                  (S ++ b :: B') = some S.length :=
                ui_position_middle _ S b B'
                  (fun v hv => decide_eq_false (by
                    have := hS v hv
                    omega))
                  (decide_eq_true (hBh b rfl))
              have hprune : prune_descendants s₂ sel =
                  { s₂ with visible_cache :=
                      s₂.visible_cache.take (A.length + 1) ++
                        s₂.visible_cache.drop (A.length + 1 + S.length) } := by
                simp only [prune_descendants, hpos, hget, if_neg hsmall,
                  hdrop, hpos2]
              rw [hprune]
              show s₂.visible_cache.take (A.length + 1) ++
                  s₂.visible_cache.drop (A.length + 1 + S.length) =
                rebuildVisible t s₂.opn
              rw [ho2, hre2, hc2, ui_take_middle, ui_drop_middle2]
              simp
        next hcond =>
          split
          next p hpar =>
            exact ⟨hd, by
              rw [show ({ s₁ with selected := some p }
                : TreeWidgetState).opn = s₁.opn from rfl, ho]
              exact hc⟩
          next => exact ⟨hd, by rw [ho]; exact hc⟩

theorem wi_applyCOp_correct (t : UTree) (hwf : WF t) (o : COp)
    (s : TreeWidgetState) (hinv : CacheInvI t s) :
    (applyCOp t o s).dirty = false ∧
    (applyCOp t o s).visible_cache =
      rebuildVisible t (applyCOp t o s).opn := by
  cases o with
  | expandOp => exact wi_expand_correct t hwf s hinv
  | collapseOp => exact wi_collapse_correct t hwf s hinv

theorem wi_COps_inv (t : UTree) (hwf : WF t) (ops : List COp)
    (s : TreeWidgetState) (hinv : CacheInvI t s) :
    CacheInvI t (applyCOps t ops s) := by
  induction ops generalizing s with
  | nil => exact hinv
  | cons o rest ih =>
    exact ih (applyCOp t o s)
      (Or.inr (wi_applyCOp_correct t hwf o s hinv).2)

/-- C2: on every well-formed tree, starting from any state whose cache is
dirty or already agrees with a full rebuild, every non-empty sequence of
expand/collapse operations leaves the incrementally maintained visible
cache equal to the list produced by a full rebuild from the final open set
(`insert_descendants` on expand, `prune_descendants` on collapse match
`rebuild_visible`/`collect_visible`). -/
theorem wi_incremental_matches_rebuild (t : UTree) (hwf : WF t)
    (s : TreeWidgetState) (hinv : CacheInvI t s) (ops : List COp)
    (hne : ops ≠ []) :
    (applyCOps t ops s).visible_cache =
      rebuildVisible t (applyCOps t ops s).opn := by
  rcases List.eq_nil_or_concat ops with rfl | ⟨ops', o, rfl⟩
  · exact absurd rfl hne
  · have hmid : CacheInvI t (applyCOps t ops' s) :=
      wi_COps_inv t hwf ops' s hinv
    have h := wi_applyCOp_correct t hwf o (applyCOps t ops' s) hmid
    have hfold : applyCOps t (ops' ++ [o]) s =
        applyCOp t o (applyCOps t ops' s) := by
      simp [applyCOps, List.foldl_append]
    rw [List.concat_eq_append, hfold]
    exact h.2

theorem wi_incremental_matches_rebuild_witness :
    (applyCOps sampleTree [COp.expandOp]
        TreeWidgetState.default).visible_cache =
      rebuildVisible sampleTree
        (applyCOps sampleTree [COp.expandOp]
          TreeWidgetState.default).opn :=
  wi_incremental_matches_rebuild sampleTree
    (ui_WF_of_checks sampleTree (by decide) (by decide) (by decide)
      (by decide))
    TreeWidgetState.default (Or.inl rfl) [COp.expandOp]
    (List.cons_ne_nil _ _)

end WIThms

section WSThms

open UI WS

theorem ws_visibleUpd_opn (t : UTree) (s : TreeWidgetState) :
    (visibleUpd t s).opn = s.opn ∧ (visibleUpd t s).selected = s.selected := by
  unfold visibleUpd
  split
  · exact ⟨rfl, rfl⟩
  · exact ⟨rfl, rfl⟩

theorem ws_ensure_opn (t : UTree) (s : TreeWidgetState) :
    (ensure_selection t s).1.opn = s.opn := by
  have hvu := (ws_visibleUpd_opn t s).1
  rcases hvc : (visibleUpd t s).visible_cache with _ | ⟨v, rest⟩
  · simp only [ensure_selection, hvc]
    exact hvu
  · rcases hsl : (visibleUpd t s).selected with _ | sel
    · simp only [ensure_selection, hvc, hsl]
      exact hvu
    · rcases hany : ((v :: rest).any fun n => n.id == sel) with _ | _
      · have hif : ensure_selection t s =
            ({ visibleUpd t s with selected := some v.id }, true) := by
          simp [ensure_selection, hvc, hsl, hany]
        rw [hif]
        exact hvu
      · have hif : ensure_selection t s = (visibleUpd t s, true) := by
          simp [ensure_selection, hvc, hsl, hany]
        rw [hif]
        exact hvu

theorem ws_select_next_opn (t : UTree) (s : TreeWidgetState) :
    (select_next t s).opn = s.opn := by
  unfold select_next
  split
  next s₁ heq =>
    have h := ws_ensure_opn t s
    rw [heq] at h
    exact h
  next s₁ heq =>
    have h : s₁.opn = s.opn := by
      have h := ws_ensure_opn t s
      rw [heq] at h
      exact h
    split
    next => exact h
    next sel hsl =>
      split
      next => exact h
      next ci hci =>
        split
        next nx hnx => exact h
        next => exact h

theorem ws_select_previous_opn (t : UTree) (s : TreeWidgetState) :
    (select_previous t s).opn = s.opn := by
  unfold select_previous
  split
  next s₁ heq =>
    have h := ws_ensure_opn t s
    rw [heq] at h
    exact h
  next s₁ heq =>
    have h : s₁.opn = s.opn := by
      have h := ws_ensure_opn t s
      rw [heq] at h
      exact h
    split
    next => exact h
    next sel hsl =>
      split
      next => exact h
      next ci hci =>
        split
        next hci0 =>
          split
          next pv hpv => exact h
          next => exact h
        next => exact h

theorem ws_expand_opn (t : UTree) (s : TreeWidgetState) :
    (expand t s).opn = s.opn ∨
    ∃ sel n, t.node sel = some n ∧ n.children ≠ [] ∧
      (expand t s).opn = insert sel s.opn := by
  unfold expand
  split
  next s₁ heq =>
    left
    have h := ws_ensure_opn t s
    rw [heq] at h
    exact h
  next s₁ heq =>
    have h : s₁.opn = s.opn := by
      have h := ws_ensure_opn t s
      rw [heq] at h
      exact h
    split
    next => exact Or.inl h
    next sel hsl =>
      split
      next => exact Or.inl h
      next n hn =>
        split
        next => exact Or.inl h
        next c0 cs hch =>
          split
          next => exact Or.inl h
          next hopen =>
            right
            refine ⟨sel, n, hn, by rw [hch]; exact List.cons_ne_nil _ _, ?_⟩
            show insert sel s₁.opn = insert sel s.opn
            rw [h]

theorem ws_collapse_opn (t : UTree) (s : TreeWidgetState) :
    (collapse t s).opn = s.opn ∨
    ∃ sel, (collapse t s).opn = s.opn.erase sel := by
  unfold collapse
  split
  next s₁ heq =>
    left
    have h := ws_ensure_opn t s
    rw [heq] at h
    exact h
  next s₁ heq =>
    have h : s₁.opn = s.opn := by
      have h := ws_ensure_opn t s
      rw [heq] at h
      exact h
    split
    next => exact Or.inl h
    next sel hsl =>
      split
      next => exact Or.inl h
      next n hn =>
        split
        next hcond =>
          right
          refine ⟨sel, ?_⟩
          show s₁.opn.erase sel = s.opn.erase sel
          rw [h]
        next hcond =>
          split
          next p hp => exact Or.inl h
          next => exact Or.inl h

theorem ws_select_parent_opn (t : UTree) (s : TreeWidgetState) :
    (select_parent t s).opn = s.opn := by
  unfold select_parent
  split
  next => rfl
  next sel hsl =>
    split
    next => rfl
    next n hn =>
      split
      next p hp => rfl
      next => rfl

theorem ws_next_sib_opn (t : UTree) (s : TreeWidgetState) :
    (select_next_sibling t s).opn = s.opn := by
  unfold select_next_sibling
  repeat' split
  all_goals rfl

theorem ws_prev_sib_opn (t : UTree) (s : TreeWidgetState) :
    (select_previous_sibling t s).opn = s.opn := by
  unfold select_previous_sibling
  repeat' split
  all_goals rfl

theorem ws_move_by_opn (t : UTree) (s : TreeWidgetState) (delta : Int) :
    (move_by t s delta).opn = s.opn := by
  unfold move_by
  split
  next s₁ heq =>
    have h := ws_ensure_opn t s
    rw [heq] at h
    exact h
  next s₁ heq =>
    have h : s₁.opn = s.opn := by
      have h := ws_ensure_opn t s
      rw [heq] at h
      exact h
    dsimp only
    repeat' split
    all_goals exact h

theorem ws_search_opn (t : UTree) (q : List Char) (s : TreeWidgetState) :
    (search t q s).opn = s.opn := by
  unfold search
  dsimp only
  split
  next => rfl
  next =>
    split
    next => rfl
    next =>
      split
      next s₁ heq =>
        have h := ws_ensure_opn t
          { s with search_query := some (lowerChars (trimChars q)),
                   search_matches := matchesOf t (lowerChars (trimChars q)) }
        rw [heq] at h
        exact h
      next s₁ heq =>
        have h : s₁.opn = s.opn := by
          have h := ws_ensure_opn t
            { s with search_query := some (lowerChars (trimChars q)),
                     search_matches := matchesOf t (lowerChars (trimChars q)) }
          rw [heq] at h
          exact h
        repeat' split
        all_goals exact h

theorem ws_foldl_inv {α β : Type} (P : β → Prop) (f : β → α → β)
    (hf : ∀ b a, P b → P (f b a)) :
    ∀ (l : List α) (b : β), P b → P (l.foldl f b) := by
  intro l
  induction l with
  | nil => intro b hb; exact hb
  | cons a l ih =>
    intro b hb
    exact ih (f b a) (hf b a hb)

theorem ws_open_node_inv (t : UTree) :
    ∀ gas id opn,
      (∀ x ∈ opn, ∃ n, t.node x = some n ∧ n.children ≠ []) →
      ∀ x ∈ open_node t gas id opn,
        ∃ n, t.node x = some n ∧ n.children ≠ [] := by
  intro gas
  induction gas with
  | zero => intro id opn h x hx; exact h x hx
  | succ gas ih =>
    intro id opn h x hx
    rcases hn : t.node id with _ | n
    · simp only [open_node, hn] at hx
      exact h x hx
    · rcases hch : n.children with _ | ⟨c, cs⟩
      · simp only [open_node, hn, hch] at hx
        exact h x hx
      · simp only [open_node, hn, hch] at hx
        refine ws_foldl_inv
          (fun o => ∀ x ∈ o, ∃ n, t.node x = some n ∧ n.children ≠ [])
          _ (fun o c ho => ih c o ho) (c :: cs) (insert id opn) ?_ x hx
        intro y hy
        rcases Finset.mem_insert.mp hy with rfl | hy
        · exact ⟨n, hn, by rw [hch]; exact List.cons_ne_nil _ _⟩
        · exact h y hy

theorem ws_open_to_depth_opn (t : UTree) (s : TreeWidgetState) (d : Nat) :
    (open_to_depth t s d).opn = s.opn ∨
    (open_to_depth t s d).opn =
      t.roots.foldl (fun o r => open_node t (d - 1) r o) ∅ := by
  unfold open_to_depth
  dsimp only
  split
  next => exact Or.inl rfl
  next =>
    right
    have h := ws_ensure_opn t
      { s with opn := t.roots.foldl (fun o r => open_node t (d - 1) r o) ∅,
               dirty := true }
    exact h

theorem ws_expand_all_opn (t : UTree) (s : TreeWidgetState) :
    (expand_all t s).opn =
      (List.range t.nodes.length).foldl
        (fun o i =>
          match t.node i with
          | some n => if n.children = [] then o else insert i o
          | none => o)
        ∅ := by
  unfold expand_all
  dsimp only
  exact ws_ensure_opn t _

theorem ws_applyOp_openInv (t : UTree) (o : Op) (s : TreeWidgetState)
    (h : ∀ x ∈ s.opn, ∃ n, t.node x = some n ∧ n.children ≠ []) :
    ∀ x ∈ (applyOp t o s).opn, ∃ n, t.node x = some n ∧ n.children ≠ [] := by
  cases o with
  | next =>
    intro x hx
    rw [show applyOp t Op.next s = select_next t s from rfl,
      ws_select_next_opn] at hx
    exact h x hx
  | prev =>
    intro x hx
    rw [show applyOp t Op.prev s = select_previous t s from rfl,
      ws_select_previous_opn] at hx
    exact h x hx
  | expandOp =>
    intro x hx
    rcases ws_expand_opn t s with he | ⟨sel, n, hn, hch, he⟩
    · rw [show applyOp t Op.expandOp s = expand t s from rfl, he] at hx
      exact h x hx
    · rw [show applyOp t Op.expandOp s = expand t s from rfl, he] at hx
      rcases Finset.mem_insert.mp hx with rfl | hx
      · exact ⟨n, hn, hch⟩
      · exact h x hx
  | collapseOp =>
    intro x hx
    rcases ws_collapse_opn t s with he | ⟨sel, he⟩
    · rw [show applyOp t Op.collapseOp s = collapse t s from rfl, he] at hx
      exact h x hx
    · rw [show applyOp t Op.collapseOp s = collapse t s from rfl, he] at hx
      exact h x (Finset.mem_of_mem_erase hx)
  | parentOp =>
    intro x hx
    rw [show applyOp t Op.parentOp s = select_parent t s from rfl,
      ws_select_parent_opn] at hx
    exact h x hx
  | nextSib =>
    intro x hx
    rw [show applyOp t Op.nextSib s = select_next_sibling t s from rfl,
      ws_next_sib_opn] at hx
    exact h x hx
  | prevSib =>
    intro x hx
    rw [show applyOp t Op.prevSib s = select_previous_sibling t s from rfl,
      ws_prev_sib_opn] at hx
    exact h x hx
  | pageUp =>
    intro x hx
    rw [show applyOp t Op.pageUp s = move_by t s
        (-(((s.viewportHeight - 1).max 1 : Nat) : Int)) from rfl,
      ws_move_by_opn] at hx
    exact h x hx
  | pageDown =>
    intro x hx
    rw [show applyOp t Op.pageDown s = move_by t s
        ((((s.viewportHeight - 1).max 1 : Nat) : Int)) from rfl,
      ws_move_by_opn] at hx
    exact h x hx
  | openToDepth d =>
    intro x hx
    rcases ws_open_to_depth_opn t s d with he | he
    · rw [show applyOp t (Op.openToDepth d) s = open_to_depth t s d from rfl,
        he] at hx
      exact h x hx
    · rw [show applyOp t (Op.openToDepth d) s = open_to_depth t s d from rfl,
        he] at hx
      refine ws_foldl_inv
        (fun o => ∀ x ∈ o, ∃ n, t.node x = some n ∧ n.children ≠ [])
        _ (fun o r ho => ws_open_node_inv t (d - 1) r o ho) t.roots ∅ ?_ x hx
      intro y hy
      exact absurd hy (Finset.not_mem_empty y)
  | expandAll =>
    intro x hx
    rw [show applyOp t Op.expandAll s = expand_all t s from rfl,
      ws_expand_all_opn] at hx
    refine ws_foldl_inv
      (fun o => ∀ x ∈ o, ∃ n, t.node x = some n ∧ n.children ≠ [])
      _ ?_ (List.range t.nodes.length) ∅ ?_ x hx
    · intro o i ho y hy
      rcases hn : t.node i with _ | n
      · simp only [hn] at hy
        exact ho y hy
      · rcases hch : n.children with _ | ⟨c, cs⟩
        · simp [hn, hch] at hy
          exact ho y hy
        · simp [hn, hch] at hy
          rcases hy with rfl | hy
          · exact ⟨n, hn, by rw [hch]; exact List.cons_ne_nil _ _⟩
          · exact ho y hy
    · intro y hy
      exact absurd hy (Finset.not_mem_empty y)
  | searchOp q =>
    intro x hx
    rw [show applyOp t (Op.searchOp q) s = search t q s from rfl,
      ws_search_opn] at hx
    exact h x hx

theorem ws_applyOps_openInv (t : UTree) (ops : List Op)
    (s : TreeWidgetState)
    (h : ∀ x ∈ s.opn, ∃ n, t.node x = some n ∧ n.children ≠ []) :
    ∀ x ∈ (applyOps t ops s).opn,
      ∃ n, t.node x = some n ∧ n.children ≠ [] := by
  induction ops generalizing s with
  | nil => exact h
  | cons o rest ih => exact ih (applyOp t o s) (ws_applyOp_openInv t o s h)

/-- C10: in every state reachable from the default state by any sequence
of operations, every id in the open set names a node with a non-empty
children list: `expand` only inserts the selection when its node has
children, `open_node` skips leaves, and `expand_all` inserts only
non-leaf indices. -/
theorem ws_open_nonleaf_invariant (t : UTree) (ops : List Op) (id : Nat)
    (hid : id ∈ (applyOps t ops TreeWidgetState.default).opn) :
    ∃ n, t.node id = some n ∧ n.children ≠ [] :=
  ws_applyOps_openInv t ops TreeWidgetState.default
    (fun x hx => absurd hx (Finset.not_mem_empty x)) id hid

theorem ws_open_nonleaf_invariant_witness :
    0 ∈ (applyOps sampleTree [Op.expandOp] TreeWidgetState.default).opn ∧
    ∃ n, sampleTree.node 0 = some n ∧ n.children ≠ [] :=
  ⟨by decide,
    ws_open_nonleaf_invariant sampleTree [Op.expandOp] 0 (by decide)⟩

theorem ws_position_sound {α : Type} (p : α → Bool) :
    ∀ (l : List α) (i : Nat), position p l = some i →
      ∃ a, l.get? i = some a ∧ p a = true := by
  intro l
  induction l with
  | nil => intro i h; cases h
  | cons a l ih =>
    intro i h
    by_cases hp : p a = true
    · simp only [position, if_pos hp] at h
      cases h
      exact ⟨a, rfl, hp⟩
    · simp only [position, if_neg hp] at h
      rcases hpos : position p l with _ | j
      · rw [hpos] at h
        cases h
      · rw [hpos] at h
        have h' : j + 1 = i := by simpa using h
        subst h'
        obtain ⟨b, hb, hpb⟩ := ih j hpos
        exact ⟨b, hb, hpb⟩

theorem ws_position_of_mem {α : Type} (p : α → Bool) :
    ∀ (l : List α), (∃ x ∈ l, p x = true) →
      ∃ i, position p l = some i := by
  intro l
  induction l with
  | nil =>
    rintro ⟨x, hx, _⟩
    cases hx
  | cons a l ih =>
    rintro ⟨x, hx, hpx⟩
    by_cases hp : p a = true
    · exact ⟨0, by simp [position, hp]⟩
    · rcases List.mem_cons.mp hx with rfl | hx
      · exact absurd hpx hp
      · obtain ⟨i, hi⟩ := ih ⟨x, hx, hpx⟩
        exact ⟨i + 1, by simp [position, hp, hi]⟩

theorem ws_position_head {α : Type} (p : α → Bool) (a : α) (l : List α)
    (h : p a = true) : position p (a :: l) = some 0 := by
  simp [position, h]

theorem ws_get_drop {α : Type} :
    ∀ (l : List α) (i : Nat), (l.drop i).get? 0 = l.get? i := by
  intro l
  induction l with
  | nil => intro i; cases i <;> rfl
  | cons a l ih =>
    intro i
    cases i with
    | zero => rfl
    | succ i => exact ih i

theorem ws_get_drop2 {α : Type} :
    ∀ (l : List α) (i j : Nat), (l.drop i).get? j = l.get? (i + j) := by
  intro l
  induction l with
  | nil => intro i j; cases i <;> rfl
  | cons a l ih =>
    intro i j
    cases i with
    | zero => simp
    | succ i =>
      rw [show i + 1 + j = (i + j) + 1 by omega]
      show (l.drop i).get? j = l.get? (i + j)
      exact ih i j

theorem ws_get_mem {α : Type} :
    ∀ (l : List α) (i : Nat) (a : α), l.get? i = some a → a ∈ l := by
  intro l
  induction l with
  | nil => intro i a h; cases h
  | cons b l ih =>
    intro i a h
    cases i with
    | zero =>
      cases h
      exact List.mem_cons_self _ _
    | succ i => exact List.mem_cons_of_mem _ (ih i a h)

theorem ws_visibleList_congr (t : UTree) (s s' : TreeWidgetState)
    (h1 : s.opn = s'.opn) (h2 : s.dirty = s'.dirty)
    (h3 : s.visible_cache = s'.visible_cache) :
    visibleList t s = visibleList t s' := by
  unfold visibleList visibleUpd
  split
  next hdt =>
    rw [if_pos (by rw [← h2]; exact hdt)]
    show rebuildVisible t s.opn = rebuildVisible t s'.opn
    rw [h1]
  next hdf =>
    rw [if_neg (by rw [← h2]; exact hdf)]
    exact h3

theorem ws_ensure_props (t : UTree) (s : TreeWidgetState) :
    (ensure_selection t s).1.opn = s.opn ∧
    (ensure_selection t s).1.dirty = false ∧
    (ensure_selection t s).1.visible_cache = visibleList t s ∧
    (ensure_selection t s).1.search_query = s.search_query ∧
    (ensure_selection t s).1.search_matches = s.search_matches ∧
    ((ensure_selection t s).2 = true →
      ∃ sel, (ensure_selection t s).1.selected = some sel ∧
        sel ∈ idsOf (visibleList t s)) ∧
    ((ensure_selection t s).2 = false →
      (ensure_selection t s).1.selected = none) ∧
    (∀ sel, s.selected = some sel → sel ∈ idsOf (visibleList t s) →
      ensure_selection t s = (visibleUpd t s, true)) := by
  have hvd : (visibleUpd t s).dirty = false := by
    unfold visibleUpd
    split
    next => rfl
    next h =>
      rcases hb : s.dirty with _ | _
      · rfl
      · exact absurd hb h
  have hvsel : (visibleUpd t s).selected = s.selected :=
    (ws_visibleUpd_opn t s).2
  have hvopn : (visibleUpd t s).opn = s.opn := (ws_visibleUpd_opn t s).1
  have hvq : (visibleUpd t s).search_query = s.search_query := by
    unfold visibleUpd
    split <;> rfl
  have hvm : (visibleUpd t s).search_matches = s.search_matches := by
    unfold visibleUpd
    split <;> rfl
  have hvc' : (visibleUpd t s).visible_cache = visibleList t s := rfl
  rcases hvc : (visibleUpd t s).visible_cache with _ | ⟨v, rest⟩
  · have hif : ensure_selection t s =
        ({ visibleUpd t s with selected := none }, false) := by
      simp [ensure_selection, hvc]
    rw [hif]
    refine ⟨hvopn, hvd, hvc', hvq, hvm, ?_, fun _ => rfl, ?_⟩
    · intro h
      simp at h
    · intro sel hsl hmem
      rw [← hvc', hvc] at hmem
      simp [idsOf] at hmem
  · have hvmem : v.id ∈ idsOf (visibleList t s) := by
      rw [← hvc', hvc, ui_idsOf_cons]
      exact List.mem_cons_self _ _
    rcases hsl : (visibleUpd t s).selected with _ | sel
    · have hif : ensure_selection t s =
          ({ visibleUpd t s with selected := some v.id }, true) := by
        simp [ensure_selection, hvc, hsl]
      rw [hif]
      refine ⟨hvopn, hvd, hvc', hvq, hvm, fun _ => ⟨v.id, rfl, hvmem⟩,
        ?_, ?_⟩
      · intro h
        simp at h
      · intro sel' hsl' hmem'
        rw [hvsel] at hsl
        rw [hsl] at hsl'
        cases hsl'
    · rcases hany : ((v :: rest).any fun n => n.id == sel) with _ | _
      · have hif : ensure_selection t s =
            ({ visibleUpd t s with selected := some v.id }, true) := by
          simp [ensure_selection, hvc, hsl, hany]
        rw [hif]
        refine ⟨hvopn, hvd, hvc', hvq, hvm, fun _ => ⟨v.id, rfl, hvmem⟩,
          ?_, ?_⟩
        · intro h
          simp at h
        · intro sel' hsl' hmem'
          rw [hvsel] at hsl
          rw [hsl] at hsl'
          cases hsl'
          rw [← hvc', hvc] at hmem'
          exfalso
          obtain ⟨x, hx1, hx2⟩ := List.mem_map.mp hmem'
          have : (v :: rest).any (fun n => n.id == sel) = true :=
            List.any_eq_true.mpr ⟨x, hx1, by simp [hx2]⟩
          rw [this] at hany
          cases hany
      · have hif : ensure_selection t s = (visibleUpd t s, true) := by
          simp [ensure_selection, hvc, hsl, hany]
        rw [hif]
        refine ⟨hvopn, hvd, hvc', hvq, hvm, ?_, ?_, fun _ _ _ => rfl⟩
        swap
        · intro h
          simp at h
        intro _
        refine ⟨sel, hsl, ?_⟩
        obtain ⟨x, hx, hxe⟩ := List.any_eq_true.mp hany
        have hxid : x.id = sel := by simpa using hxe
        rw [← hvc', hvc, ← hxid]
        exact List.mem_map_of_mem VisibleNode.id hx

/-- C4 (counterexample): on the tree whose only `zzz` node is hidden
below a closed root, searching `zzz` recomputes the match list as `[1]`
but leaves the selection on the visible root `0` instead of moving it to
the unique match, because `search` only moves the selection to matches
present in the visible sequence. -/
theorem ws_search_counterexample :
    (search searchTree ['z', 'z', 'z']
        TreeWidgetState.default).search_matches = [1] ∧
    (search searchTree ['z', 'z', 'z']
        TreeWidgetState.default).selected = some 0 ∧
    0 ∉ (search searchTree ['z', 'z', 'z']
        TreeWidgetState.default).search_matches := by
  decide

/-- C4 (amended): for a query whose trimmed form is non-empty and whose
lowercased form matches at least one node name, `search` recomputes the
match list as exactly the containment matches, stores the lowercased
needle, never touches the open set, and keeps any resulting selection
inside the visible sequence; when the current selection sits at index
`ci` of the visible sequence, the selection moves to the first visible
match at or after `ci`, otherwise wraps to the first visible match
overall, otherwise stays unchanged — so the selection moves only among
matches present in the visible sequence, never to a match hidden under a
collapsed ancestor. -/
theorem ws_search_amended (t : UTree) (q : List Char) (s : TreeWidgetState)
    (hq : trimChars q ≠ [])
    (hm : matchesOf t (lowerChars (trimChars q)) ≠ []) :
    (search t q s).opn = s.opn ∧
    (search t q s).search_query = some (lowerChars (trimChars q)) ∧
    (search t q s).search_matches = matchesOf t (lowerChars (trimChars q)) ∧
    (∀ id, (search t q s).selected = some id →
      id ∈ idsOf (visibleList t s)) ∧
    (∀ sel, s.selected = some sel → sel ∈ idsOf (visibleList t s) →
      sel ∈ matchesOf t (lowerChars (trimChars q)) →
      (search t q s).selected = some sel) ∧
    (∀ sel ci, s.selected = some sel →
      selected_index (visibleList t s) sel = some ci →
      ((∃ off vn,
          position
            (fun v => (matchesOf t (lowerChars (trimChars q))).contains v.id)
            ((visibleList t s).drop ci) = some off ∧
          (visibleList t s).get? (ci + off) = some vn ∧
          vn.id ∈ matchesOf t (lowerChars (trimChars q)) ∧
          (search t q s).selected = some vn.id) ∨
       (position
          (fun v => (matchesOf t (lowerChars (trimChars q))).contains v.id)
          ((visibleList t s).drop ci) = none ∧
        ((∃ idx vn,
            position
              (fun v =>
                (matchesOf t (lowerChars (trimChars q))).contains v.id)
              (visibleList t s) = some idx ∧
            (visibleList t s).get? idx = some vn ∧
            vn.id ∈ matchesOf t (lowerChars (trimChars q)) ∧
            (search t q s).selected = some vn.id) ∨
         (position
            (fun v =>
              (matchesOf t (lowerChars (trimChars q))).contains v.id)
            (visibleList t s) = none ∧
          (search t q s).selected = some sel))))) := by
  refine ⟨ws_search_opn t q s, ?_⟩
  have hvl : visibleList t
      { s with search_query := some (lowerChars (trimChars q)),
               search_matches := matchesOf t (lowerChars (trimChars q)) } =
      visibleList t s := ws_visibleList_congr t _ s rfl rfl rfl
  have hvu := (ws_visibleUpd_opn t
    { s with search_query := some (lowerChars (trimChars q)),
             search_matches := matchesOf t (lowerChars (trimChars q)) }).2
  have hmemofidx : ∀ sel ci,
      selected_index (visibleList t s) sel = some ci →
      sel ∈ idsOf (visibleList t s) := by
    intro sel ci hci
    have hci' : position (fun n : VisibleNode => n.id == sel)
        (visibleList t s) = some ci := hci
    obtain ⟨vn, hvn, hpvn⟩ := ws_position_sound _ _ _ hci'
    have hid : vn.id = sel := by simpa using hpvn
    rw [← hid]
    exact List.mem_map_of_mem VisibleNode.id (ws_get_mem _ _ _ hvn)
  unfold search
  dsimp only
  rw [if_neg hq, if_neg hm]
  split
  next s₁ heq =>
    have hp := ws_ensure_props t
      { s with search_query := some (lowerChars (trimChars q)),
               search_matches := matchesOf t (lowerChars (trimChars q)) }
    rw [heq] at hp
    have hq1 : s₁.search_query = some (lowerChars (trimChars q)) :=
      hp.2.2.2.1
    have hm1 : s₁.search_matches =
        matchesOf t (lowerChars (trimChars q)) := hp.2.2.2.2.1
    have hnone : s₁.selected = none := hp.2.2.2.2.2.2.1 rfl
    refine ⟨hq1, hm1, ?_, ?_, ?_⟩
    · intro id hid
      rw [hnone] at hid
      cases hid
    · intro sel hsel hmemv hmatch
      have hok := hp.2.2.2.2.2.2.2 sel hsel (by rw [hvl]; exact hmemv)
      have hbad := congrArg Prod.snd hok
      simp at hbad
    · intro sel ci₀ hsel hci
      exfalso
      have hok := hp.2.2.2.2.2.2.2 sel hsel
        (by rw [hvl]; exact hmemofidx sel ci₀ hci)
      have hbad := congrArg Prod.snd hok
      simp at hbad
  next s₁ heq =>
        have hp := ws_ensure_props t
          { s with search_query := some (lowerChars (trimChars q)),
                   search_matches := matchesOf t (lowerChars (trimChars q)) }
        rw [heq] at hp
        have hq1 : s₁.search_query = some (lowerChars (trimChars q)) :=
          hp.2.2.2.1
        have hm1 : s₁.search_matches =
            matchesOf t (lowerChars (trimChars q)) := hp.2.2.2.2.1
        have h3 : s₁.visible_cache = visibleList t
            { s with search_query := some (lowerChars (trimChars q)),
                     search_matches :=
                       matchesOf t (lowerChars (trimChars q)) } := hp.2.2.1
        have hveq : s₁.visible_cache = visibleList t s := h3.trans hvl
        have hpeq : (fun v : VisibleNode =>
            s₁.search_matches.contains v.id) =
            (fun v : VisibleNode =>
              (matchesOf t (lowerChars (trimChars q))).contains v.id) := by
          rw [hm1]
        have h6 : ∃ sel₁, s₁.selected = some sel₁ ∧
            sel₁ ∈ idsOf (visibleList t s) := by
          obtain ⟨sel₁, hs₁, hm₁⟩ := hp.2.2.2.2.2.1 rfl
          rw [hvl] at hm₁
          exact ⟨sel₁, hs₁, hm₁⟩
        have hwrap : ∀ sel, s.selected = some sel →
            sel ∈ idsOf (visibleList t s) → s₁.selected = some sel := by
          intro sel hsel hmemv
          have hok := hp.2.2.2.2.2.2.2 sel hsel (by rw [hvl]; exact hmemv)
          have hfst := congrArg Prod.fst hok
          have hfst' : s₁ = visibleUpd t
              { s with search_query := some (lowerChars (trimChars q)),
                       search_matches :=
                         matchesOf t (lowerChars (trimChars q)) } := hfst
          rw [hfst', hvu]
          exact hsel
        split
        next hsla =>
          refine ⟨hq1, hm1, ?_, ?_, ?_⟩
          · intro id hid
            rw [hsla] at hid
            cases hid
          · intro sel hsel hmemv hmatch
            have hs₁sel := hwrap sel hsel hmemv
            rw [hsla] at hs₁sel
            cases hs₁sel
          · intro sel ci₀ hsel hci
            exfalso
            have hs₁sel := hwrap sel hsel (hmemofidx sel ci₀ hci)
            rw [hsla] at hs₁sel
            cases hs₁sel
        next selA hsla =>
          have hAmem : selA ∈ idsOf (visibleList t s) := by
            obtain ⟨sel₁, hs₁, hm₁⟩ := h6
            rw [hsla] at hs₁
            rw [← Option.some.inj hs₁] at hm₁
            exact hm₁
          split
          next hidx =>
            refine ⟨hq1, hm1, ?_, ?_, ?_⟩
            · intro id hid
              rw [hsla] at hid
              rw [← Option.some.inj hid]
              exact hAmem
            · intro sel hsel hmemv hmatch
              exfalso
              have hmemc : ∃ x ∈ s₁.visible_cache,
                  (x.id == selA) = true := by
                obtain ⟨x, hx1, hx2⟩ := List.mem_map.mp hAmem
                refine ⟨x, ?_, by simp [hx2]⟩
                rw [h3, hvl]
                exact hx1
              obtain ⟨i, hi⟩ := ws_position_of_mem _ _ hmemc
              have hidx' : position (fun n => n.id == selA)
                  s₁.visible_cache = none := hidx
              rw [hi] at hidx'
              cases hidx'
            · intro sel ci₀ hsel hci
              exfalso
              have hs₁sel := hwrap sel hsel (hmemofidx sel ci₀ hci)
              have hAe : selA = sel := Option.some.inj (hsla ▸ hs₁sel)
              have hidx2 : selected_index (visibleList t s) sel = none := by
                rw [← hveq, ← hAe]
                exact hidx
              rw [hci] at hidx2
              cases hidx2
          next ci hidx =>
            have hidx' : position (fun n => n.id == selA)
                s₁.visible_cache = some ci := hidx
            obtain ⟨vn, hvn, hpvn⟩ := ws_position_sound _ _ _ hidx'
            have hvnid : vn.id = selA := by simpa using hpvn
            split
            next hnm =>
              refine ⟨hq1, hm1, ?_, ?_, ?_⟩
              · intro id hid
                rw [hsla] at hid
                rw [← Option.some.inj hid]
                exact hAmem
              · intro sel hsel hmemv hmatch
                exfalso
                have hs₁sel := hwrap sel hsel hmemv
                rw [hsla] at hs₁sel
                have hAe : selA = sel := Option.some.inj hs₁sel
                rcases hdp : s₁.visible_cache.drop ci with _ | ⟨a, tl⟩
                · have h0 := ws_get_drop s₁.visible_cache ci
                  rw [hdp, hvn] at h0
                  cases h0
                · have h0 := ws_get_drop s₁.visible_cache ci
                  rw [hdp, hvn] at h0
                  have ha : a = vn := Option.some.inj h0
                  have hpa : (s₁.search_matches.contains a.id) = true := by
                    rw [ha, hvnid, hAe, hm1]
                    exact List.elem_eq_true_of_mem hmatch
                  have hp0 : position
                      (fun x => s₁.search_matches.contains x.id)
                      (s₁.visible_cache.drop ci) = some 0 := by
                    rw [hdp]
                    exact ws_position_head _ _ _ hpa
                  rw [hp0] at hnm
                  simp at hnm
              · intro sel ci₀ hsel hci
                have hs₁sel := hwrap sel hsel (hmemofidx sel ci₀ hci)
                have hAe : selA = sel := Option.some.inj (hsla ▸ hs₁sel)
                have hidx2 : selected_index (visibleList t s) sel =
                    some ci := by
                  rw [← hveq, ← hAe]
                  exact hidx
                rw [hci] at hidx2
                have hcie : ci = ci₀ := (Option.some.inj hidx2).symm
                rcases hpd : position
                    (fun v => s₁.search_matches.contains v.id)
                    (s₁.visible_cache.drop ci) with _ | off
                · rw [hpd] at hnm
                  have hnm' : position
                      (fun v => s₁.search_matches.contains v.id)
                      s₁.visible_cache = none := hnm
                  refine Or.inr ⟨?_, Or.inr ⟨?_, ?_⟩⟩
                  · rw [← hveq, ← hcie, ← hpeq]
                    exact hpd
                  · rw [← hveq, ← hpeq]
                    exact hnm'
                  · exact hs₁sel
                · rw [hpd] at hnm
                  have hnm' : some (ci + off) = none := hnm
                  cases hnm'
            next idx hnm =>
              split
              next target hget =>
                refine ⟨hq1, hm1, ?_, ?_, ?_⟩
                · intro id hid
                  have hid' : some target.id = some id := hid
                  rw [← Option.some.inj hid']
                  have hmem := ws_get_mem _ _ _ hget
                  rw [h3, hvl] at hmem
                  exact List.mem_map_of_mem VisibleNode.id hmem
                · intro sel hsel hmemv hmatch
                  have hs₁sel := hwrap sel hsel hmemv
                  rw [hsla] at hs₁sel
                  have hAe : selA = sel := Option.some.inj hs₁sel
                  rcases hdp : s₁.visible_cache.drop ci with _ | ⟨a, tl⟩
                  · have h0 := ws_get_drop s₁.visible_cache ci
                    rw [hdp, hvn] at h0
                    cases h0
                  · have h0 := ws_get_drop s₁.visible_cache ci
                    rw [hdp, hvn] at h0
                    have ha : a = vn := Option.some.inj h0
                    have hpa : (s₁.search_matches.contains a.id) = true := by
                      rw [ha, hvnid, hAe, hm1]
                      exact List.elem_eq_true_of_mem hmatch
                    have hp0 : position
                        (fun x => s₁.search_matches.contains x.id)
                        (s₁.visible_cache.drop ci) = some 0 := by
                      rw [hdp]
                      exact ws_position_head _ _ _ hpa
                    rw [hp0] at hnm
                    simp at hnm
                    have hie : idx = ci := by omega
                    rw [hie, hvn] at hget
                    have ht : vn = target := Option.some.inj hget
                    show some target.id = some sel
                    rw [← ht, hvnid, hAe]
                · intro sel ci₀ hsel hci
                  have hs₁sel := hwrap sel hsel (hmemofidx sel ci₀ hci)
                  have hAe : selA = sel := Option.some.inj (hsla ▸ hs₁sel)
                  have hidx2 : selected_index (visibleList t s) sel =
                      some ci := by
                    rw [← hveq, ← hAe]
                    exact hidx
                  rw [hci] at hidx2
                  have hcie : ci = ci₀ := (Option.some.inj hidx2).symm
                  rcases hpd : position
                      (fun v => s₁.search_matches.contains v.id)
                      (s₁.visible_cache.drop ci) with _ | off
                  · rw [hpd] at hnm
                    have hnm' : position
                        (fun v => s₁.search_matches.contains v.id)
                        s₁.visible_cache = some idx := hnm
                    obtain ⟨a, ha, hpa⟩ := ws_position_sound _ _ _ hnm'
                    rw [hget] at ha
                    have hat : target = a := Option.some.inj ha
                    refine Or.inr ⟨?_, Or.inl ⟨idx, target, ?_, ?_, ?_,
                      rfl⟩⟩
                    · rw [← hveq, ← hcie, ← hpeq]
                      exact hpd
                    · rw [← hveq, ← hpeq]
                      exact hnm'
                    · rw [← hveq]
                      exact hget
                    · rw [hat]
                      rw [hm1] at hpa
                      simpa using hpa
                  · rw [hpd] at hnm
                    have hnm' : some (ci + off) = some idx := hnm
                    have hie : ci + off = idx := Option.some.inj hnm'
                    obtain ⟨a, ha, hpa⟩ := ws_position_sound _ _ _ hpd
                    rw [ws_get_drop2] at ha
                    rw [hie, hget] at ha
                    have hat : target = a := Option.some.inj ha
                    refine Or.inl ⟨off, target, ?_, ?_, ?_, rfl⟩
                    · rw [← hveq, ← hcie, ← hpeq]
                      exact hpd
                    · rw [← hveq, ← hcie, hie]
                      exact hget
                    · rw [hat]
                      rw [hm1] at hpa
                      simpa using hpa
              next hget =>
                refine ⟨hq1, hm1, ?_, ?_, ?_⟩
                · intro id hid
                  rw [hsla] at hid
                  rw [← Option.some.inj hid]
                  exact hAmem
                · intro sel hsel hmemv hmatch
                  exfalso
                  have hs₁sel := hwrap sel hsel hmemv
                  rw [hsla] at hs₁sel
                  have hAe : selA = sel := Option.some.inj hs₁sel
                  rcases hdp : s₁.visible_cache.drop ci with _ | ⟨a, tl⟩
                  · have h0 := ws_get_drop s₁.visible_cache ci
                    rw [hdp, hvn] at h0
                    cases h0
                  · have h0 := ws_get_drop s₁.visible_cache ci
                    rw [hdp, hvn] at h0
                    have ha : a = vn := Option.some.inj h0
                    have hpa : (s₁.search_matches.contains a.id) = true := by
                      rw [ha, hvnid, hAe, hm1]
                      exact List.elem_eq_true_of_mem hmatch
                    have hp0 : position
                        (fun x => s₁.search_matches.contains x.id)
                        (s₁.visible_cache.drop ci) = some 0 := by
                      rw [hdp]
                      exact ws_position_head _ _ _ hpa
                    rw [hp0] at hnm
                    simp at hnm
                    have hie : idx = ci := by omega
                    rw [hie, hvn] at hget
                    cases hget
                · intro sel ci₀ hsel hci
                  exfalso
                  have hs₁sel := hwrap sel hsel (hmemofidx sel ci₀ hci)
                  have hAe : selA = sel := Option.some.inj (hsla ▸ hs₁sel)
                  rcases hpd : position
                      (fun v => s₁.search_matches.contains v.id)
                      (s₁.visible_cache.drop ci) with _ | off
                  · rw [hpd] at hnm
                    have hnm' : position
                        (fun v => s₁.search_matches.contains v.id)
                        s₁.visible_cache = some idx := hnm
                    obtain ⟨a, ha, hpa⟩ := ws_position_sound _ _ _ hnm'
                    rw [hget] at ha
                    cases ha
                  · rw [hpd] at hnm
                    have hnm' : some (ci + off) = some idx := hnm
                    obtain ⟨a, ha, hpa⟩ := ws_position_sound _ _ _ hpd
                    rw [ws_get_drop2] at ha
                    rw [Option.some.inj hnm', hget] at ha
                    cases ha

theorem ws_search_amended_witness :
    trimChars ['b'] ≠ [] ∧
    matchesOf sampleTree (lowerChars (trimChars ['b'])) ≠ [] ∧
    (search sampleTree ['b']
        (⟨{0}, some 0, 0, [], true, none, []⟩
          : TreeWidgetState)).search_matches =
      matchesOf sampleTree (lowerChars (trimChars ['b'])) ∧
    (search sampleTree ['b']
        (⟨{0}, some 0, 0, [], true, none, []⟩
          : TreeWidgetState)).selected = some 2 := by
  refine ⟨by decide, by decide,
    (ws_search_amended sampleTree ['b']
      (⟨{0}, some 0, 0, [], true, none, []⟩ : TreeWidgetState)
      (by decide) (by decide)).2.2.1, ?_⟩
  have h := (ws_search_amended sampleTree ['b']
    (⟨{0}, some 0, 0, [], true, none, []⟩ : TreeWidgetState)
    (by decide) (by decide)).2.2.2.2.2 0 0 rfl (by decide)
  have hp2 : position
      (fun v : VisibleNode =>
        (matchesOf sampleTree (lowerChars (trimChars ['b']))).contains v.id)
      ((visibleList sampleTree
        (⟨{0}, some 0, 0, [], true, none, []⟩
          : TreeWidgetState)).drop 0) = some 2 := by
    decide
  rcases h with ⟨off, vn, hp, hg, hmv, hs⟩ | ⟨hp, h⟩
  · rw [hp2] at hp
    rw [← Option.some.inj hp] at hg
    have hg2 : (visibleList sampleTree
        (⟨{0}, some 0, 0, [], true, none, []⟩
          : TreeWidgetState)).get? (0 + 2) =
        some (⟨2, 1⟩ : VisibleNode) := by
      decide
    rw [hg2] at hg
    rw [← Option.some.inj hg] at hs
    exact hs
  · rw [hp2] at hp
    cases hp

theorem ui_walk_zero (t : UTree) (op : Finset Nat) (ids : List Nat)
    (d : Nat) : walkList t op 0 ids d = [] := by
  induction ids with
  | nil => rfl
  | cons i rest ih => simpa [ui_walk_cons, ui_collect_zero] using ih

theorem ui_vis_child (t : UTree)
    (hinc : ∀ i n, t.node i = some n → ∀ c ∈ n.children, i < c)
    (op : Finset Nat) (sel : Nat) (hop : sel ∈ op) (n : UNode)
    (hn : t.node sel = some n) (c : Nat) (hc : c ∈ n.children) :
    ∀ f ids d, (∀ i ∈ ids, t.nodes.length < i + f) →
      sel ∈ idsOf (walkList t op f ids d) →
      c ∈ idsOf (walkList t op f ids d) := by
  have hsellt : sel < t.nodes.length := (List.get?_eq_some.mp hn).1
  intro f
  induction f with
  | zero =>
    intro ids d _ hmem
    rw [ui_walk_zero] at hmem
    cases hmem
  | succ f ih =>
    intro ids
    induction ids with
    | nil =>
      intro d _ hmem
      rw [ui_walk_nil] at hmem
      cases hmem
    | cons i rest ihl =>
      intro d hfh hmem
      rw [ui_walk_cons, ui_idsOf_append] at hmem ⊢
      rcases List.mem_append.mp hmem with h1 | h2
      · apply List.mem_append_left
        by_cases hieq : i = sel
        · subst hieq
          rw [ui_collect_succ_of_mem t op f i d n hop hn, ui_idsOf_cons]
          refine List.mem_cons_of_mem _ ?_
          exact ui_launch_mem t op f n.children (d + 1) c hc
            (by have := hfh i (List.mem_cons_self _ _); omega)
        · have hiop : i ∈ op := by
            by_contra hiop
            rw [ui_collect_succ_of_notmem t op f i d hiop] at h1
            rcases List.mem_cons.mp h1 with h | h
            · exact hieq h.symm
            · cases h
          rcases hni : t.node i with _ | m
          · rw [ui_collect_succ_of_nonode t op f i d hni] at h1
            rcases List.mem_cons.mp h1 with h | h
            · exact absurd h.symm hieq
            · cases h
          · have hbody : sel ∈ idsOf (walkList t op f m.children (d + 1)) := by
              rw [ui_collect_succ_of_mem t op f i d m hiop hni,
                ui_idsOf_cons] at h1
              rcases List.mem_cons.mp h1 with h | h
              · exact absurd h.symm hieq
              · exact h
            rw [ui_collect_succ_of_mem t op f i d m hiop hni, ui_idsOf_cons]
            refine List.mem_cons_of_mem _ ?_
            exact ih m.children (d + 1)
              (fun c' hc' => by
                have := hinc i m hni c' hc'
                have := hfh i (List.mem_cons_self _ _)
                omega)
              hbody
      · exact List.mem_append_right _
          (ihl d (fun j hj => hfh j (List.mem_cons_of_mem _ hj)) h2)

theorem ui_walk_par (t : UTree) (op : Finset Nat) (sel : Nat) :
    ∀ f ids d, sel ∈ idsOf (walkList t op f ids d) →
      sel ∈ ids ∨ ∃ j m, j ∈ op ∧ t.node j = some m ∧ sel ∈ m.children ∧
        j ∈ idsOf (walkList t op f ids d) := by
  intro f
  induction f with
  | zero =>
    intro ids d hmem
    rw [ui_walk_zero] at hmem
    cases hmem
  | succ f ih =>
    intro ids
    induction ids with
    | nil =>
      intro d hmem
      rw [ui_walk_nil] at hmem
      cases hmem
    | cons i rest ihl =>
      intro d hmem
      rw [ui_walk_cons, ui_idsOf_append] at hmem
      rcases List.mem_append.mp hmem with h1 | h2
      · by_cases hieq : i = sel
        · exact Or.inl (by rw [hieq]; exact List.mem_cons_self _ _)
        · have hiop : i ∈ op := by
            by_contra hiop
            rw [ui_collect_succ_of_notmem t op f i d hiop] at h1
            rcases List.mem_cons.mp h1 with h | h
            · exact hieq h.symm
            · cases h
          rcases hni : t.node i with _ | m
          · rw [ui_collect_succ_of_nonode t op f i d hni] at h1
            rcases List.mem_cons.mp h1 with h | h
            · exact absurd h.symm hieq
            · cases h
          · have hbody : sel ∈ idsOf (walkList t op f m.children (d + 1)) := by
              rw [ui_collect_succ_of_mem t op f i d m hiop hni,
                ui_idsOf_cons] at h1
              rcases List.mem_cons.mp h1 with h | h
              · exact absurd h.symm hieq
              · exact h
            have hhead : ∀ x, x ∈ idsOf (walkList t op f m.children (d + 1))
                → x ∈ idsOf (collectVisible t op (f + 1) i d) := by
              intro x hx
              rw [ui_collect_succ_of_mem t op f i d m hiop hni,
                ui_idsOf_cons]
              exact List.mem_cons_of_mem _ hx
            rcases ih m.children (d + 1) hbody with hin |
              ⟨j, m', hj, hm', hselc, hjmem⟩
            · refine Or.inr ⟨i, m, hiop, hni, hin, ?_⟩
              rw [ui_walk_cons, ui_idsOf_append]
              apply List.mem_append_left
              rw [ui_collect_succ_of_mem t op f i d m hiop hni,
                ui_idsOf_cons]
              exact List.mem_cons_self _ _
            · refine Or.inr ⟨j, m', hj, hm', hselc, ?_⟩
              rw [ui_walk_cons, ui_idsOf_append]
              exact List.mem_append_left _ (hhead j hjmem)
      · rcases ihl d h2 with hin | ⟨j, m', hj, hm', hselc, hjmem⟩
        · exact Or.inl (List.mem_cons_of_mem _ hin)
        · refine Or.inr ⟨j, m', hj, hm', hselc, ?_⟩
          rw [ui_walk_cons, ui_idsOf_append]
          exact List.mem_append_right _ hjmem

theorem ui_flatMap_disjoint {α β : Type} (f : α → List β) :
    ∀ (l : List α), (l.flatMap f).Nodup →
      ∀ i j a b, i ≠ j → l.get? i = some a → l.get? j = some b →
      ∀ x ∈ f a, x ∉ f b := by
  intro l
  induction l with
  | nil =>
    intro _ i j a b _ ha
    cases ha
  | cons hd tl ih =>
    intro hnd i j a b hij ha hb x hxa hxb
    rw [List.flatMap_cons] at hnd
    have hnd1 := List.nodup_append.mp hnd
    cases i with
    | zero =>
      cases ha
      cases j with
      | zero => exact hij rfl
      | succ j' =>
        have hbmem : b ∈ tl := ws_get_mem tl j' b hb
        exact hnd1.2.2 hxa (List.mem_flatMap.mpr ⟨b, hbmem, hxb⟩)
    | succ i' =>
      cases j with
      | zero =>
        cases hb
        have hamem : a ∈ tl := ws_get_mem tl i' a ha
        exact hnd1.2.2 hxb (List.mem_flatMap.mpr ⟨a, hamem, hxa⟩)
      | succ j' =>
        exact ih hnd1.2.1 i' j' a b (fun h => hij (by rw [h])) ha hb x
          hxa hxb

theorem ui_parent_unique (t : UTree)
    (hslots : (t.roots ++ t.nodes.flatMap fun n => n.children).Nodup)
    (j p : Nat) (nj np : UNode) (hj : t.node j = some nj)
    (hp : t.node p = some np) (sel : Nat) (hsj : sel ∈ nj.children)
    (hsp : sel ∈ np.children) : j = p := by
  by_contra hne
  exact ui_flatMap_disjoint _ t.nodes (List.nodup_append.mp hslots).2.1
    j p nj np hne hj hp sel hsj hsp

theorem ui_root_not_child (t : UTree)
    (hslots : (t.roots ++ t.nodes.flatMap fun n => n.children).Nodup)
    (r : Nat) (hr : r ∈ t.roots) (j : Nat) (nj : UNode)
    (hj : t.node j = some nj) : r ∉ nj.children := by
  intro hc
  exact (List.nodup_append.mp hslots).2.2 hr
    (List.mem_flatMap.mpr ⟨nj, ws_get_mem t.nodes j nj hj, hc⟩)

theorem ui_vis_parent (t : UTree) (hwf : WF t) (op : Finset Nat) (sel : Nat)
    (hmem : sel ∈ idsOf (rebuildVisible t op)) (n : UNode)
    (hn : t.node sel = some n) (p : Nat) (hp : n.parent = some p) :
    p ∈ op ∧ p ∈ idsOf (rebuildVisible t op) := by
  obtain ⟨pn, hpn, hselc⟩ := hwf.sym sel n p hn hp
  rcases ui_walk_par t op sel (fullFuel t) t.roots 0 hmem with hin |
    ⟨j, m, hj, hm, hselc', hjmem⟩
  · exact absurd hselc (ui_root_not_child t hwf.slots sel hin p pn hpn)
  · have hje : j = p :=
      ui_parent_unique t hwf.slots j p m pn hm hpn sel hselc' hselc
    rw [hje] at hj hjmem
    exact ⟨hj, hjmem⟩

theorem ws_cacheinv_visibleList (t : UTree) (s : TreeWidgetState)
    (hc : CacheInv t s) : visibleList t s = rebuildVisible t s.opn := by
  unfold visibleList visibleUpd
  split
  next => rfl
  next hdf =>
    rcases hc with hd | hcc
    · exact absurd hd hdf
    · exact hcc

theorem ws_ensure_state_inv (t : UTree) (s : TreeWidgetState)
    (hc : CacheInv t s) :
    Inv t (ensure_selection t s).1 ∧
    (ensure_selection t s).1.opn = s.opn ∧
    (ensure_selection t s).1.visible_cache = rebuildVisible t s.opn ∧
    (ensure_selection t s).1.dirty = false := by
  have hp := ws_ensure_props t s
  have hv := ws_cacheinv_visibleList t s hc
  have h1 : (ensure_selection t s).1.opn = s.opn := hp.1
  have h3 : (ensure_selection t s).1.visible_cache =
      rebuildVisible t s.opn := by
    rw [hp.2.2.1, hv]
  refine ⟨⟨Or.inr (by rw [h3, h1]), ?_⟩, h1, h3, hp.2.1⟩
  intro id hid
  rw [h1]
  rcases hok : (ensure_selection t s).2 with _ | _
  · rw [hp.2.2.2.2.2.2.1 hok] at hid
    cases hid
  · obtain ⟨sel, hsel, hmem⟩ := hp.2.2.2.2.2.1 hok
    rw [hsel] at hid
    rw [← Option.some.inj hid, ← hv]
    exact hmem

theorem ws_next_inv (t : UTree) (s : TreeWidgetState) (h : Inv t s) :
    Inv t (select_next t s) := by
  unfold select_next
  split
  next s₁ heq =>
    have hei := ws_ensure_state_inv t s h.1
    rw [heq] at hei
    exact hei.1
  next s₁ heq =>
    have hei := ws_ensure_state_inv t s h.1
    rw [heq] at hei
    have hinv₁ : Inv t s₁ := hei.1
    have hopn : s₁.opn = s.opn := hei.2.1
    have hcache : s₁.visible_cache = rebuildVisible t s.opn := hei.2.2.1
    split
    next => exact hinv₁
    next sel hsl =>
      split
      next => exact hinv₁
      next ci hci =>
        split
        next nx hnx =>
          refine ⟨hinv₁.1, ?_⟩
          intro id hid
          have hid' : some nx.id = some id := hid
          rw [← Option.some.inj hid']
          show nx.id ∈ idsOf (rebuildVisible t s₁.opn)
          rw [hopn, ← hcache]
          exact List.mem_map_of_mem VisibleNode.id (ws_get_mem _ _ _ hnx)
        next => exact hinv₁

theorem ws_prev_inv (t : UTree) (s : TreeWidgetState) (h : Inv t s) :
    Inv t (select_previous t s) := by
  unfold select_previous
  split
  next s₁ heq =>
    have hei := ws_ensure_state_inv t s h.1
    rw [heq] at hei
    exact hei.1
  next s₁ heq =>
    have hei := ws_ensure_state_inv t s h.1
    rw [heq] at hei
    have hinv₁ : Inv t s₁ := hei.1
    have hopn : s₁.opn = s.opn := hei.2.1
    have hcache : s₁.visible_cache = rebuildVisible t s.opn := hei.2.2.1
    split
    next => exact hinv₁
    next sel hsl =>
      split
      next => exact hinv₁
      next ci hci =>
        split
        next =>
          split
          next pv hpv =>
            refine ⟨hinv₁.1, ?_⟩
            intro id hid
            have hid' : some pv.id = some id := hid
            rw [← Option.some.inj hid']
            show pv.id ∈ idsOf (rebuildVisible t s₁.opn)
            rw [hopn, ← hcache]
            exact List.mem_map_of_mem VisibleNode.id (ws_get_mem _ _ _ hpv)
          next => exact hinv₁
        next => exact hinv₁

theorem ws_moveby_inv (t : UTree) (s : TreeWidgetState) (delta : Int)
    (h : Inv t s) : Inv t (move_by t s delta) := by
  unfold move_by
  split
  next s₁ heq =>
    have hei := ws_ensure_state_inv t s h.1
    rw [heq] at hei
    exact hei.1
  next s₁ heq =>
    have hei := ws_ensure_state_inv t s h.1
    rw [heq] at hei
    have hinv₁ : Inv t s₁ := hei.1
    have hopn : s₁.opn = s.opn := hei.2.1
    have hcache : s₁.visible_cache = rebuildVisible t s.opn := hei.2.2.1
    split
    next => exact hinv₁
    next sel hsl =>
      split
      next => exact hinv₁
      next ci hci =>
        dsimp only
        split
        next => exact hinv₁
        next =>
          split
          next v hv =>
            refine ⟨hinv₁.1, ?_⟩
            intro id hid
            have hid' : some v.id = some id := hid
            rw [← Option.some.inj hid']
            show v.id ∈ idsOf (rebuildVisible t s₁.opn)
            rw [hopn, ← hcache]
            exact List.mem_map_of_mem VisibleNode.id (ws_get_mem _ _ _ hv)
          next => exact hinv₁

theorem ws_expand_inv (t : UTree) (hwf : WF t) (s : TreeWidgetState)
    (h : Inv t s) : Inv t (expand t s) := by
  unfold expand
  split
  next s₁ heq =>
    have hei := ws_ensure_state_inv t s h.1
    rw [heq] at hei
    exact hei.1
  next s₁ heq =>
    have hei := ws_ensure_state_inv t s h.1
    rw [heq] at hei
    have hinv₁ : Inv t s₁ := hei.1
    split
    next => exact hinv₁
    next sel hsl =>
      split
      next => exact hinv₁
      next n hn =>
        split
        next => exact hinv₁
        next c0 cs hch =>
          split
          next hopen =>
            refine ⟨hinv₁.1, ?_⟩
            intro id hid
            have hid' : some c0 = some id := hid
            rw [← Option.some.inj hid']
            show c0 ∈ idsOf (rebuildVisible t s₁.opn)
            exact ui_vis_child t hwf.inc s₁.opn sel hopen n hn c0
              (by rw [hch]; exact List.mem_cons_self _ _) (fullFuel t)
              t.roots 0
              (fun i _ => by
                rw [show fullFuel t = t.nodes.length + 1 from rfl]; omega)
              (hinv₁.2 sel hsl)
          next hopen =>
            refine ⟨Or.inl rfl, ?_⟩
            intro id hid
            have hid' : s₁.selected = some id := hid
            rw [hsl] at hid'
            rw [← Option.some.inj hid']
            show sel ∈ idsOf (rebuildVisible t (insert sel s₁.opn))
            exact (ui_walk_sublist t s₁.opn (insert sel s₁.opn)
              (fun i hi => Finset.mem_insert_of_mem hi) (fullFuel t)
              t.roots 0).subset (hinv₁.2 sel hsl)

theorem ws_collapse_inv (t : UTree) (hwf : WF t) (s : TreeWidgetState)
    (h : Inv t s) : Inv t (collapse t s) := by
  unfold collapse
  split
  next s₁ heq =>
    have hei := ws_ensure_state_inv t s h.1
    rw [heq] at hei
    exact hei.1
  next s₁ heq =>
    have hei := ws_ensure_state_inv t s h.1
    rw [heq] at hei
    have hinv₁ : Inv t s₁ := hei.1
    split
    next => exact hinv₁
    next sel hsl =>
      split
      next => exact hinv₁
      next n hn =>
        split
        next hcond =>
          obtain ⟨hchne, hopen⟩ := hcond
          refine ⟨Or.inl rfl, ?_⟩
          intro id hid
          have hid' : s₁.selected = some id := hid
          rw [hsl] at hid'
          rw [← Option.some.inj hid']
          show sel ∈ idsOf (rebuildVisible t (s₁.opn.erase sel))
          obtain ⟨A, S, B, dep, heq1, hselA, hdep, hS, hBh, heq2⟩ :=
            ui_split_erase t s₁.opn sel hopen (fullFuel t) t.roots 0
              (by rw [show fullFuel t = t.nodes.length + 1 from rfl]; omega)
              (hinv₁.2 sel hsl) (ui_nodup_any t hwf.nodupFull s₁.opn)
          have hre2 : rebuildVisible t (s₁.opn.erase sel) =
              A ++ ⟨sel, dep⟩ :: B := heq2
          rw [hre2, ui_idsOf_append, ui_idsOf_cons]
          exact List.mem_append_right _ (List.mem_cons_self _ _)
        next hcond =>
          split
          next p hp =>
            refine ⟨hinv₁.1, ?_⟩
            intro id hid
            have hid' : some p = some id := hid
            rw [← Option.some.inj hid']
            show p ∈ idsOf (rebuildVisible t s₁.opn)
            exact (ui_vis_parent t hwf s₁.opn sel (hinv₁.2 sel hsl) n hn
              p hp).2
          next => exact hinv₁

theorem ws_parent_inv (t : UTree) (hwf : WF t) (s : TreeWidgetState)
    (h : Inv t s) : Inv t (select_parent t s) := by
  unfold select_parent
  split
  next => exact h
  next sel hsl =>
    split
    next => exact h
    next n hn =>
      split
      next p hp =>
        refine ⟨h.1, ?_⟩
        intro id hid
        have hid' : some p = some id := hid
        rw [← Option.some.inj hid']
        show p ∈ idsOf (rebuildVisible t s.opn)
        exact (ui_vis_parent t hwf s.opn sel (h.2 sel hsl) n hn p hp).2
      next => exact h

theorem ws_nextsib_inv (t : UTree) (hwf : WF t) (s : TreeWidgetState)
    (h : Inv t s) : Inv t (select_next_sibling t s) := by
  unfold select_next_sibling
  split
  next => exact h
  next sel hsl =>
    split
    next => exact h
    next n hn =>
      split
      next => exact h
      next par hpar =>
        split
        next => exact h
        next pn hpn =>
          split
          next => exact h
          next pos hpos =>
            split
            next hlt =>
              split
              next sib hsib =>
                refine ⟨h.1, ?_⟩
                intro id hid
                have hid' : some sib = some id := hid
                rw [← Option.some.inj hid']
                show sib ∈ idsOf (rebuildVisible t s.opn)
                have hpp := ui_vis_parent t hwf s.opn sel (h.2 sel hsl) n hn
                  par hpar
                exact ui_vis_child t hwf.inc s.opn par hpp.1 pn hpn sib
                  (ws_get_mem _ _ _ hsib) (fullFuel t) t.roots 0
                  (fun i _ => by
                    rw [show fullFuel t = t.nodes.length + 1 from rfl]
                    omega)
                  hpp.2
              next => exact h
            next => exact h

theorem ws_prevsib_inv (t : UTree) (hwf : WF t) (s : TreeWidgetState)
    (h : Inv t s) : Inv t (select_previous_sibling t s) := by
  unfold select_previous_sibling
  split
  next => exact h
  next sel hsl =>
    split
    next => exact h
    next n hn =>
      split
      next => exact h
      next par hpar =>
        split
        next => exact h
        next pn hpn =>
          split
          next => exact h
          next pos hpos =>
            split
            next hlt =>
              split
              next sib hsib =>
                refine ⟨h.1, ?_⟩
                intro id hid
                have hid' : some sib = some id := hid
                rw [← Option.some.inj hid']
                show sib ∈ idsOf (rebuildVisible t s.opn)
                have hpp := ui_vis_parent t hwf s.opn sel (h.2 sel hsl) n hn
                  par hpar
                exact ui_vis_child t hwf.inc s.opn par hpp.1 pn hpn sib
                  (ws_get_mem _ _ _ hsib) (fullFuel t) t.roots 0
                  (fun i _ => by
                    rw [show fullFuel t = t.nodes.length + 1 from rfl]
                    omega)
                  hpp.2
              next => exact h
            next => exact h

theorem ws_otd_inv (t : UTree) (s : TreeWidgetState) (d : Nat)
    (h : Inv t s) : Inv t (open_to_depth t s d) := by
  unfold open_to_depth
  dsimp only
  split
  next => exact h
  next =>
    exact (ws_ensure_state_inv t
      { s with opn := t.roots.foldl (fun o r => open_node t (d - 1) r o) ∅,
               dirty := true }
      (Or.inl rfl)).1

theorem ws_expandall_inv (t : UTree) (s : TreeWidgetState)
    (h : Inv t s) : Inv t (expand_all t s) := by
  unfold expand_all
  dsimp only
  exact (ws_ensure_state_inv t
    { s with
      opn := List.foldl
        (fun o i =>
          match t.node i with
          | some n => if n.children = [] then o else insert i o
          | none => o)
        ∅ (List.range t.nodes.length),
      dirty := true }
    (Or.inl rfl)).1

theorem ws_searchop_inv (t : UTree) (q : List Char) (s : TreeWidgetState)
    (h : Inv t s) : Inv t (search t q s) := by
  unfold search
  dsimp only
  split
  next => exact ⟨h.1, fun id hid => h.2 id hid⟩
  next =>
    split
    next => exact ⟨h.1, fun id hid => h.2 id hid⟩
    next =>
      split
      next s₁ heq =>
        have hei := ws_ensure_state_inv t
          { s with search_query := some (lowerChars (trimChars q)),
                   search_matches := matchesOf t (lowerChars (trimChars q)) }
          h.1
        rw [heq] at hei
        exact hei.1
      next s₁ heq =>
        have hei := ws_ensure_state_inv t
          { s with search_query := some (lowerChars (trimChars q)),
                   search_matches := matchesOf t (lowerChars (trimChars q)) }
          h.1
        rw [heq] at hei
        have hinv₁ : Inv t s₁ := hei.1
        have hopn : s₁.opn = s.opn := hei.2.1
        have hcache : s₁.visible_cache = rebuildVisible t s.opn := hei.2.2.1
        split
        next => exact hinv₁
        next sel hsl =>
          split
          next => exact hinv₁
          next ci hci =>
            split
            next => exact hinv₁
            next idx hnm =>
              split
              next target hget =>
                refine ⟨hinv₁.1, ?_⟩
                intro id hid
                have hid' : some target.id = some id := hid
                rw [← Option.some.inj hid']
                show target.id ∈ idsOf (rebuildVisible t s₁.opn)
                rw [hopn, ← hcache]
                exact List.mem_map_of_mem VisibleNode.id
                  (ws_get_mem _ _ _ hget)
              next => exact hinv₁

theorem ws_applyOp_inv (t : UTree) (hwf : WF t) (o : Op)
    (s : TreeWidgetState) (h : Inv t s) : Inv t (applyOp t o s) := by
  cases o with
  | next => exact ws_next_inv t s h
  | prev => exact ws_prev_inv t s h
  | expandOp => exact ws_expand_inv t hwf s h
  | collapseOp => exact ws_collapse_inv t hwf s h
  | parentOp => exact ws_parent_inv t hwf s h
  | nextSib => exact ws_nextsib_inv t hwf s h
  | prevSib => exact ws_prevsib_inv t hwf s h
  | pageUp => exact ws_moveby_inv t s _ h
  | pageDown => exact ws_moveby_inv t s _ h
  | openToDepth d => exact ws_otd_inv t s d h
  | expandAll => exact ws_expandall_inv t s h
  | searchOp q => exact ws_searchop_inv t q s h

theorem ws_applyOps_inv (t : UTree) (hwf : WF t) (ops : List Op)
    (s : TreeWidgetState) (h : Inv t s) : Inv t (applyOps t ops s) := by
  induction ops generalizing s with
  | nil => exact h
  | cons o rest ih => exact ih (applyOp t o s) (ws_applyOp_inv t hwf o s h)

/-- C8: on every well-formed tree, in every state reachable from the
default state by any operation sequence, a `Some id` selection names a
node of the current visible sequence (the list `visible_nodes` would
return); operations re-validate via `ensure_selection`, which defaults to
the first visible node and clears the selection when nothing is
visible. -/
theorem ws_selected_visible_invariant (t : UTree) (hwf : WF t)
    (ops : List Op) (id : Nat)
    (hsel : (applyOps t ops TreeWidgetState.default).selected = some id) :
    id ∈ idsOf (visibleList t (applyOps t ops TreeWidgetState.default)) := by
  have hinv : Inv t (applyOps t ops TreeWidgetState.default) :=
    ws_applyOps_inv t hwf ops TreeWidgetState.default
      ⟨Or.inl rfl, fun i hi => Option.noConfusion hi⟩
  rw [ws_cacheinv_visibleList t _ hinv.1]
  exact hinv.2 id hsel

theorem ws_selected_visible_invariant_witness :
    (applyOps sampleTree [Op.expandAll]
        TreeWidgetState.default).selected = some 0 ∧
    0 ∈ idsOf (visibleList sampleTree
        (applyOps sampleTree [Op.expandAll] TreeWidgetState.default)) :=
  ⟨by decide,
    ws_selected_visible_invariant sampleTree
      (ui_WF_of_checks sampleTree (by decide) (by decide) (by decide)
        (by decide))
      [Op.expandAll] 0 (by decide)⟩

end WSThms

end CTT
